import Mathlib

/-!
# Verification of the rolling quantile / median filter kernels

Shallow embedding of
`crates/polars-arrow/src/legacy/kernels/rolling/quantile_filter.rs` and
`crates/polars-arrow/src/legacy/kernels/rolling/median_filter.rs`.

Conventions of the embedding:
* Elements are `Int` (the kernel is generic over a totally ordered numeric
  type; all claims are settled over the integer instance, where the
  `NumCast` conversion of the interpolation fraction truncates toward zero).
* The `f64` quantile argument is modelled as `ℚ` with exact arithmetic.
  Every concrete quantile appearing in a theorem below is a small dyadic
  rational (`1/2`, `1/4`), for which `f64` arithmetic on the window lengths
  involved is exact, so the model coincides with the Rust computation.
* Rust panics (`panic!()`, `Option::unwrap` on `None`, out-of-bounds
  indexing, division by zero) are modelled by `Option.none`; a normal
  return of `v` is `some v`.
* `Vec<u32>` link buffers are modelled as `List Nat`; `self.next[i] = v`
  becomes `List.set`, reads become `List.getD`.  The kernel only ever
  reads and writes slots `0..=k` of buffers of length `k+1`.
-/

namespace QuantileFilter

/-- Read a link slot (Rust `self.next[i]` / `self.prev[i]`). -/
def lget (l : List Nat) (i : Nat) : Nat := l.getD i 0

/-- `(T, u32)` pairs ordered lexicographically, as produced by
`Block::get_pair` and compared with `partial_cmp(..).unwrap()`. -/
def pcmp (a b : Int × Nat) : Ordering :=
  if a.1 < b.1 then .lt
  else if b.1 < a.1 then .gt
  else if a.2 < b.2 then .lt
  else if b.2 < a.2 then .gt
  else .eq

/-- Lexicographic `≤` on `(value, index)` pairs (the kernel's stable order). -/
def pairLe (a b : Int × Nat) : Prop :=
  a.1 < b.1 ∨ (a.1 = b.1 ∧ a.2 ≤ b.2)

instance : DecidablePred fun ab : (Int × Nat) × (Int × Nat) => pairLe ab.1 ab.2 :=
  fun _ => by unfold pairLe; infer_instance

instance (a b : Int × Nat) : Decidable (pairLe a b) := by unfold pairLe; infer_instance

/-- The `(value, index)` pair of position `i` over the value slice `alpha`. -/
def pairOf (alpha : List Int) (i : Nat) : Int × Nat := (alpha.getD i 0, i)

/-- Modelled from the spec: `arg_sort_ascending` (in `polars_utils::sort`,
outside the provided sources) returns the permutation of `0..k` sorting
`alpha` ascending, stable on ties.  Stability plus tie-breaking by index is
exactly sortedness in the lexicographic `(value, index)` order, which has no
ties, so the result is the unique such permutation; we compute it by
insertion sort on indices. -/
def insertIdx (alpha : List Int) (i : Nat) : List Nat → List Nat
  | [] => [i]
  | j :: rest =>
    if pairLe (pairOf alpha i) (pairOf alpha j) then i :: j :: rest
    else j :: insertIdx alpha i rest

/-- Modelled from the spec: stable ascending argsort (see `insertIdx`). -/
def argSortAsc (alpha : List Int) : List Nat :=
  (List.range alpha.length).foldr (insertIdx alpha) []

/-- The `Block` state (`quantile_filter.rs`, lines 15-27).  `tail = k`. -/
structure Block where
  k : Nat
  alpha : List Int
  pi : List Nat
  prev : List Nat
  next : List Nat
  m : Nat
  currentIndex : Nat
  nElement : Nat
  deriving Repr, DecidableEq

namespace Block

/-- The sentinel index. -/
def tail (b : Block) : Nat := b.k

/-- `Block::init_links`: thread `tail → pi[0] → … → pi[k-1] → tail`. -/
def initLinksGo : Nat → List Nat → List Nat → List Nat → Nat × List Nat × List Nat
  | p, [], prev, next => (p, prev, next)
  | p, q :: rest, prev, next =>
    initLinksGo q rest (prev.set q p) (next.set p q)

def initLinks (b : Block) : Block :=
  let (p, prev, next) := initLinksGo b.tail b.pi b.prev b.next
  { b with next := next.set p b.tail, prev := prev.set b.tail p }

/-- `Block::new` (the caller guarantees `alpha` nonempty;
`pi[k/2]` is modelled with a default that is never hit for nonempty input). -/
def new (alpha : List Int) : Block :=
  let k := alpha.length
  let pi := argSortAsc alpha
  let mIndex := k / 2
  let m := pi.getD mIndex 0
  initLinks
    { k := k, alpha := alpha, pi := pi
      prev := List.replicate (k + 1) 0
      next := List.replicate (k + 1) 0
      m := m, currentIndex := mIndex, nElement := k }

def capacity (b : Block) : Nat := b.alpha.length

def atEnd (b : Block) : Bool := b.m == b.tail

def isEmpty (b : Block) : Bool := b.nElement == 0

/-- `Block::delete_link` (the two assignments in source order; the second
read of `next[i]` sees the first write). -/
def deleteLink (b : Block) (i : Nat) : Block :=
  let next1 := b.next.set (lget b.prev i) (lget b.next i)
  let prev1 := b.prev.set (lget next1 i) (lget b.prev i)
  { b with next := next1, prev := prev1 }

/-- `Block::undelete_link`. -/
def undeleteLink (b : Block) (i : Nat) : Block :=
  let next1 := b.next.set (lget b.prev i) i
  let prev1 := b.prev.set (lget next1 i) i
  { b with next := next1, prev := prev1 }

/-- `Block::unwind`: unlink positions `k-1, …, 0`, then park the cursor at
`tail` and zero the element count.  (`current_index` is left unchanged.) -/
def unwindGo (b : Block) : Nat → Block
  | 0 => b
  | n + 1 => unwindGo (b.deleteLink n) n

def unwind (b : Block) : Block :=
  let b := unwindGo b b.k
  { b with m := b.tail, nElement := 0 }

/-- `Block::advance` (clamped at the high end). -/
def advance (b : Block) : Block :=
  if b.currentIndex < b.nElement then
    { b with currentIndex := b.currentIndex + 1, m := lget b.next b.m }
  else b

/-- `Block::reverse` (clamped at the low end). -/
def reverse (b : Block) : Block :=
  if 0 < b.currentIndex then
    { b with currentIndex := b.currentIndex - 1, m := lget b.prev b.m }
  else b

/-- `Block::reset`. -/
def reset (b : Block) : Block :=
  { b with currentIndex := 0, m := lget b.next b.tail }

/-- Iterated cursor step along `prev`. -/
def stepPrev (b : Block) : Nat → Nat → Nat
  | m, 0 => m
  | m, n + 1 => stepPrev b (lget b.prev m) n

/-- Iterated cursor step along `next`. -/
def stepNext (b : Block) : Nat → Nat → Nat
  | m, 0 => m
  | m, n + 1 => stepNext b (lget b.next m) n

/-- `Block::traverse_to_index`, with the source's five-way match on
`i - current_index` (as `i64`). -/
def traverseToIndex (b : Block) (i : Nat) : Block :=
  let d : Int := (i : Int) - (b.currentIndex : Int)
  if d = 0 then b
  else if d = -1 then
    { b with currentIndex := b.currentIndex - 1, m := lget b.prev b.m }
  else if d = 1 then b.advance
  else if d ≤ 0 then
    { b with m := b.stepPrev b.m (b.currentIndex - i), currentIndex := i }
  else
    { b with m := b.stepNext b.m (i - b.currentIndex), currentIndex := i }

/-- `Block::get_pair`; Rust indexing panics out of bounds. -/
def getPair (b : Block) (i : Nat) : Option (Int × Nat) :=
  if i < b.alpha.length then some (pairOf b.alpha i) else none

/-- `Block::delete` (`quantile_filter.rs`, lines 192-239). -/
def delete (b : Block) (i : Nat) : Option Block := do
  let b := if b.atEnd then b.reverse else b
  let del ← b.getPair i
  let cur ← b.getPair b.m
  let b := b.deleteLink i
  let b := { b with nElement := b.nElement - 1 }
  match pcmp del cur with
  | .lt => some { b with currentIndex := b.currentIndex - 1 }
  | .gt => some b
  | .eq =>
    if b.currentIndex ≤ b.nElement then
      let nextM := lget b.next b.m
      if nextM = b.tail ∧ 0 < b.nElement then
        some { b with currentIndex := b.currentIndex - 1, m := lget b.prev b.m }
      else
        some { b with m := lget b.next b.m }
    else
      some { b with m := lget b.prev b.m }

/-- `Block::undelete` (`quantile_filter.rs`, lines 241-278). -/
def undelete (b : Block) (i : Nat) : Option Block := do
  let b := if ¬ b.isEmpty ∧ b.atEnd then b.reverse else b
  let b := b.undeleteLink i
  if b.isEmpty then
    some { b with m := lget b.prev b.m, nElement := 1, currentIndex := 0 }
  else do
    let added ← b.getPair i
    let cur ← b.getPair b.m
    let b := { b with nElement := b.nElement + 1 }
    match pcmp added cur with
    | .lt => some { b with currentIndex := b.currentIndex + 1 }
    | .gt => some b
    | .eq => some b

/-- `Block::set_median`. -/
def setMedian (b : Block) : Block := b.traverseToIndex (b.nElement / 2)

/-- `Block::delete_set_median`. -/
def deleteSetMedian (b : Block) (i : Nat) : Option Block :=
  (b.delete i).map setMedian

/-- `Block::undelete_set_median`. -/
def undeleteSetMedian (b : Block) (i : Nat) : Option Block :=
  (b.undelete i).map setMedian

/-- `Block::peek`. -/
def peek (b : Block) : Option Int :=
  if b.atEnd then none else some (b.alpha.getD b.m 0)

/-- `Block::peek_previous`. -/
def peekPrevious (b : Block) : Option Int :=
  let m := lget b.prev b.m
  if m = b.tail then none else some (b.alpha.getD m 0)

end Block

/-- `<&mut Block as LenGet>::get`: traverse, then `peek().unwrap()`
(`unwrap` on `None` panics, hence `Option`). -/
def blockGet (b : Block) (i : Nat) : Option (Int × Block) :=
  let b := b.traverseToIndex i
  match b.peek with
  | some v => some (v, b)
  | none => none

/-- A `BlockUnion` borrows the two blocks; we model it as the pair. -/
abbrev Union := Block × Block

/-- `BlockUnion::reverse`. -/
def unionReverse (u : Union) : Union :=
  match u.1.peekPrevious, u.2.peekPrevious with
  | some _, none => (u.1.reverse, u.2)
  | none, some _ => (u.1, u.2.reverse)
  | some l, some r =>
    if l ≤ r then (u.1, u.2.reverse) else (u.1.reverse, u.2)
  | none, none => u

/-- One candidate step of the merge loop in `BlockUnion::get`: reaching the
`(None, None)` arm is `panic!()`, modelled as `none`.  The loop runs with
fuel `i + 2`: since `s = left.current_index + right.current_index` never
decreases inside the loop, if the loop has not returned after `i + 2`
iterations it can never return (`s == i` can no longer occur), so the Rust
loop either panics or spins forever; both are modelled as `none`. -/
def unionGetLoop (i : Nat) : Nat → Union → Option (Int × Union)
  | 0, _ => none
  | fuel + 1, u =>
    let s := u.1.currentIndex + u.2.currentIndex
    match u.1.peek, u.2.peek with
    | some l, none =>
      if s = i then some (l, u)
      else unionGetLoop i fuel (u.1.advance, u.2)
    | none, some r =>
      if s = i then some (r, u)
      else unionGetLoop i fuel (u.1, u.2.advance)
    | some l, some r =>
      if l ≤ r then
        if s = i then some (l, u)
        else unionGetLoop i fuel (u.1.advance, u.2)
      else
        if s = i then some (r, u)
        else unionGetLoop i fuel (u.1, u.2.advance)
    | none, none => none

/-- `<BlockUnion as LenGet>::get` (`quantile_filter.rs`, lines 375-433). -/
def unionGet (u : Union) (i : Nat) : Option (Int × Union) :=
  if u.2.nElement = 0 then
    let b := u.1.traverseToIndex i
    match b.peek with
    | some v => some (v, (b, u.2))
    | none => none
  else if u.1.nElement = 0 then
    let b := u.2.traverseToIndex i
    match b.peek with
    | some v => some (v, (u.1, b))
    | none => none
  else
    unionGetLoop i (i + 2) (unionReverse u)

/-- `BlockUnion::set_state`. -/
def setState (u : Union) (i : Nat) : Option Union := do
  let l ← u.1.delete i
  let r ← u.2.undelete i
  some (l, r)

/-- `⌊x·q⌋`, computed on the exact rational `x·q = (x·q.num) / q.den` so
that the kernel can evaluate it (`floorMulQ_eq_floor` below identifies it
with `Int.floor`). -/
def floorMulQ (x : Int) (q : ℚ) : Int := Int.fdiv (x * q.num) (q.den : Int)

/-- `⌈x·q⌉`, computed as `-⌊-(x·q)⌋` (see `ceilMulQ_eq_ceil`). -/
def ceilMulQ (x : Int) (q : ℚ) : Int := -(Int.fdiv (-(x * q.num)) (q.den : Int))

/-- Truncation toward zero of `x·q - n` — the behavior of
`NumCast::from::<f64>` for integer targets (`num_traits` checked cast,
always in range here) applied to the interpolation fraction `t - idx`. -/
def truncMulQSub (x : Int) (q : ℚ) (n : Int) : Int :=
  Int.tdiv (x * q.num - n * (q.den : Int)) (q.den : Int)

/-- A `LenGet` implementation over states of type `σ` (the trait of
`quantile_filter.rs`, lines 320-327, restricted to the two members used by
`QuantileUpdate`). -/
structure LenGetI (σ : Type) where
  len : σ → Nat
  get : σ → Nat → Option (Int × σ)

/-- `QuantileUpdate::quantile` (lines 475-491), generic over the view:
`t = (len - 1)·q`, `idx = ⌊t⌋ as usize`, `top_idx = ⌈t⌉ as usize`
(`as usize` saturates below zero, hence `toNat`), and for an integer
element type the fraction `t - idx` truncates toward zero. -/
def quantileUpdate {σ : Type} (L : LenGetI σ) (q : ℚ) (s : σ) : Option (Int × σ) :=
  let len := L.len s
  let idx := (floorMulQ ((len : Int) - 1) q).toNat
  let topIdx := (ceilMulQ ((len : Int) - 1) q).toNat
  if idx = topIdx then L.get s idx
  else do
    let proportion : Int := truncMulQSub ((len : Int) - 1) q (idx : Int)
    let (vi, s) ← L.get s idx
    let (vj, s) ← L.get s topIdx
    some (proportion * (vj - vi) + vi, s)

/-- The `LenGet` instance for `&mut Block`. -/
def blockLG : LenGetI Block where
  len b := b.nElement
  get := blockGet

/-- The `LenGet` instance for `BlockUnion`. -/
def unionLG : LenGetI Union where
  len u := u.1.nElement + u.2.nElement
  get := unionGet

/-- Warm-up phase of `rolling_quantile`: `undelete(i)` then push one
quantile, for `i = 0 .. capacity` (the first argument counts the remaining
iterations). -/
def warmupGo (q : ℚ) : Nat → Nat → Block → List Int → Option (Block × List Int)
  | 0, _, b, acc => some (b, acc)
  | cnt + 1, i, b, acc => do
    let b ← b.undelete i
    let (v, b) ← quantileUpdate blockLG q b
    warmupGo q cnt (i + 1) b (acc ++ [v])

/-- Inner loop of the sliding phase: `set_state(j)` then push one quantile,
for `j = 0 .. capacity` (the first argument counts the remaining
iterations). -/
def slideInner (q : ℚ) : Nat → Nat → Union → List Int → Option (Union × List Int)
  | 0, _, u, acc => some (u, acc)
  | cnt + 1, j, u, acc => do
    let u ← setState u j
    let (v, u) ← quantileUpdate unionLG q u
    slideInner q cnt (j + 1) u (acc ++ [v])

/-- Outer loop of the sliding phase, `i = 1 .. n_blocks + 1`; `cnt` counts
the remaining iterations.  On an empty right slice the loop breaks; after a
block, `mem::swap` makes the right block the new left block. -/
def slideLoop (q : ℚ) (k n : Nat) (slice : List Int) :
    Nat → Nat → Block → List Int → Option (List Int)
  | 0, _, _, acc => some acc
  | cnt + 1, i, blockLeft, acc =>
    let e := min ((i + 1) * k) n
    let alpha := (slice.drop (i * k)).take (e - i * k)
    if alpha.isEmpty then some acc
    else do
      let blockRight := (Block.new alpha).unwind
      let (u, acc) ←
        slideInner q (Block.capacity blockRight) 0 (blockLeft, blockRight) acc
      slideLoop q k n slice cnt (i + 1) u.2 acc

/-- `rolling_quantile` (`quantile_filter.rs`, lines 494-597).
`k = 0` after clamping (i.e. `k < 1` or empty input) hits the
division by zero in `slice.len() / k` and panics. -/
def rollingQuantile (k : Nat) (slice : List Int) (q : ℚ) : Option (List Int) :=
  let n := slice.length
  let k := min k n
  if k = 0 then none
  else
    let alpha := slice.take k
    let nBlocks := n / k
    let blockLeft := (Block.new alpha).unwind
    match warmupGo q (Block.capacity blockLeft) 0 blockLeft [] with
    | none => none
    | some (blockLeft, acc) => slideLoop q k n slice nBlocks 1 blockLeft acc

end QuantileFilter

namespace SlidingSpec

/-!
The specification-side semantics, written from the spec's words: `y[i]` is
the linearly-interpolated `q`-quantile of the values of the window entering
`x[i]`, i.e. of the last `min(i+1, k)` elements `x[max(0, i+1-k) .. i+1]`,
with the §4.4 selector (for an integral element type the interpolation
fraction truncates to zero).
-/

/-- The window of values entering `x[i]`. -/
def window (k : Nat) (x : List Int) (i : Nat) : List Int :=
  (x.take (i + 1)).drop (i + 1 - k)

/-- Sort a window ascending (multiset order; ties are equal values). -/
def insertVal (v : Int) : List Int → List Int
  | [] => [v]
  | w :: rest => if v ≤ w then v :: w :: rest else w :: insertVal v rest

def sortInts (l : List Int) : List Int := l.foldr insertVal []

/-- The §4.4 linearly-interpolated `q`-quantile of a sorted window `w`,
with the integral-type truncation of the fraction. -/
def interpQuantile (w : List Int) (q : ℚ) : Int :=
  let len := w.length
  let lo := (QuantileFilter.floorMulQ ((len : Int) - 1) q).toNat
  let hi := (QuantileFilter.ceilMulQ ((len : Int) - 1) q).toNat
  if lo = hi then w.getD lo 0
  else
    QuantileFilter.truncMulQSub ((len : Int) - 1) q (lo : Int) *
      (w.getD hi 0 - w.getD lo 0) + w.getD lo 0

/-- Element-by-element sliding semantics of the rolling quantile. -/
def specRollingQuantile (k : Nat) (x : List Int) (q : ℚ) : List Int :=
  (List.range x.length).map fun i => interpQuantile (sortInts (window k x i)) q

end SlidingSpec

namespace MedianFilter

/-!
Shallow embedding of `median_filter.rs`.  Its `Block` differs from the one
in `quantile_filter.rs` in several ways (no clamping in `advance`, no
cursor rescue in `delete`/`undelete`, a different `traverse_to_index`), and
its `BlockUnion::get` ignores the requested rank when both blocks are
nonempty.  `rolling_median` itself returns `()` in the source; we expose
the `out` vector it accumulates internally (and prints via `dbg!`), with
`none` for a panic as elsewhere.
-/

open QuantileFilter (lget pcmp pairOf argSortAsc)

structure Block where
  k : Nat
  alpha : List Int
  pi : List Nat
  prev : List Nat
  next : List Nat
  m : Nat
  currentIndex : Nat
  nElement : Nat
  deriving Repr, DecidableEq

namespace Block

def tail (b : Block) : Nat := b.k

def initLinksGo : Nat → List Nat → List Nat → List Nat → Nat × List Nat × List Nat
  | p, [], prev, next => (p, prev, next)
  | p, q :: rest, prev, next =>
    initLinksGo q rest (prev.set q p) (next.set p q)

def initLinks (b : Block) : Block :=
  let (p, prev, next) := initLinksGo b.tail b.pi b.prev b.next
  { b with next := next.set p b.tail, prev := prev.set b.tail p }

def new (alpha : List Int) : Block :=
  let k := alpha.length
  let pi := argSortAsc alpha
  let mIndex := k / 2
  let m := pi.getD mIndex 0
  initLinks
    { k := k, alpha := alpha, pi := pi
      prev := List.replicate (k + 1) 0
      next := List.replicate (k + 1) 0
      m := m, currentIndex := mIndex, nElement := k }

def capacity (b : Block) : Nat := b.alpha.length

def atEnd (b : Block) : Bool := b.m == b.tail

def deleteLink (b : Block) (i : Nat) : Block :=
  let next1 := b.next.set (lget b.prev i) (lget b.next i)
  let prev1 := b.prev.set (lget next1 i) (lget b.prev i)
  { b with next := next1, prev := prev1 }

def undeleteLink (b : Block) (i : Nat) : Block :=
  let next1 := b.next.set (lget b.prev i) i
  let prev1 := b.prev.set (lget next1 i) i
  { b with next := next1, prev := prev1 }

def unwindGo (b : Block) : Nat → Block
  | 0 => b
  | n + 1 => unwindGo (b.deleteLink n) n

def unwind (b : Block) : Block :=
  let b := unwindGo b b.k
  { b with m := b.tail, nElement := 0 }

/-- `median_filter.rs` `advance`: unclamped. -/
def advance (b : Block) : Block :=
  { b with currentIndex := b.currentIndex + 1, m := lget b.next b.m }

def reset (b : Block) : Block :=
  { b with currentIndex := 0, m := lget b.next b.tail }

def stepNext (b : Block) : Nat → Nat → Nat
  | m, 0 => m
  | m, n + 1 => stepNext b (lget b.next m) n

/-- `median_filter.rs` `traverse_to_index`: in the `≤ -2` arm the source
subtracts the target `i` from `current_index` and its `for _ in i..0` loop
body never runs; in the `≥ 2` arm it adds `i` to `current_index` and steps
`m` forward `i` times. -/
def traverseToIndex (b : Block) (i : Nat) : Block :=
  let d : Int := (i : Int) - (b.currentIndex : Int)
  if d = 0 then b
  else if d = -1 then
    { b with currentIndex := b.currentIndex - 1, m := lget b.prev b.m }
  else if d = 1 then b.advance
  else if d ≤ 0 then
    { b with currentIndex := b.currentIndex - i }
  else
    { b with currentIndex := b.currentIndex + i, m := b.stepNext b.m i }

def getPair (b : Block) (i : Nat) : Option (Int × Nat) :=
  if i < b.alpha.length then some (pairOf b.alpha i) else none

/-- `median_filter.rs` `delete`: no cursor rescue; `get_pair(m)` with the
cursor at `tail` indexes out of bounds (panic). -/
def delete (b : Block) (i : Nat) : Option Block := do
  let del ← b.getPair i
  let cur ← b.getPair b.m
  let b := b.deleteLink i
  let b := { b with nElement := b.nElement - 1 }
  match pcmp del cur with
  | .lt => some { b with currentIndex := b.currentIndex - 1 }
  | .gt => some b
  | .eq =>
    if b.currentIndex < b.nElement then
      some { b with m := lget b.next b.m }
    else
      some { b with m := lget b.prev b.m }

/-- `median_filter.rs` `undelete` (keyed on `at_end`, not on emptiness). -/
def undelete (b : Block) (i : Nat) : Option Block := do
  let b := b.undeleteLink i
  if b.atEnd then
    some { b with m := lget b.prev b.m, nElement := 1, currentIndex := 0 }
  else do
    let added ← b.getPair i
    let cur ← b.getPair b.m
    let b := { b with nElement := b.nElement + 1 }
    match pcmp added cur with
    | .lt => some { b with currentIndex := b.currentIndex + 1 }
    | .gt => some b
    | .eq => some b

def peek (b : Block) : Option Int :=
  if b.atEnd then none else some (b.alpha.getD b.m 0)

end Block

def blockGet (b : Block) (i : Nat) : Option (Int × Block) :=
  let b := b.traverseToIndex i
  match b.peek with
  | some v => some (v, b)
  | none => none

abbrev Union := Block × Block

/-- `median_filter.rs` `BlockUnion::get`: when the right block is nonempty
it ignores `i`, peeks both cursors (`unwrap`: panic on `None`), advances the
smaller side and returns its value. -/
def unionGet (u : Union) (i : Nat) : Option (Int × Union) :=
  if u.2.nElement = 0 then
    let b := u.1.traverseToIndex i
    match b.peek with
    | some v => some (v, (b, u.2))
    | none => none
  else do
    let l ← u.1.peek
    let r ← u.2.peek
    if l ≤ r then some (l, (u.1.advance, u.2))
    else some (r, (u.1, u.2.advance))

/-- `MedianUpdate::median`, generic over the view (`t = (len - 1)·0.5`). -/
def medianUpdate {σ : Type} (len : σ → Nat) (get : σ → Nat → Option (Int × σ))
    (s : σ) : Option (Int × σ) :=
  let l := len s
  let q : ℚ := Rat.divInt 1 2
  let idx := (QuantileFilter.floorMulQ ((l : Int) - 1) q).toNat
  let topIdx := (QuantileFilter.ceilMulQ ((l : Int) - 1) q).toNat
  if idx = topIdx then get s idx
  else do
    let proportion : Int := QuantileFilter.truncMulQSub ((l : Int) - 1) q (idx : Int)
    let (vi, s) ← get s idx
    let (vj, s) ← get s topIdx
    some (proportion * (vj - vi) + vi, s)

def warmupGo : Nat → Nat → Block → List Int → Option (Block × List Int)
  | 0, _, b, acc => some (b, acc)
  | cnt + 1, i, b, acc => do
    let b ← b.undelete i
    let (v, b) ← medianUpdate (fun b => b.nElement) blockGet b
    warmupGo cnt (i + 1) b (acc ++ [v])

def slideInner : Nat → Nat → Union → List Int → Option (Union × List Int)
  | 0, _, u, acc => some (u, acc)
  | cnt + 1, j, u, acc => do
    let l ← u.1.delete j
    let r ← u.2.undelete j
    let (v, u) ← medianUpdate (fun u : Union => u.1.nElement + u.2.nElement)
      unionGet (l, r)
    slideInner cnt (j + 1) u (acc ++ [v])

/-- Outer sliding loop of `rolling_median`: `i = 1 .. n_blocks`
(exclusive), right slice `slice[i*k .. (i+1)*k]`, then the pointer swap
makes the right block the new left block. -/
def slideLoop (k : Nat) (slice : List Int) :
    Nat → Nat → Block → List Int → Option (List Int)
  | 0, _, _, acc => some acc
  | cnt + 1, i, blockLeft, acc => do
    let alpha := (slice.drop (i * k)).take k
    let blockRight := (Block.new alpha).unwind
    let (u, acc) ← slideInner (Block.capacity blockRight) 0 (blockLeft, blockRight) acc
    slideLoop k slice cnt (i + 1) u.2 acc

/-- `rolling_median` (`median_filter.rs`, lines 410-528).  The Rust
function returns `()`; this is the `out` vector it accumulates (`none` if
the run panics). -/
def rollingMedian (k : Nat) (slice : List Int) : Option (List Int) :=
  let n := slice.length
  let k := min k n
  if k = 0 then none
  else
    let alpha := slice.take k
    let nBlocks := n / k
    let blockLeft := (Block.new alpha).unwind
    match warmupGo (Block.capacity blockLeft) 0 blockLeft [] with
    | none => none
    | some (blockLeft, acc) => slideLoop k slice (nBlocks - 1) 1 blockLeft acc

end MedianFilter

namespace QuantileFilter

/-! ## The claimed Block invariants P1 and P3 -/

/-- Follow `next` for `n` steps starting at `p`, collecting the visited
positions. -/
def walkFrom (b : Block) : Nat → Nat → List Nat
  | _, 0 => []
  | p, n + 1 => p :: walkFrom b (lget b.next p) n

/-- The positions visited by following `next` from `next[tail]` for
`n_element` steps. -/
def walkList (b : Block) : List Nat :=
  walkFrom b (lget b.next b.tail) b.nElement

/-- P1: following `next` from `next[tail]` for `n_element` steps visits the
active positions (`act`) in nondecreasing `(value, position)` order. -/
def P1 (b : Block) (act : List Nat) : Prop :=
  (walkList b).Perm act ∧
  (walkList b).Chain' fun a c => pairLe (pairOf b.alpha a) (pairOf b.alpha c)

/-- P3: if `n_element > 0` and `m ≠ tail`, the number of active positions
strictly preceding `m` in the P1 order equals `current_index`. -/
def P3 (b : Block) : Prop :=
  0 < b.nElement → b.m ≠ b.tail → (walkList b).indexOf b.m = b.currentIndex

/-- The conjunction of the claimed invariants, with `act` the intended
active set. -/
def claimInv (b : Block) (act : List Nat) : Prop := P1 b act ∧ P3 b

/-- Kernel-computable check of the sortedness part of P1. -/
def chainPairLeB (alpha : List Int) : List Nat → Bool
  | [] => true
  | [_] => true
  | a :: c :: rest =>
    decide (pairLe (pairOf alpha a) (pairOf alpha c)) && chainPairLeB alpha (c :: rest)

instance (b : Block) (act : List Nat) : Decidable (claimInv b act) :=
  decidable_of_iff
    ((walkList b).isPerm act = true ∧ chainPairLeB b.alpha (walkList b) = true ∧
      (0 < b.nElement → b.m ≠ b.tail → (walkList b).indexOf b.m = b.currentIndex)) <| by
    have key : ∀ l : List Nat, chainPairLeB b.alpha l = true ↔
        l.Chain' fun a c => pairLe (pairOf b.alpha a) (pairOf b.alpha c) := by
      intro l
      induction l with
      | nil => simp [chainPairLeB]
      | cons a rest ih =>
        cases rest with
        | nil => simp [chainPairLeB]
        | cons c r2 =>
          rw [List.chain'_cons]
          simp only [chainPairLeB, Bool.and_eq_true, decide_eq_true_eq]
          exact and_congr Iff.rfl ih
    rw [List.isPerm_iff, key]
    exact ⟨fun ⟨h1, h2, h3⟩ => ⟨⟨h1, h2⟩, h3⟩, fun ⟨⟨h1, h2⟩, h3⟩ => ⟨h1, h2, h3⟩⟩

/-! ## Representation invariant for `Block`

The inductive invariant carries a ghost list `L`: the active positions in
strictly increasing `(value, position)` order.  It subsumes the claimed
invariants P1-P3 and is what the operation lemmas below preserve. -/

/-- Strict lexicographic order on `(value, index)` pairs. -/
def pairLt (a b : Int × Nat) : Prop :=
  a.1 < b.1 ∨ (a.1 = b.1 ∧ a.2 < b.2)

instance (a b : Int × Nat) : Decidable (pairLt a b) := by unfold pairLt; infer_instance

/-- `x` and `y` are adjacent in the doubly-linked list. -/
def linkedL (next prev : List Nat) (x y : Nat) : Prop :=
  lget next x = y ∧ lget prev y = x

instance (next prev : List Nat) (x y : Nat) : Decidable (linkedL next prev x y) := by
  unfold linkedL; infer_instance

/-- Representation invariant: `L` lists the active positions in strictly
increasing pair order; the ring `tail → L → tail` is doubly linked; the
cursor is either past-end (`m = tail`, with `current_index = |L|` unless
the block is empty) or at rank `current_index` inside `L`. -/
structure Inv (b : Block) (L : List Nat) : Prop where
  sizeNext : b.next.length = b.k + 1
  sizePrev : b.prev.length = b.k + 1
  alphaLen : b.alpha.length = b.k
  mem : ∀ x ∈ L, x < b.k
  nodup : L.Nodup
  sorted : L.Pairwise fun x y => pairLt (pairOf b.alpha x) (pairOf b.alpha y)
  chain : (b.k :: L ++ [b.k]).Chain' (linkedL b.next b.prev)
  count : b.nElement = L.length
  cursor : (b.m = b.k ∧ (L = [] ∨ b.currentIndex = L.length)) ∨
           (∃ A B, L = A ++ b.m :: B ∧ b.currentIndex = A.length)

/-- Position of rank `p` in the active ring `L` followed by the sentinel. -/
def ringAt (b : Block) (L : List Nat) (p : Nat) : Nat := (L ++ [b.k]).getD p 0

/-- The public `Block` operations quantified over by the invariant claim. -/
inductive BOp where
  | advance
  | reverse
  | reset
  | setMedian
  | traverse (j : Nat)
  | unwind
  | delete (i : Nat)
  | undelete (i : Nat)
  deriving Repr, DecidableEq

/-- Apply an operation (the fallible ones through `Option`). -/
def applyOp : BOp → Block → Option Block
  | .advance, b => some b.advance
  | .reverse, b => some b.reverse
  | .reset, b => some b.reset
  | .setMedian, b => some b.setMedian
  | .traverse j, b => some (b.traverseToIndex j)
  | .unwind, b => some b.unwind
  | .delete i, b => b.delete i
  | .undelete i, b => b.undelete i

/-- The active-set update each operation is specified to perform (for
`undelete`, insertion at the sorted position). -/
def ghostOp : BOp → Block → List Nat → List Nat
  | .delete i, _, L => L.erase i
  | .undelete i, b, L =>
      L.takeWhile (fun x => pcmp (pairOf b.alpha x) (pairOf b.alpha i) == Ordering.lt)
        ++ i ::
      L.dropWhile (fun x => pcmp (pairOf b.alpha x) (pairOf b.alpha i) == Ordering.lt)
  | .unwind, _, _ => []
  | _, _, L => L

/-- The precondition under which each operation preserves the invariants:
the documented ones (`delete` takes an active position, `traverse` a rank
within the window, `unwind` a fully populated block), plus — the corrected
part — `undelete`'s requirement that the retained links of `i` still name
its sorted splice points among the active positions. -/
def opPre : BOp → Block → List Nat → Prop
  | .advance, _, _ => True
  | .reverse, _, _ => True
  | .reset, _, _ => True
  | .setMedian, _, _ => True
  | .traverse j, _, L => j ≤ L.length
  | .unwind, b, L => ∀ x, x ∈ L ↔ x < b.k
  | .delete i, _, L => i ∈ L
  | .undelete i, b, L => i < b.k ∧ i ∉ L ∧
      lget b.prev i = (b.k :: L.takeWhile (fun x =>
        pcmp (pairOf b.alpha x) (pairOf b.alpha i) == Ordering.lt)).getLast (by simp) ∧
      lget b.next i = ((L.dropWhile (fun x =>
        pcmp (pairOf b.alpha x) (pairOf b.alpha i) == Ordering.lt)) ++ [b.k]).head (by simp)

/-- Fold `delete` over a list of positions. -/
def deleteAll : Block → List Nat → Option Block
  | b, [] => some b
  | b, p :: ps => (b.delete p).bind (fun b' => deleteAll b' ps)

/-- Fold `undelete` over a list of positions. -/
def undeleteAll : Block → List Nat → Option Block
  | b, [] => some b
  | b, p :: ps => (b.undelete p).bind (fun b' => undeleteAll b' ps)

end QuantileFilter

namespace QuantileFilter

/-! ## Rational-arithmetic bridge lemmas -/

/-- `floorMulQ` computes `⌊x·q⌋`. -/
theorem floorMulQ_eq_floor (x : Int) (q : ℚ) : floorMulQ x q = ⌊(x : ℚ) * q⌋ := by
  have hd : (0 : Int) ≤ (q.den : Int) := Int.natCast_nonneg _
  have key : (x : ℚ) * q = ((x * q.num : Int) : ℚ) / ((q.den : ℕ) : ℚ) := by
    push_cast
    rw [mul_div_assoc, Rat.num_div_den]
  rw [floorMulQ, Int.fdiv_eq_ediv _ hd, key, Rat.floor_intCast_div_natCast]

/-- `ceilMulQ` computes `⌈x·q⌉`. -/
theorem ceilMulQ_eq_ceil (x : Int) (q : ℚ) : ceilMulQ x q = ⌈(x : ℚ) * q⌉ := by
  have h := floorMulQ_eq_floor (-x) q
  rw [floorMulQ] at h
  rw [ceilMulQ, show -(x * q.num) = -x * q.num by ring, h,
    show ((-x : Int) : ℚ) * q = -((x : ℚ) * q) by push_cast; ring, Int.floor_neg,
    neg_neg]

/-- The interpolation fraction `x·q - ⌊x·q⌋` lies in `[0, 1)`, so its
integral truncation is zero. -/
theorem truncMulQSub_floor_eq_zero (x : Int) (q : ℚ) :
    truncMulQSub x q (floorMulQ x q) = 0 := by
  have hd : (0 : Int) < (q.den : Int) := Int.natCast_pos.mpr q.den_pos
  rw [truncMulQSub, floorMulQ, Int.fdiv_eq_ediv _ hd.le]
  have hmod : x * q.num - x * q.num / (q.den : Int) * (q.den : Int) =
      x * q.num % (q.den : Int) := by
    rw [Int.emod_def]; ring
  rw [hmod]
  exact Int.tdiv_eq_zero_of_lt (Int.emod_nonneg _ hd.ne') (Int.emod_lt_of_pos _ hd)

/-! ## Link-array and order helper lemmas -/

theorem lget_set_self {l : List Nat} {i : Nat} (v : Nat) (h : i < l.length) :
    lget (l.set i v) i = v := by
  simp [lget, List.getD_eq_getElem?_getD, List.getElem?_set_self h]

theorem lget_set_ne {l : List Nat} {i j : Nat} (v : Nat) (h : i ≠ j) :
    lget (l.set i v) j = lget l j := by
  simp [lget, List.getD_eq_getElem?_getD, List.getElem?_set_ne h]

theorem lset_lget_self {l : List Nat} {i : Nat} : l.set i (lget l i) = l := by
  apply List.ext_getElem?
  intro j
  rw [List.getElem?_set]
  split
  · next hij =>
    subst hij
    split
    · next hlt => simp [lget, List.getD_eq_getElem?_getD, List.getElem?_eq_getElem hlt]
    · next hge => exact (List.getElem?_eq_none (by omega)).symm
  · rfl

theorem pairLt_trans {a b c : Int × Nat} (h1 : pairLt a b) (h2 : pairLt b c) :
    pairLt a c := by
  unfold pairLt at *
  rcases h1 with h1 | ⟨h1, h1i⟩ <;> rcases h2 with h2 | ⟨h2, h2i⟩
  · exact Or.inl (lt_trans h1 h2)
  · exact Or.inl (h2 ▸ h1)
  · exact Or.inl (h1 ▸ h2)
  · exact Or.inr ⟨h1.trans h2, lt_trans h1i h2i⟩

theorem pairLt_irrefl (a : Int × Nat) : ¬ pairLt a a := by
  unfold pairLt; omega

theorem pairLt_of_ne {alpha : List Int} {i j : Nat} (hne : i ≠ j)
    (h : ¬ pairLt (pairOf alpha i) (pairOf alpha j)) :
    pairLt (pairOf alpha j) (pairOf alpha i) := by
  unfold pairLt pairOf at *
  simp only at *
  omega

theorem pairLt_le (a b : Int × Nat) (h : pairLt a b) : pairLe a b := by
  unfold pairLt pairLe at *; omega

theorem pcmp_lt_iff (a b : Int × Nat) : pcmp a b = .lt ↔ pairLt a b := by
  unfold pcmp pairLt
  split_ifs <;> simp_all <;> omega

theorem pcmp_eq_iff (a b : Int × Nat) : pcmp a b = .eq ↔ a = b := by
  unfold pcmp
  split_ifs <;> simp_all [Prod.ext_iff] <;> omega

theorem pcmp_gt_iff (a b : Int × Nat) : pcmp a b = .gt ↔ pairLt b a := by
  unfold pcmp pairLt
  split_ifs <;> simp_all <;> omega

/-! ## The walk along the chain -/

theorem walkFrom_of_chain (b : Block) :
    ∀ (L : List Nat) (p t : Nat),
      (p :: L ++ [t]).Chain' (linkedL b.next b.prev) →
      walkFrom b (lget b.next p) L.length = L := by
  intro L
  induction L with
  | nil => intro p t _; rfl
  | cons a L ih =>
    intro p t h
    have h' : (p :: a :: (L ++ [t])).Chain' (linkedL b.next b.prev) := by simpa using h
    rw [List.chain'_cons] at h'
    simp only [List.length_cons, walkFrom, h'.1.1]
    exact congrArg (a :: ·) (ih a t h'.2)

theorem Inv.walkList_eq {b : Block} {L : List Nat} (h : Inv b L) :
    walkList b = L := by
  have hw := walkFrom_of_chain b L b.k b.k h.chain
  rw [walkList, h.count]
  exact hw

theorem indexOf_append_cons {m : Nat} :
    ∀ (A B : List Nat), m ∉ A → (A ++ m :: B).indexOf m = A.length := by
  intro A
  induction A with
  | nil => intro B _; simp
  | cons a A ih =>
    intro B hm
    have ha : (a == m) = false := by
      simp only [beq_eq_false_iff_ne, ne_eq]
      exact fun h => hm (by simp [h])
    simp only [List.cons_append, List.indexOf_cons, ha, cond_false, List.length_cons]
    rw [ih B (fun h => hm (List.mem_cons_of_mem a h))]

/-- The representation invariant implies the claimed invariants P1 and P3
(with the ghost list as the active set). -/
theorem Inv.toClaimInv {b : Block} {L : List Nat} (h : Inv b L) :
    claimInv b L := by
  refine ⟨⟨?_, ?_⟩, ?_⟩
  · rw [h.walkList_eq]
  · rw [h.walkList_eq]
    exact List.Pairwise.chain'
      (h.sorted.imp fun hp => pairLt_le _ _ hp)
  · intro hn hm
    rcases h.cursor with ⟨hmk, -⟩ | ⟨A, B, hL, hcur⟩
    · exact absurd hmk hm
    · rw [h.walkList_eq, hL, hcur]
      have hnodup := h.nodup
      rw [hL] at hnodup
      have : b.m ∉ A := fun hmem =>
        (List.disjoint_of_nodup_append hnodup) hmem (List.mem_cons_self _ _)
      exact indexOf_append_cons A B this

/-! ## Chain surgery -/

theorem chain'_head_link {R : Nat → Nat → Prop} {a : Nat} {l : List Nat} (h : l ≠ [])
    (hc : (a :: l).Chain' R) : R a (l.head h) := by
  obtain ⟨x, xs, rfl⟩ := List.exists_cons_of_ne_nil h
  exact (List.chain'_cons.mp hc).1

theorem chain'_last_link {R : Nat → Nat → Prop} {a : Nat} {l : List Nat} (h : l ≠ [])
    (hc : (l ++ [a]).Chain' R) : R (l.getLast h) a := by
  obtain ⟨hc1, hc2, hlink⟩ := List.chain'_append.mp hc
  exact hlink _ (by rw [List.getLast?_eq_getLast l h]; rfl) a rfl

theorem chain'_tail_chain {R : Nat → Nat → Prop} {a : Nat} {l : List Nat}
    (hc : (a :: l).Chain' R) : l.Chain' R := (List.chain'_cons'.mp hc).2

/-- Transport a link chain along pointwise-equal link arrays: only the
`next` slots of the non-last entries and the `prev` slots of the non-first
entries matter. -/
theorem chain_congr {next prev next1 prev1 : List Nat} :
    ∀ (xs : List Nat), xs.Chain' (linkedL next prev) →
      (∀ x ∈ xs.dropLast, lget next1 x = lget next x) →
      (∀ y ∈ xs.tail, lget prev1 y = lget prev y) →
      xs.Chain' (linkedL next1 prev1)
  | [], _, _, _ => List.chain'_nil
  | [x], _, _, _ => List.chain'_singleton x
  | x :: y :: rest, h, hn, hp => by
    rw [List.chain'_cons] at h ⊢
    have hx : x ∈ (x :: y :: rest).dropLast := by
      rw [show (x :: y :: rest).dropLast = x :: (y :: rest).dropLast from rfl]
      exact List.mem_cons_self _ _
    refine ⟨⟨?_, ?_⟩, ?_⟩
    · rw [hn x hx, h.1.1]
    · rw [hp y (List.mem_cons_self _ _), h.1.2]
    · exact chain_congr (y :: rest) h.2
        (fun z hz => hn z (by
          rw [show (x :: y :: rest).dropLast = x :: (y :: rest).dropLast from rfl]
          exact List.mem_cons_of_mem x hz))
        (fun z hz => hp z (List.mem_cons_of_mem y hz))

theorem getLast_cons_le {k : Nat} {A : List Nat} (hA : ∀ x ∈ A, x < k) :
    (b : (k :: A) ≠ []) → (k :: A).getLast b ≤ k := by
  intro b
  have := List.getLast_mem b
  rcases List.mem_cons.mp this with h | h
  · omega
  · exact le_of_lt (hA _ h)

theorem head_append_le {k : Nat} {B : List Nat} (hB : ∀ x ∈ B, x < k) :
    (h : (B ++ [k]) ≠ []) → (B ++ [k]).head h ≤ k := by
  intro h
  have := List.head_mem h
  rcases List.mem_append.mp this with hm | hm
  · exact le_of_lt (hB _ hm)
  · simp only [List.mem_singleton] at hm; omega

theorem getLast_not_mem_dropLast {l : List Nat} (h : l ≠ []) (hn : l.Nodup) :
    l.getLast h ∉ l.dropLast := by
  intro hmem
  have hsplit : l.dropLast ++ [l.getLast h] = l := List.dropLast_append_getLast h
  rw [← hsplit] at hn
  obtain ⟨-, -, hdisj⟩ := List.nodup_append.mp hn
  exact hdisj hmem (List.mem_singleton_self _)

theorem head_not_mem_tail {l : List Nat} (h : l ≠ []) (hn : l.Nodup) :
    l.head h ∉ l.tail := by
  obtain ⟨x, xs, rfl⟩ := List.exists_cons_of_ne_nil h
  simp only [List.head_cons, List.tail_cons]
  exact (List.nodup_cons.mp hn).1

/-- `delete_link(i)` on a ring `tail → A → i → B → tail` yields the ring
`tail → A → B → tail`. -/
theorem deleteLink_chain {b : Block} {A B : List Nat} {i : Nat}
    (hszn : b.next.length = b.k + 1) (hszp : b.prev.length = b.k + 1)
    (hmem : ∀ x ∈ A ++ i :: B, x < b.k) (hnodup : (A ++ i :: B).Nodup)
    (hchain : (b.k :: (A ++ i :: B) ++ [b.k]).Chain' (linkedL b.next b.prev)) :
    (b.k :: (A ++ B) ++ [b.k]).Chain' (linkedL (b.deleteLink i).next (b.deleteLink i).prev) ∧
    lget b.prev i = (b.k :: A).getLast (by simp) ∧
    lget b.next i = (B ++ [b.k]).head (by simp) ∧
    (b.deleteLink i).next = b.next.set ((b.k :: A).getLast (by simp)) ((B ++ [b.k]).head (by simp)) ∧
    (b.deleteLink i).prev = b.prev.set ((B ++ [b.k]).head (by simp)) ((b.k :: A).getLast (by simp)) := by
  have hA : ∀ x ∈ A, x < b.k := fun x hx => hmem x (List.mem_append_left _ hx)
  have hB : ∀ x ∈ B, x < b.k := fun x hx =>
    hmem x (List.mem_append_right _ (List.mem_cons_of_mem _ hx))
  have hik : i < b.k := hmem i (List.mem_append_right _ (List.mem_cons_self _ _))
  obtain ⟨hAnd, hiBnd, hdisj⟩ := List.nodup_append.mp hnodup
  have hiA : i ∉ A := fun hmemA => hdisj hmemA (List.mem_cons_self _ _)
  have hBnd : B.Nodup := (List.nodup_cons.mp hiBnd).2
  have hiB : i ∉ B := (List.nodup_cons.mp hiBnd).1
  have hdisjAB : ∀ x ∈ A, x ∉ B := fun x hx hxB =>
    hdisj hx (List.mem_cons_of_mem _ hxB)
  set p := (b.k :: A).getLast (by simp) with hpdef
  set s := (B ++ [b.k]).head (by simp) with hsdef
  have hpMem : p ∈ b.k :: A := List.getLast_mem _
  have hsMem : s ∈ B ++ [b.k] := List.head_mem _
  have hpk : p ≤ b.k := getLast_cons_le hA _
  have hsk : s ≤ b.k := head_append_le hB _
  have hform : (b.k :: (A ++ i :: B) ++ [b.k]) = (b.k :: A) ++ i :: (B ++ [b.k]) := by
    simp
  rw [hform, List.chain'_split] at hchain
  obtain ⟨hc1, hc2⟩ := hchain
  have hpi : linkedL b.next b.prev p i := chain'_last_link (by simp) hc1
  have his : linkedL b.next b.prev i s := chain'_head_link (by simp) hc2
  have hpiA : p ≠ i := by
    rcases List.mem_cons.mp hpMem with h | h
    · omega
    · exact fun he => hiA (he ▸ h)
  have hsiB : s ≠ i := by
    rcases List.mem_append.mp hsMem with h | h
    · exact fun he => hiB (he ▸ h)
    · simp only [List.mem_singleton] at h; omega
  -- the concrete link updates
  have hnext1 : (b.deleteLink i).next = b.next.set p s := by
    rw [Block.deleteLink, hpi.2, his.1]
  have hprev1 : (b.deleteLink i).prev = b.prev.set s p := by
    rw [Block.deleteLink]
    simp only
    rw [hpi.2, lget_set_ne _ hpiA, his.1]
  refine ⟨?_, hpi.2, his.1, hnext1, hprev1⟩
  -- rebuild the chain over (k :: A) ++ (B ++ [k])
  have hform2 : (b.k :: (A ++ B) ++ [b.k]) = (b.k :: A) ++ (B ++ [b.k]) := by simp
  rw [hform2, List.chain'_append]
  have hc1l : (b.k :: A).Chain' (linkedL b.next b.prev) := by
    have := List.chain'_append.mp hc1
    exact this.1
  have hc2r : (B ++ [b.k]).Chain' (linkedL b.next b.prev) := chain'_tail_chain hc2
  have hkAnodup : (b.k :: A).Nodup :=
    List.nodup_cons.mpr ⟨fun h => absurd (hA _ h) (by omega), hAnd⟩
  have hBknodup : (B ++ [b.k]).Nodup := by
    rw [List.nodup_append]
    exact ⟨hBnd, List.nodup_singleton _, fun x hx hxk =>
      absurd (hB _ hx) (by simp only [List.mem_singleton] at hxk; omega)⟩
  refine ⟨?_, ?_, ?_⟩
  · -- prefix chain survives: its next-slots (all but p) and prev-slots (A) untouched
    apply chain_congr _ hc1l
    · intro x hx
      rw [hnext1, lget_set_ne]
      intro he
      exact getLast_not_mem_dropLast (by simp) hkAnodup (he ▸ hx)
    · intro y hy
      rw [hprev1, lget_set_ne]
      intro he
      subst he
      rcases List.mem_append.mp hsMem with h | h
      · exact hdisjAB _ (by simpa using hy) h
      · simp only [List.mem_singleton] at h
        exact absurd (hA _ (by simpa using hy)) (by omega)
  · -- suffix chain survives
    apply chain_congr _ hc2r
    · intro x hx
      have hxB : x ∈ B := by
        have : (B ++ [b.k]).dropLast = B := by
          rw [List.dropLast_append_of_ne_nil _ (by simp)]
          simp
        rwa [this] at hx
      rw [hnext1, lget_set_ne]
      intro he
      subst he
      rcases List.mem_cons.mp hpMem with h | h
      · exact absurd (hB _ hxB) (by omega)
      · exact hdisjAB _ h hxB
    · intro y hy
      rw [hprev1, lget_set_ne]
      intro he
      subst he
      exact head_not_mem_tail (by simp) hBknodup hy
  · -- the new link p → s
    intro x hx y hy
    rw [List.getLast?_eq_getLast _ (by simp), Option.mem_some_iff] at hx
    have hyhead : y = s := by
      have : (B ++ [b.k]).head? = some s := by
        rw [List.head?_eq_head (by simp)]
      rw [this, Option.mem_some_iff] at hy
      omega
    subst hx
    subst hyhead
    constructor
    · rw [hnext1, lget_set_self _ (by omega)]
    · rw [hprev1, lget_set_self _ (by omega)]

/-- `undelete_link(i)` splices `i` back, provided `i`'s retained `prev` and
`next` entries name exactly its sorted splice points in the current ring:
`tail → A → B → tail` becomes `tail → A → i → B → tail`. -/
theorem undeleteLink_chain {b : Block} {A B : List Nat} {i : Nat}
    (hszn : b.next.length = b.k + 1) (hszp : b.prev.length = b.k + 1)
    (hmem : ∀ x ∈ A ++ B, x < b.k) (hik : i < b.k)
    (hnodup : (A ++ i :: B).Nodup)
    (hchain : (b.k :: (A ++ B) ++ [b.k]).Chain' (linkedL b.next b.prev))
    (hp : lget b.prev i = (b.k :: A).getLast (by simp))
    (hs : lget b.next i = (B ++ [b.k]).head (by simp)) :
    (b.k :: (A ++ i :: B) ++ [b.k]).Chain'
      (linkedL (b.undeleteLink i).next (b.undeleteLink i).prev) ∧
    (b.undeleteLink i).next = b.next.set ((b.k :: A).getLast (by simp)) i ∧
    (b.undeleteLink i).prev = b.prev.set ((B ++ [b.k]).head (by simp)) i := by
  have hA : ∀ x ∈ A, x < b.k := fun x hx => hmem x (List.mem_append_left _ hx)
  have hB : ∀ x ∈ B, x < b.k := fun x hx => hmem x (List.mem_append_right _ hx)
  obtain ⟨hAnd, hiBnd, hdisj⟩ := List.nodup_append.mp hnodup
  have hiA : i ∉ A := fun hmemA => hdisj hmemA (List.mem_cons_self _ _)
  have hBnd : B.Nodup := (List.nodup_cons.mp hiBnd).2
  have hiB : i ∉ B := (List.nodup_cons.mp hiBnd).1
  have hdisjAB : ∀ x ∈ A, x ∉ B := fun x hx hxB =>
    hdisj hx (List.mem_cons_of_mem _ hxB)
  set p := (b.k :: A).getLast (by simp) with hpdef
  set s := (B ++ [b.k]).head (by simp) with hsdef
  have hpMem : p ∈ b.k :: A := List.getLast_mem _
  have hsMem : s ∈ B ++ [b.k] := List.head_mem _
  have hpk : p ≤ b.k := getLast_cons_le hA _
  have hsk : s ≤ b.k := head_append_le hB _
  have hpiA : p ≠ i := by
    rcases List.mem_cons.mp hpMem with h | h
    · omega
    · exact fun he => hiA (he ▸ h)
  have hsiB : s ≠ i := by
    rcases List.mem_append.mp hsMem with h | h
    · exact fun he => hiB (he ▸ h)
    · simp only [List.mem_singleton] at h; omega
  have hnext1 : (b.undeleteLink i).next = b.next.set p i := by
    rw [Block.undeleteLink, hp]
  have hprev1 : (b.undeleteLink i).prev = b.prev.set s i := by
    rw [Block.undeleteLink]
    simp only
    rw [hp, lget_set_ne _ hpiA, hs]
  have hkAnodup : (b.k :: A).Nodup :=
    List.nodup_cons.mpr ⟨fun h => absurd (hA _ h) (by omega), hAnd⟩
  have hBknodup : (B ++ [b.k]).Nodup := by
    rw [List.nodup_append]
    exact ⟨hBnd, List.nodup_singleton _, fun x hx hxk =>
      absurd (hB _ hx) (by simp only [List.mem_singleton] at hxk; omega)⟩
  have hform2 : (b.k :: (A ++ B) ++ [b.k]) = (b.k :: A) ++ (B ++ [b.k]) := by simp
  rw [hform2, List.chain'_append] at hchain
  obtain ⟨hcA, hcB, -⟩ := hchain
  have hform : (b.k :: (A ++ i :: B) ++ [b.k]) = (b.k :: A) ++ i :: (B ++ [b.k]) := by
    simp
  refine ⟨?_, hnext1, hprev1⟩
  rw [hform, List.chain'_split]
  constructor
  · -- Chain' ((k :: A) ++ [i])
    rw [List.chain'_append]
    refine ⟨?_, List.chain'_singleton _, ?_⟩
    · apply chain_congr _ hcA
      · intro x hx
        rw [hnext1, lget_set_ne]
        intro he
        exact getLast_not_mem_dropLast (by simp) hkAnodup (he ▸ hx)
      · intro y hy
        rw [hprev1, lget_set_ne]
        intro he
        subst he
        rcases List.mem_append.mp hsMem with h | h
        · exact hdisjAB _ (by simpa using hy) h
        · simp only [List.mem_singleton] at h
          exact absurd (hA _ (by simpa using hy)) (by omega)
    · intro x hx y hy
      rw [List.getLast?_eq_getLast _ (by simp), Option.mem_some_iff] at hx
      simp only [List.head?_cons, Option.mem_some_iff] at hy
      subst hx
      subst hy
      constructor
      · rw [hnext1, lget_set_self _ (by omega)]
      · rw [hprev1, lget_set_ne _ hsiB, hp]
  · -- Chain' (i :: (B ++ [k]))
    rw [List.chain'_cons']
    constructor
    · intro y hy
      rw [List.head?_eq_head (by simp), Option.mem_some_iff] at hy
      subst hy
      constructor
      · rw [hnext1, lget_set_ne _ hpiA, hs]
      · rw [hprev1, lget_set_self _ (by omega)]
    · apply chain_congr _ hcB
      · intro x hx
        have hxB : x ∈ B := by
          have hdl : (B ++ [b.k]).dropLast = B := by
            rw [List.dropLast_append_of_ne_nil _ (by simp)]
            simp
          rwa [hdl] at hx
        rw [hnext1, lget_set_ne]
        intro he
        subst he
        rcases List.mem_cons.mp hpMem with h | h
        · exact absurd (hB _ hxB) (by omega)
        · exact hdisjAB _ h hxB
      · intro y hy
        rw [hprev1, lget_set_ne]
        intro he
        subst he
        exact head_not_mem_tail (by simp) hBknodup hy

/-! ## Cursor lemmas -/

theorem atEnd_iff {b : Block} : b.atEnd = true ↔ b.m = b.k := by
  simp [Block.atEnd, Block.tail]

theorem isEmpty_iff {b : Block} : b.isEmpty = true ↔ b.nElement = 0 := by
  simp [Block.isEmpty]

/-- In the ring, `prev[tail]` is the last active position. -/
theorem prev_tail_eq_getLast {b : Block} {L : List Nat} (h : Inv b L) (hne : L ≠ []) :
    lget b.prev b.k = L.getLast hne := by
  have hc := h.chain
  have hform : (b.k :: L ++ [b.k]) = (b.k :: L) ++ [b.k] := by simp
  rw [hform] at hc
  have := chain'_last_link (l := b.k :: L) (by simp) hc
  rw [this.2, List.getLast_cons hne]

/-- Unique decomposition of a duplicate-free list around an element. -/
theorem nodup_decomp_unique {l A1 B1 A2 B2 : List Nat} {m : Nat} (hnd : l.Nodup)
    (h1 : l = A1 ++ m :: B1) (h2 : l = A2 ++ m :: B2) : A1 = A2 ∧ B1 = B2 := by
  have hm1 : m ∉ A1 := by
    rw [h1] at hnd
    exact fun hmem => (List.disjoint_of_nodup_append hnd) hmem (List.mem_cons_self _ _)
  have hm2 : m ∉ A2 := by
    rw [h2] at hnd
    exact fun hmem => (List.disjoint_of_nodup_append hnd) hmem (List.mem_cons_self _ _)
  have hlen : A1.length = A2.length := by
    have e1 := indexOf_append_cons A1 B1 hm1
    have e2 := indexOf_append_cons A2 B2 hm2
    rw [← h1] at e1
    rw [← h2] at e2
    omega
  have := List.append_inj (h1 ▸ h2 : A1 ++ m :: B1 = A2 ++ m :: B2) hlen
  exact ⟨this.1, by simpa using this.2⟩

/-- The cursor-rescue step shared by `delete` and `undelete`: on a
nonempty block, stepping back from `tail` (when there) puts the cursor on
an active position, preserving the invariant. -/
theorem ensure_cursor {b : Block} {L : List Nat} (h : Inv b L) (hne : L ≠ [])
    (b1 : Block) (hb1 : b1 = if b.atEnd then b.reverse else b) :
    Inv b1 L ∧ b1.prev = b.prev ∧ b1.next = b.next ∧ b1.nElement = b.nElement ∧
    b1.alpha = b.alpha ∧ b1.pi = b.pi ∧ b1.k = b.k ∧
    ∃ A B, L = A ++ b1.m :: B ∧ b1.currentIndex = A.length := by
  by_cases hend : b.atEnd
  · rw [if_pos hend] at hb1
    rw [atEnd_iff] at hend
    have hcur : b.currentIndex = L.length := by
      rcases h.cursor with ⟨-, hor⟩ | ⟨A, B, hL, -⟩
      · rcases hor with h0 | h0
        · exact absurd h0 hne
        · exact h0
      · exfalso
        have : b.m ∈ L := hL ▸ List.mem_append_right _ (List.mem_cons_self _ _)
        exact absurd (h.mem _ this) (by omega)
    have hpos : 0 < b.currentIndex := by
      rw [hcur]
      exact List.length_pos.mpr hne
    have hb1x : b1 = { b with currentIndex := b.currentIndex - 1, m := lget b.prev b.m } := by
      rw [hb1, Block.reverse, if_pos hpos]
    have hm1 : b1.m = L.getLast hne := by
      rw [hb1x]
      simp only
      rw [hend]
      exact prev_tail_eq_getLast h hne
    have hLsplit : L = L.dropLast ++ b1.m :: [] := by
      rw [hm1]
      exact (List.dropLast_append_getLast hne).symm
    have hcur1 : b1.currentIndex = L.dropLast.length := by
      rw [hb1x]
      simp only
      rw [hcur, List.length_dropLast]
    obtain ⟨hf1, hf2, hf3, hf4, hf5, hf6⟩ :
        b1.prev = b.prev ∧ b1.next = b.next ∧ b1.nElement = b.nElement ∧
        b1.alpha = b.alpha ∧ b1.pi = b.pi ∧ b1.k = b.k := by
      rw [hb1x]
      exact ⟨rfl, rfl, rfl, rfl, rfl, rfl⟩
    refine ⟨⟨?_, ?_, ?_, ?_, ?_, ?_, ?_, ?_, ?_⟩, hf1, hf2, hf3, hf4, hf5, hf6,
      L.dropLast, [], hLsplit, hcur1⟩
    · rw [hf2, hf6]; exact h.sizeNext
    · rw [hf1, hf6]; exact h.sizePrev
    · rw [hf4, hf6]; exact h.alphaLen
    · rw [hf6]; exact h.mem
    · exact h.nodup
    · rw [hf4]; exact h.sorted
    · rw [hf1, hf2, hf6]; exact h.chain
    · rw [hf3, h.count]
    · exact Or.inr ⟨L.dropLast, [], hLsplit, hcur1⟩
  · rw [if_neg hend] at hb1
    subst hb1
    rcases h.cursor with ⟨hmk, -⟩ | ⟨A, B, hL, hcur⟩
    · exact absurd (atEnd_iff.mpr hmk) hend
    · exact ⟨h, rfl, rfl, rfl, rfl, rfl, rfl, A, B, hL, hcur⟩

@[simp] theorem deleteLink_k (b : Block) (i : Nat) : (b.deleteLink i).k = b.k := rfl

@[simp] theorem deleteLink_alpha (b : Block) (i : Nat) :
    (b.deleteLink i).alpha = b.alpha := rfl

@[simp] theorem deleteLink_pi (b : Block) (i : Nat) : (b.deleteLink i).pi = b.pi := rfl

@[simp] theorem deleteLink_m (b : Block) (i : Nat) : (b.deleteLink i).m = b.m := rfl

@[simp] theorem deleteLink_currentIndex (b : Block) (i : Nat) :
    (b.deleteLink i).currentIndex = b.currentIndex := rfl

@[simp] theorem deleteLink_nElement (b : Block) (i : Nat) :
    (b.deleteLink i).nElement = b.nElement := rfl

@[simp] theorem deleteLink_next_length (b : Block) (i : Nat) :
    (b.deleteLink i).next.length = b.next.length := by simp [Block.deleteLink]

@[simp] theorem deleteLink_prev_length (b : Block) (i : Nat) :
    (b.deleteLink i).prev.length = b.prev.length := by simp [Block.deleteLink]

@[simp] theorem undeleteLink_k (b : Block) (i : Nat) : (b.undeleteLink i).k = b.k := rfl

@[simp] theorem undeleteLink_alpha (b : Block) (i : Nat) :
    (b.undeleteLink i).alpha = b.alpha := rfl

@[simp] theorem undeleteLink_pi (b : Block) (i : Nat) : (b.undeleteLink i).pi = b.pi := rfl

@[simp] theorem undeleteLink_m (b : Block) (i : Nat) : (b.undeleteLink i).m = b.m := rfl

@[simp] theorem undeleteLink_currentIndex (b : Block) (i : Nat) :
    (b.undeleteLink i).currentIndex = b.currentIndex := rfl

@[simp] theorem undeleteLink_nElement (b : Block) (i : Nat) :
    (b.undeleteLink i).nElement = b.nElement := rfl

@[simp] theorem undeleteLink_next_length (b : Block) (i : Nat) :
    (b.undeleteLink i).next.length = b.next.length := by simp [Block.undeleteLink]

@[simp] theorem undeleteLink_prev_length (b : Block) (i : Nat) :
    (b.undeleteLink i).prev.length = b.prev.length := by simp [Block.undeleteLink]

/-- `Block::delete` of an active position: it returns normally and
preserves the invariant, with the position dropped from the ghost list. -/
theorem delete_inv {b : Block} {L : List Nat} {i : Nat} (h : Inv b L) (hi : i ∈ L) :
    ∃ b', b.delete i = some b' ∧ Inv b' (L.erase i) ∧
      b'.k = b.k ∧ b'.alpha = b.alpha ∧ b'.pi = b.pi ∧
      b'.nElement = L.length - 1 := by
  have hne : L ≠ [] := List.ne_nil_of_mem hi
  obtain ⟨h1, hf1, hf2, hf3, hf4, hf5, hf6, Am, Bm, hLm, hcur0⟩ :=
    ensure_cursor h hne (if b.atEnd then b.reverse else b) rfl
  set b1 := if b.atEnd then b.reverse else b with hb1
  have hik : i < b1.k := h1.mem i hi
  have hmk : b1.m < b1.k := h1.mem _ (hLm ▸ List.mem_append_right _ (List.mem_cons_self _ _))
  have hgi : b1.getPair i = some (pairOf b1.alpha i) := by
    rw [Block.getPair, if_pos (by rw [h1.alphaLen]; exact hik)]
  have hgm : b1.getPair b1.m = some (pairOf b1.alpha b1.m) := by
    rw [Block.getPair, if_pos (by rw [h1.alphaLen]; exact hmk)]
  -- the decomposition of L around the cursor
  have hnd := h1.nodup
  have hmAm : b1.m ∉ Am := by
    rw [hLm] at hnd
    exact fun hmem => (List.disjoint_of_nodup_append hnd) hmem (List.mem_cons_self _ _)
  have hsorted := h1.sorted
  rw [hLm] at hsorted
  obtain ⟨hpwAm, hpwmBm, hcross⟩ := List.pairwise_append.mp hsorted
  obtain ⟨hmBmLt, hpwBm⟩ := List.pairwise_cons.mp hpwmBm
  -- step the computation to the match
  unfold Block.delete
  rw [← hb1]
  dsimp only
  rw [hgi, hgm]
  simp only [Option.bind_eq_bind, Option.some_bind]
  -- case on the position of i relative to the cursor
  rcases List.mem_append.mp (hLm ▸ hi) with hiAm | hiRest
  · -- i is before the cursor: the Lt branch
    have hlt : pcmp (pairOf b1.alpha i) (pairOf b1.alpha b1.m) = .lt :=
      (pcmp_lt_iff _ _).mpr (hcross i hiAm _ (List.mem_cons_self _ _))
    rw [hlt]
    obtain ⟨A1, A2, hAm⟩ := List.append_of_mem hiAm
    have hLi : L = A1 ++ i :: (A2 ++ b1.m :: Bm) := by
      rw [hLm, hAm]; simp
    have hiA1 : i ∉ A1 := by
      have hx := h1.nodup
      rw [hLi] at hx
      exact fun hmem => (List.disjoint_of_nodup_append hx) hmem (List.mem_cons_self _ _)
    obtain ⟨hchain', -, -, -, -⟩ :=
      deleteLink_chain (b := b1) (A := A1) (B := A2 ++ b1.m :: Bm)
        h1.sizeNext h1.sizePrev (by rw [← hLi]; exact h1.mem) (by rw [← hLi]; exact h1.nodup)
        (by rw [← hLi]; exact h1.chain)
    have herase : L.erase i = A1 ++ (A2 ++ b1.m :: Bm) := by
      rw [hLi, List.erase_append_right _ hiA1, List.erase_cons_head]
    have heraseAm : L.erase i = (Am.erase i) ++ b1.m :: Bm := by
      rw [hLm, List.erase_append_left _ hiAm]
    refine ⟨_, rfl, ⟨?_, ?_, ?_, ?_, ?_, ?_, ?_, ?_, ?_⟩, by simp [hf6], by simp [hf4],
      by simp [hf5], by simp [h1.count]⟩
    · simpa using h1.sizeNext
    · simpa using h1.sizePrev
    · simpa using h1.alphaLen
    · intro x hx
      simpa using h1.mem x (List.mem_of_mem_erase hx)
    · exact h1.nodup.erase i
    · simpa using List.Pairwise.sublist (List.erase_sublist i L) h1.sorted
    · simp only [deleteLink_k]
      rw [herase]
      exact hchain'
    · simp only [deleteLink_nElement]
      rw [h1.count, List.length_erase_of_mem hi]
    · simp only [deleteLink_k, deleteLink_m, deleteLink_currentIndex]
      refine Or.inr ⟨Am.erase i, Bm, heraseAm, ?_⟩
      rw [hcur0, List.length_erase_of_mem hiAm]
  · rcases List.mem_cons.mp hiRest with hieq | hiBm
    · -- i is the cursor position: the Eq branch
      subst hieq
      have heq : pcmp (pairOf b1.alpha b1.m) (pairOf b1.alpha b1.m) = .eq := by
        rw [pcmp_eq_iff]
      rw [heq]
      obtain ⟨hchain', hpeq, hseq, hnext1, hprev1⟩ :=
        deleteLink_chain (b := b1) (A := Am) (B := Bm)
          h1.sizeNext h1.sizePrev (by rw [← hLm]; exact h1.mem) (by rw [← hLm]; exact h1.nodup)
          (by rw [← hLm]; exact h1.chain)
      have herase : L.erase b1.m = Am ++ Bm := by
        rw [hLm, List.erase_append_right _ hmAm, List.erase_cons_head]
      have hlen : L.length = Am.length + Bm.length + 1 := by
        rw [hLm]; simp; omega
      have hpMem : (b1.k :: Am).getLast (by simp) ∈ b1.k :: Am := List.getLast_mem _
      have hsMem : (Bm ++ [b1.k]).head (by simp) ∈ Bm ++ [b1.k] := List.head_mem _
      have hpne : (b1.k :: Am).getLast (by simp) ≠ b1.m := by
        rcases List.mem_cons.mp hpMem with hq | hq
        · intro he; rw [← he] at hmk; omega
        · exact fun he => hmAm (he ▸ hq)
      have hsne : (Bm ++ [b1.k]).head (by simp) ≠ b1.m := by
        rcases List.mem_append.mp hsMem with hq | hq
        · intro he
          have hx := h1.nodup
          rw [hLm] at hx
          have hBnodup := List.nodup_cons.mp ((List.nodup_append.mp hx).2.1)
          exact hBnodup.1 (he ▸ hq)
        · simp only [List.mem_singleton] at hq
          intro he; rw [← he] at hmk; omega
      have hDn : lget (b1.deleteLink b1.m).next b1.m = (Bm ++ [b1.k]).head (by simp) := by
        rw [hnext1, lget_set_ne _ hpne, hseq]
      have hDp : lget (b1.deleteLink b1.m).prev b1.m = (b1.k :: Am).getLast (by simp) := by
        rw [hprev1, lget_set_ne _ hsne, hpeq]
      have hcond : b1.currentIndex ≤ b1.nElement - 1 := by
        rw [hcur0, h1.count, hlen]; omega
      simp only [deleteLink_k, deleteLink_m, deleteLink_currentIndex, deleteLink_nElement,
        Block.tail]
      rw [if_pos hcond]
      cases hBmc : Bm with
      | cons b2 B2 =>
        rw [hBmc] at hDn hchain' herase
        have hs2 : ((b2 :: B2) ++ [b1.k]).head (by simp) = b2 := rfl
        rw [hs2] at hDn
        have hb2k : b2 < b1.k := h1.mem b2 (by rw [hLm, hBmc]; simp)
        rw [if_neg (by
          rw [hDn]
          intro hcc
          have hx := hcc.1
          omega)]
        refine ⟨_, rfl, ⟨?_, ?_, ?_, ?_, ?_, ?_, ?_, ?_, ?_⟩, by simp [hf6], by simp [hf4],
          by simp [hf5], by simp [h1.count]⟩
        · simpa using h1.sizeNext
        · simpa using h1.sizePrev
        · simpa using h1.alphaLen
        · intro x hx
          simpa using h1.mem x (List.mem_of_mem_erase hx)
        · exact h1.nodup.erase b1.m
        · simpa using List.Pairwise.sublist (List.erase_sublist _ L) h1.sorted
        · simp only [deleteLink_k]
          rw [herase]
          exact hchain'
        · simp only [deleteLink_nElement]
          rw [h1.count, List.length_erase_of_mem hi]
        · simp only [deleteLink_k, deleteLink_m, deleteLink_currentIndex]
          rw [hDn]
          refine Or.inr ⟨Am, B2, ?_, hcur0⟩
          rw [herase]
      | nil =>
        rw [hBmc] at hDn hchain' herase
        rw [List.append_nil] at hchain' herase
        have hs2 : (([] : List Nat) ++ [b1.k]).head (by simp) = b1.k := rfl
        rw [hs2] at hDn
        cases hAmc : Am with
        | nil =>
          have hn0 : b1.nElement - 1 = 0 := by
            rw [h1.count, hlen, hAmc, hBmc]
            simp
          rw [if_neg (by
            rw [hn0]
            intro hcc
            exact absurd hcc.2 (by omega))]
          refine ⟨_, rfl, ⟨?_, ?_, ?_, ?_, ?_, ?_, ?_, ?_, ?_⟩, by simp [hf6], by simp [hf4],
            by simp [hf5], by simp [h1.count]⟩
          · simpa using h1.sizeNext
          · simpa using h1.sizePrev
          · simpa using h1.alphaLen
          · intro x hx
            simpa using h1.mem x (List.mem_of_mem_erase hx)
          · exact h1.nodup.erase b1.m
          · simpa using List.Pairwise.sublist (List.erase_sublist _ L) h1.sorted
          · simp only [deleteLink_k]
            rw [herase, hAmc]
            rw [hAmc] at hchain'
            exact hchain'
          · simp only [deleteLink_nElement]
            rw [h1.count, List.length_erase_of_mem hi]
          · simp only [deleteLink_k, deleteLink_m, deleteLink_currentIndex]
            refine Or.inl ⟨?_, Or.inl ?_⟩
            · rw [hDn]
            · rw [herase, hAmc]
        | cons a1 A1 =>
          have hn1 : 0 < b1.nElement - 1 := by
            rw [h1.count, hlen, hAmc]
            simp only [List.length_cons]
            omega
          rw [if_pos (⟨hDn, hn1⟩ : lget (b1.deleteLink b1.m).next b1.m = b1.k ∧
            0 < b1.nElement - 1)]
          have hAmne : Am ≠ [] := by rw [hAmc]; simp
          have hpeq2 : (b1.k :: Am).getLast (by simp) = Am.getLast hAmne :=
            List.getLast_cons hAmne
          refine ⟨_, rfl, ⟨?_, ?_, ?_, ?_, ?_, ?_, ?_, ?_, ?_⟩, by simp [hf6], by simp [hf4],
            by simp [hf5], by simp [h1.count]⟩
          · simpa using h1.sizeNext
          · simpa using h1.sizePrev
          · simpa using h1.alphaLen
          · intro x hx
            simpa using h1.mem x (List.mem_of_mem_erase hx)
          · exact h1.nodup.erase b1.m
          · simpa using List.Pairwise.sublist (List.erase_sublist _ L) h1.sorted
          · simp only [deleteLink_k]
            rw [herase]
            exact hchain'
          · simp only [deleteLink_nElement]
            rw [h1.count, List.length_erase_of_mem hi]
          · simp only [deleteLink_k, deleteLink_m, deleteLink_currentIndex]
            refine Or.inr ⟨Am.dropLast, [], ?_, ?_⟩
            · rw [herase, hDp, hpeq2]
              exact (List.dropLast_append_getLast hAmne).symm
            · rw [hcur0, List.length_dropLast]
    · -- i is after the cursor: the Gt branch
      have hgt : pcmp (pairOf b1.alpha i) (pairOf b1.alpha b1.m) = .gt :=
        (pcmp_gt_iff _ _).mpr (hmBmLt i hiBm)
      rw [hgt]
      obtain ⟨B1, B2, hBm⟩ := List.append_of_mem hiBm
      have hLi : L = (Am ++ b1.m :: B1) ++ i :: B2 := by
        rw [hLm, hBm]; simp
      have hiA1 : i ∉ Am ++ b1.m :: B1 := by
        have hx := h1.nodup
        rw [hLi] at hx
        exact fun hmem => (List.disjoint_of_nodup_append hx) hmem (List.mem_cons_self _ _)
      obtain ⟨hchain', -, -, -, -⟩ :=
        deleteLink_chain (b := b1) (A := Am ++ b1.m :: B1) (B := B2)
          h1.sizeNext h1.sizePrev (by rw [← hLi]; exact h1.mem) (by rw [← hLi]; exact h1.nodup)
          (by rw [← hLi]; exact h1.chain)
      have herase : L.erase i = Am ++ b1.m :: (B1 ++ B2) := by
        rw [hLi, List.erase_append_right _ hiA1, List.erase_cons_head]
        simp
      refine ⟨_, rfl, ⟨?_, ?_, ?_, ?_, ?_, ?_, ?_, ?_, ?_⟩, by simp [hf6], by simp [hf4],
        by simp [hf5], by simp [h1.count]⟩
      · simpa using h1.sizeNext
      · simpa using h1.sizePrev
      · simpa using h1.alphaLen
      · intro x hx
        simpa using h1.mem x (List.mem_of_mem_erase hx)
      · exact h1.nodup.erase i
      · simpa using List.Pairwise.sublist (List.erase_sublist i L) h1.sorted
      · simp only [deleteLink_k]
        rw [herase]
        have hform : Am ++ b1.m :: (B1 ++ B2) = (Am ++ b1.m :: B1) ++ B2 := by simp
        rw [hform]
        exact hchain'
      · simp only [deleteLink_nElement]
        rw [h1.count, List.length_erase_of_mem hi]
      · simp only [deleteLink_k, deleteLink_m, deleteLink_currentIndex]
        exact Or.inr ⟨Am, B1 ++ B2, herase, hcur0⟩

/-- `Block::undelete` of an inactive position whose retained `prev`/`next`
entries name its sorted splice points among the active positions: it
returns normally and re-inserts the position at its sorted place,
preserving the invariant. -/
theorem undelete_inv {b : Block} {A B : List Nat} {i : Nat}
    (h : Inv b (A ++ B)) (hik : i < b.k)
    (hnodup : (A ++ i :: B).Nodup)
    (hlo : ∀ a ∈ A, pairLt (pairOf b.alpha a) (pairOf b.alpha i))
    (hhi : ∀ c ∈ B, pairLt (pairOf b.alpha i) (pairOf b.alpha c))
    (hp : lget b.prev i = (b.k :: A).getLast (by simp))
    (hs : lget b.next i = (B ++ [b.k]).head (by simp)) :
    ∃ b', b.undelete i = some b' ∧ Inv b' (A ++ i :: B) ∧
      b'.k = b.k ∧ b'.alpha = b.alpha ∧ b'.pi = b.pi ∧
      b'.nElement = (A ++ B).length + 1 := by
  by_cases hLe : A ++ B = []
  · -- the block is empty: undelete's first branch re-seeds the cursor at i
    obtain ⟨hA0, hB0⟩ := List.append_eq_nil.mp hLe
    subst hA0; subst hB0
    have hn0 : b.nElement = 0 := by rw [h.count]; rfl
    have hemp : b.isEmpty = true := isEmpty_iff.mpr hn0
    have hmk : b.m = b.k := by
      rcases h.cursor with ⟨hmk, -⟩ | ⟨A', B', hL, -⟩
      · exact hmk
      · exact absurd hL.symm (by simp)
    obtain ⟨hchain', hnext1, hprev1⟩ :=
      undeleteLink_chain (b := b) (A := []) (B := []) h.sizeNext h.sizePrev
        (by simp) hik (by simp) h.chain hp hs
    have hgl : ((b.k :: ([] : List Nat)).getLast (by simp)) = b.k := rfl
    have hhd : ((([] : List Nat)) ++ [b.k]).head (by simp) = b.k := rfl
    rw [hgl] at hnext1
    rw [hhd] at hprev1
    have hm' : lget (b.undeleteLink i).prev b.m = i := by
      rw [hprev1, hmk, lget_set_self _ (by rw [h.sizePrev]; omega)]
    have hcond : ¬ ((¬ b.isEmpty) ∧ b.atEnd) := fun hc => hc.1 hemp
    unfold Block.undelete
    rw [if_neg hcond]
    dsimp only
    rw [if_pos (isEmpty_iff.mpr (by simpa using hn0))]
    refine ⟨_, rfl, ⟨?_, ?_, ?_, ?_, ?_, ?_, ?_, ?_, ?_⟩, by simp, by simp, by simp, by simp⟩
    · simpa using h.sizeNext
    · simpa using h.sizePrev
    · simpa using h.alphaLen
    · intro x hx
      simp only [List.nil_append, List.mem_singleton] at hx
      simpa [hx] using hik
    · exact hnodup
    · simp
    · simpa using hchain'
    · simp
    · exact Or.inr ⟨[], [], by simp [hm'], by simp⟩
  · -- the block is nonempty
    have hnEmp : ¬ (b.isEmpty = true) := by
      rw [isEmpty_iff, h.count]
      exact fun hc => hLe (List.length_eq_zero.mp hc)
    have hresc : (if ¬ b.isEmpty ∧ b.atEnd then b.reverse else b)
        = (if b.atEnd then b.reverse else b) := by
      by_cases hend : b.atEnd = true
      · rw [if_pos ⟨hnEmp, hend⟩, if_pos hend]
      · rw [if_neg (fun hc => hend hc.2), if_neg hend]
    obtain ⟨h1, hf1, hf2, hf3, hf4, hf5, hf6, Am, Bm, hLm, hcur0⟩ :=
      ensure_cursor h hLe (if b.atEnd then b.reverse else b) rfl
    set b1 := if b.atEnd then b.reverse else b with hb1
    have hik1 : i < b1.k := by rw [hf6]; exact hik
    have hmmem : b1.m ∈ A ++ B := by
      rw [hLm]; exact List.mem_append_right _ (List.mem_cons_self _ _)
    have hmk : b1.m < b1.k := h1.mem _ hmmem
    have hp1 : lget b1.prev i = (b1.k :: A).getLast (by simp) := by
      rw [hf1, hf6]; exact hp
    have hs1 : lget b1.next i = (B ++ [b1.k]).head (by simp) := by
      rw [hf2, hf6]; exact hs
    have hlo1 : ∀ a ∈ A, pairLt (pairOf b1.alpha a) (pairOf b1.alpha i) := by
      rw [hf4]; exact hlo
    have hhi1 : ∀ c ∈ B, pairLt (pairOf b1.alpha i) (pairOf b1.alpha c) := by
      rw [hf4]; exact hhi
    obtain ⟨hchain', hnext1, hprev1⟩ :=
      undeleteLink_chain (b := b1) (A := A) (B := B) h1.sizeNext h1.sizePrev
        h1.mem hik1 hnodup h1.chain hp1 hs1
    have hgi : (b1.undeleteLink i).getPair i = some (pairOf b1.alpha i) := by
      rw [Block.getPair]
      simp only [undeleteLink_alpha]
      rw [if_pos (by rw [h1.alphaLen]; exact hik1)]
    have hgm : (b1.undeleteLink i).getPair (b1.undeleteLink i).m
        = some (pairOf b1.alpha b1.m) := by
      rw [Block.getPair]
      simp only [undeleteLink_alpha, undeleteLink_m]
      rw [if_pos (by rw [h1.alphaLen]; exact hmk)]
    have hnot2 : ¬ ((b1.undeleteLink i).isEmpty = true) := by
      rw [isEmpty_iff]
      simp only [undeleteLink_nElement, h1.count]
      exact fun hc => hLe (List.length_eq_zero.mp hc)
    obtain ⟨hpwA, hpwB, hcross⟩ := List.pairwise_append.mp h1.sorted
    have hsorted' : (A ++ i :: B).Pairwise
        (fun x y => pairLt (pairOf b1.alpha x) (pairOf b1.alpha y)) := by
      rw [List.pairwise_append]
      refine ⟨hpwA, List.pairwise_cons.mpr ⟨hhi1, hpwB⟩, ?_⟩
      intro a ha x hx
      rcases List.mem_cons.mp hx with hxi | hxB
      · subst hxi; exact hlo1 a ha
      · exact hcross a ha x hxB
    unfold Block.undelete
    rw [hresc]
    dsimp only
    rw [if_neg hnot2, hgi, hgm]
    simp only [Option.bind_eq_bind, Option.some_bind]
    rcases List.mem_append.mp hmmem with hmA | hmB
    · -- the cursor sits before the insertion point: the Gt branch
      have hgt : pcmp (pairOf b1.alpha i) (pairOf b1.alpha b1.m) = .gt :=
        (pcmp_gt_iff _ _).mpr (hlo1 _ hmA)
      rw [hgt]
      obtain ⟨A1, A2, hAeq⟩ := List.append_of_mem hmA
      have hLsplit : A ++ B = A1 ++ b1.m :: (A2 ++ B) := by rw [hAeq]; simp
      obtain ⟨hA1eq, -⟩ := nodup_decomp_unique h1.nodup hLsplit hLm
      have hcurA1 : b1.currentIndex = A1.length := by rw [hcur0, ← hA1eq]
      have hLnew : A ++ i :: B = A1 ++ b1.m :: (A2 ++ i :: B) := by rw [hAeq]; simp
      refine ⟨_, rfl, ⟨?_, ?_, ?_, ?_, ?_, ?_, ?_, ?_, ?_⟩, by simp [hf6], by simp [hf4],
        by simp [hf5], by simp [h1.count]⟩
      · simpa using h1.sizeNext
      · simpa using h1.sizePrev
      · simpa using h1.alphaLen
      · intro x hx
        rcases List.mem_append.mp hx with hxA | hxiB
        · simpa using h1.mem x (List.mem_append_left _ hxA)
        · rcases List.mem_cons.mp hxiB with hxi | hxB
          · subst hxi; simpa using hik1
          · simpa using h1.mem x (List.mem_append_right _ hxB)
      · exact hnodup
      · simpa using hsorted'
      · simpa using hchain'
      · simp [h1.count]
        omega
      · simp only [undeleteLink_m, undeleteLink_currentIndex]
        exact Or.inr ⟨A1, A2 ++ i :: B, hLnew, hcurA1⟩
    · -- the cursor sits after the insertion point: the Lt branch
      have hlt : pcmp (pairOf b1.alpha i) (pairOf b1.alpha b1.m) = .lt :=
        (pcmp_lt_iff _ _).mpr (hhi1 _ hmB)
      rw [hlt]
      obtain ⟨B1, B2, hBeq⟩ := List.append_of_mem hmB
      have hLsplit : A ++ B = (A ++ B1) ++ b1.m :: B2 := by rw [hBeq]; simp
      obtain ⟨hAmeq, -⟩ := nodup_decomp_unique h1.nodup hLsplit hLm
      have hcurlen : b1.currentIndex = A.length + B1.length := by
        rw [hcur0, ← hAmeq]; simp
      have hLnew : A ++ i :: B = (A ++ i :: B1) ++ b1.m :: B2 := by rw [hBeq]; simp
      refine ⟨_, rfl, ⟨?_, ?_, ?_, ?_, ?_, ?_, ?_, ?_, ?_⟩, by simp [hf6], by simp [hf4],
        by simp [hf5], by simp [h1.count]⟩
      · simpa using h1.sizeNext
      · simpa using h1.sizePrev
      · simpa using h1.alphaLen
      · intro x hx
        rcases List.mem_append.mp hx with hxA | hxiB
        · simpa using h1.mem x (List.mem_append_left _ hxA)
        · rcases List.mem_cons.mp hxiB with hxi | hxB
          · subst hxi; simpa using hik1
          · simpa using h1.mem x (List.mem_append_right _ hxB)
      · exact hnodup
      · simpa using hsorted'
      · simpa using hchain'
      · simp [h1.count]
        omega
      · simp only [undeleteLink_m, undeleteLink_currentIndex]
        refine Or.inr ⟨A ++ i :: B1, B2, hLnew, ?_⟩
        rw [hcurlen]
        simp
        omega

/-! ## Ring-indexing lemmas: the cursor as a rank in `L ++ [tail]` -/

theorem ringAt_lt {b : Block} {L : List Nat} {p : Nat} (hp : p < L.length) :
    ringAt b L p = L.getD p 0 := List.getD_append _ _ _ _ hp

theorem ringAt_last {b : Block} {L : List Nat} : ringAt b L L.length = b.k := by
  unfold ringAt
  rw [List.getD_append_right _ _ _ _ (le_refl _)]
  simp

theorem ringAt_mid {b : Block} {A B : List Nat} {m : Nat} :
    ringAt b (A ++ m :: B) A.length = m := by
  unfold ringAt
  rw [List.append_assoc, List.cons_append, List.getD_append_right _ _ _ _ (le_refl _)]
  simp

/-- Consecutive entries of `tail :: L ++ [tail]` are linked. -/
theorem chain_link_at {b : Block} {L : List Nat} (h : Inv b L) {i : Nat}
    (hi : i < L.length + 1) :
    linkedL b.next b.prev ((b.k :: (L ++ [b.k])).getD i 0)
      ((b.k :: (L ++ [b.k])).getD (i + 1) 0) := by
  have hc := h.chain
  rw [List.cons_append, List.chain'_iff_get] at hc
  have hlen : (b.k :: (L ++ [b.k])).length = L.length + 2 := by simp
  have hx := hc i (by simp; omega)
  rwa [List.get_eq_getElem, List.get_eq_getElem,
    ← List.getD_eq_getElem _ 0 (by simp; omega),
    ← List.getD_eq_getElem _ 0 (by simp; omega)] at hx

theorem ring_next {b : Block} {L : List Nat} (h : Inv b L) {p : Nat}
    (hp : p < L.length) : lget b.next (ringAt b L p) = ringAt b L (p + 1) := by
  have hx := chain_link_at h (i := p + 1) (by omega)
  simpa [List.getD_cons_succ, ringAt] using hx.1

theorem ring_prev {b : Block} {L : List Nat} (h : Inv b L) {p : Nat}
    (hp : p < L.length) : lget b.prev (ringAt b L (p + 1)) = ringAt b L p := by
  have hx := chain_link_at h (i := p + 1) (by omega)
  simpa [List.getD_cons_succ, ringAt] using hx.2

theorem ring_next_tail {b : Block} {L : List Nat} (h : Inv b L) :
    lget b.next b.k = ringAt b L 0 := by
  have hx := chain_link_at h (i := 0) (by omega)
  simpa [ringAt] using hx.1

theorem ring_prev_head {b : Block} {L : List Nat} (h : Inv b L) :
    lget b.prev (ringAt b L 0) = b.k := by
  have hx := chain_link_at h (i := 0) (by omega)
  simpa [ringAt] using hx.2

theorem stepNext_ring {b : Block} {L : List Nat} (h : Inv b L) (t : Nat) :
    ∀ p, p + t ≤ L.length → b.stepNext (ringAt b L p) t = ringAt b L (p + t) := by
  induction t with
  | zero => intro p _; rfl
  | succ t ih =>
    intro p hp
    have hstep : b.stepNext (ringAt b L p) (t + 1)
        = b.stepNext (lget b.next (ringAt b L p)) t := rfl
    rw [hstep, ring_next h (by omega), ih (p + 1) (by omega)]
    congr 1
    omega

theorem stepPrev_ring {b : Block} {L : List Nat} (h : Inv b L) (t : Nat) :
    ∀ p, t ≤ p → p ≤ L.length → b.stepPrev (ringAt b L p) t = ringAt b L (p - t) := by
  induction t with
  | zero => intro p _ _; rfl
  | succ t ih =>
    intro p ht hp
    obtain ⟨p', rfl⟩ : ∃ p', p = p' + 1 := ⟨p - 1, by omega⟩
    have hstep : b.stepPrev (ringAt b L (p' + 1)) (t + 1)
        = b.stepPrev (lget b.prev (ringAt b L (p' + 1))) t := rfl
    rw [hstep, ring_prev h (by omega), ih p' (by omega) (by omega)]
    congr 1
    omega

/-- On a nonempty block the cursor always sits at rank `current_index` of
the ring. -/
theorem cursor_at_ring {b : Block} {L : List Nat} (h : Inv b L) (hne : L ≠ []) :
    b.currentIndex ≤ L.length ∧ b.m = ringAt b L b.currentIndex := by
  rcases h.cursor with ⟨hmk, hor⟩ | ⟨A, B, hL, hcur⟩
  · rcases hor with h0 | h0
    · exact absurd h0 hne
    · refine ⟨by omega, ?_⟩
      rw [h0, ringAt_last, hmk]
  · constructor
    · rw [hcur, hL]
      simp only [List.length_append, List.length_cons]
      omega
    · rw [hcur, hL, ringAt_mid]

/-- Rebuild the invariant for a block that differs from an invariant-holding
one only in its cursor, when the new cursor names rank `j` of the ring. -/
theorem Inv_of_cursorAt {b b' : Block} {L : List Nat} (h : Inv b L)
    (hnext : b'.next = b.next) (hprev : b'.prev = b.prev) (halpha : b'.alpha = b.alpha)
    (hk : b'.k = b.k) (hn : b'.nElement = b.nElement) {j : Nat} (hj : j ≤ L.length)
    (hm : b'.m = ringAt b L j) (hcur : b'.currentIndex = j) :
    Inv b' L := by
  refine ⟨?_, ?_, ?_, ?_, h.nodup, ?_, ?_, ?_, ?_⟩
  · rw [hnext, hk]; exact h.sizeNext
  · rw [hprev, hk]; exact h.sizePrev
  · rw [halpha, hk]; exact h.alphaLen
  · rw [hk]; exact h.mem
  · rw [halpha]; exact h.sorted
  · rw [hnext, hprev, hk]; exact h.chain
  · rw [hn]; exact h.count
  · rcases Nat.lt_or_ge j L.length with hlt | hge
    · refine Or.inr ⟨L.take j, L.drop (j + 1), ?_, ?_⟩
      · rw [hm, ringAt_lt hlt]
        conv_lhs => rw [← List.take_append_drop j L]
        congr 1
        rw [List.drop_eq_getElem_cons hlt, List.getD_eq_getElem _ _ hlt]
      · rw [hcur, List.length_take]
        omega
    · have hje : j = L.length := by omega
      subst hje
      refine Or.inl ⟨?_, Or.inr (by rw [hcur])⟩
      rw [hm, ringAt_last, hk]

/-! ## Cursor-movement operations preserve the invariant -/

/-- `Block::advance` preserves the invariant (it clamps at `n_element`). -/
theorem advance_inv {b : Block} {L : List Nat} (h : Inv b L) : Inv b.advance L := by
  unfold Block.advance
  by_cases hc : b.currentIndex < b.nElement
  · rw [if_pos hc]
    have hne : L ≠ [] := by
      intro h0
      rw [h.count, h0] at hc
      simp at hc
    obtain ⟨hcle, hmr⟩ := cursor_at_ring h hne
    have hcur_lt : b.currentIndex < L.length := by rw [← h.count]; exact hc
    refine Inv_of_cursorAt h rfl rfl rfl rfl rfl (j := b.currentIndex + 1)
      (by omega) ?_ rfl
    show lget b.next b.m = ringAt b L (b.currentIndex + 1)
    rw [hmr, ring_next h hcur_lt]
  · rw [if_neg hc]
    exact h

/-- `Block::reverse` preserves the invariant (it clamps at zero). -/
theorem reverse_inv {b : Block} {L : List Nat} (h : Inv b L) : Inv b.reverse L := by
  unfold Block.reverse
  by_cases hc : 0 < b.currentIndex
  · rw [if_pos hc]
    by_cases hne : L = []
    · subst hne
      rcases h.cursor with ⟨hmk, -⟩ | ⟨A, B, hL, -⟩
      · have hpk : lget b.prev b.k = b.k := by
          simpa [ringAt] using (chain_link_at h (i := 0) (by omega)).2
        refine ⟨h.sizeNext, h.sizePrev, h.alphaLen, h.mem, h.nodup, h.sorted,
          h.chain, h.count, ?_⟩
        refine Or.inl ⟨?_, Or.inl rfl⟩
        show lget b.prev b.m = b.k
        rw [hmk, hpk]
      · exact absurd hL.symm (by simp)
    · obtain ⟨hcle, hmr⟩ := cursor_at_ring h hne
      have hLpos : 0 < L.length := List.length_pos.mpr hne
      refine Inv_of_cursorAt h rfl rfl rfl rfl rfl (j := b.currentIndex - 1)
        (by omega) ?_ rfl
      show lget b.prev b.m = ringAt b L (b.currentIndex - 1)
      rw [hmr]
      have hsplit : b.currentIndex = (b.currentIndex - 1) + 1 := by omega
      conv_lhs => rw [hsplit]
      rw [ring_prev h (by omega)]
  · rw [if_neg hc]
    exact h

/-- `Block::reset` preserves the invariant and parks the cursor at rank 0. -/
theorem reset_inv {b : Block} {L : List Nat} (h : Inv b L) : Inv b.reset L := by
  refine Inv_of_cursorAt h rfl rfl rfl rfl rfl (j := 0) (by omega) ?_ rfl
  show lget b.next b.tail = ringAt b L 0
  rw [Block.tail]
  exact ring_next_tail h

/-- `Block::traverse_to_index` preserves the invariant whenever the target
rank is at most the number of active positions, and lands the cursor
there. -/
theorem traverseToIndex_inv {b : Block} {L : List Nat} (h : Inv b L) {j : Nat}
    (hj : j ≤ L.length) :
    Inv (b.traverseToIndex j) L ∧ (b.traverseToIndex j).currentIndex = j ∧
    (b.traverseToIndex j).m = ringAt b L j ∧
    (b.traverseToIndex j).next = b.next ∧ (b.traverseToIndex j).prev = b.prev ∧
    (b.traverseToIndex j).alpha = b.alpha ∧ (b.traverseToIndex j).k = b.k ∧
    (b.traverseToIndex j).nElement = b.nElement := by
  by_cases hne : L = []
  · -- the empty ring: the target must be 0 and every path parks at tail
    subst hne
    have hj0 : j = 0 := by simpa using hj
    subst hj0
    have hmk : b.m = b.k := by
      rcases h.cursor with ⟨hmk, -⟩ | ⟨A, B, hL, -⟩
      · exact hmk
      · exact absurd hL.symm (by simp)
    have hpk : lget b.prev b.k = b.k := by
      simpa [ringAt] using (chain_link_at h (i := 0) (by omega)).2
    have hstepPrev : ∀ t, b.stepPrev b.k t = b.k := by
      intro t
      induction t with
      | zero => rfl
      | succ t ih =>
        have hstep : b.stepPrev b.k (t + 1) = b.stepPrev (lget b.prev b.k) t := rfl
        rw [hstep, hpk, ih]
    have hring0 : ringAt b [] 0 = b.k := by simp [ringAt]
    unfold Block.traverseToIndex
    by_cases h0 : ((0 : Nat) : Int) - (b.currentIndex : Int) = 0
    · rw [if_pos h0]
      have hc0 : b.currentIndex = 0 := by omega
      exact ⟨h, hc0, by rw [hmk, hring0], rfl, rfl, rfl, rfl, rfl⟩
    · rw [if_neg h0]
      by_cases h1 : ((0 : Nat) : Int) - (b.currentIndex : Int) = -1
      · rw [if_pos h1]
        have hm' : lget b.prev b.m = ringAt b ([] : List Nat) 0 := by
          rw [hmk, hpk, hring0]
        refine ⟨Inv_of_cursorAt h rfl rfl rfl rfl rfl (j := 0) (by simp) hm'
          (by show b.currentIndex - 1 = 0; omega),
          by show b.currentIndex - 1 = 0; omega, hm', rfl, rfl, rfl, rfl, rfl⟩
      · rw [if_neg h1, if_neg (by omega : ¬ ((0 : Nat) : Int) - (b.currentIndex : Int) = 1),
          if_pos (by omega : ((0 : Nat) : Int) - (b.currentIndex : Int) ≤ 0)]
        have hm' : b.stepPrev b.m (b.currentIndex - 0) = ringAt b ([] : List Nat) 0 := by
          rw [hmk, hstepPrev, hring0]
        exact ⟨Inv_of_cursorAt h rfl rfl rfl rfl rfl (j := 0) (by simp) hm' rfl,
          rfl, hm', rfl, rfl, rfl, rfl, rfl⟩
  · -- the nonempty ring: the cursor moves rank-to-rank
    obtain ⟨hcle, hmr⟩ := cursor_at_ring h hne
    have hcnt : b.nElement = L.length := h.count
    unfold Block.traverseToIndex
    by_cases h0 : (j : Int) - (b.currentIndex : Int) = 0
    · rw [if_pos h0]
      have hc0 : b.currentIndex = j := by omega
      exact ⟨h, hc0, by rw [← hc0]; exact hmr, rfl, rfl, rfl, rfl, rfl⟩
    · rw [if_neg h0]
      by_cases h1 : (j : Int) - (b.currentIndex : Int) = -1
      · rw [if_pos h1]
        have hc1 : b.currentIndex = j + 1 := by omega
        have hjlt : j < L.length := by omega
        have hm' : lget b.prev b.m = ringAt b L j := by
          rw [hmr, hc1, ring_prev h hjlt]
        exact ⟨Inv_of_cursorAt h rfl rfl rfl rfl rfl (j := j) hj hm'
          (by show b.currentIndex - 1 = j; omega),
          by show b.currentIndex - 1 = j; omega, hm', rfl, rfl, rfl, rfl, rfl⟩
      · rw [if_neg h1]
        by_cases h2 : (j : Int) - (b.currentIndex : Int) = 1
        · rw [if_pos h2]
          have hc2 : j = b.currentIndex + 1 := by omega
          have hcn : b.currentIndex < b.nElement := by omega
          unfold Block.advance
          rw [if_pos hcn]
          have hm' : lget b.next b.m = ringAt b L j := by
            rw [hmr, ring_next h (by omega), ← hc2]
          exact ⟨Inv_of_cursorAt h rfl rfl rfl rfl rfl (j := j) hj hm'
            (by show b.currentIndex + 1 = j; omega),
            by show b.currentIndex + 1 = j; omega, hm', rfl, rfl, rfl, rfl, rfl⟩
        · rw [if_neg h2]
          by_cases h3 : (j : Int) - (b.currentIndex : Int) ≤ 0
          · rw [if_pos h3]
            have hm' : b.stepPrev b.m (b.currentIndex - j) = ringAt b L j := by
              rw [hmr, stepPrev_ring h (b.currentIndex - j) b.currentIndex (by omega) hcle]
              congr 1
              omega
            exact ⟨Inv_of_cursorAt h rfl rfl rfl rfl rfl (j := j) hj hm' rfl,
              rfl, hm', rfl, rfl, rfl, rfl, rfl⟩
          · rw [if_neg h3]
            have hm' : b.stepNext b.m (j - b.currentIndex) = ringAt b L j := by
              rw [hmr, stepNext_ring h (j - b.currentIndex) b.currentIndex (by omega)]
              congr 1
              omega
            exact ⟨Inv_of_cursorAt h rfl rfl rfl rfl rfl (j := j) hj hm' rfl,
              rfl, hm', rfl, rfl, rfl, rfl, rfl⟩

/-- `Block::set_median` preserves the invariant. -/
theorem setMedian_inv {b : Block} {L : List Nat} (h : Inv b L) : Inv b.setMedian L := by
  unfold Block.setMedian
  exact (traverseToIndex_inv h (by rw [h.count]; omega)).1

/-! ## Construction: `new` establishes the invariant -/

/-- `unwind`'s link loop touches only the link arrays. -/
theorem unwindGo_fields (n : Nat) :
    ∀ b : Block, (Block.unwindGo b n).k = b.k ∧
      (Block.unwindGo b n).currentIndex = b.currentIndex ∧
      (Block.unwindGo b n).nElement = b.nElement ∧
      (Block.unwindGo b n).m = b.m ∧
      (Block.unwindGo b n).alpha = b.alpha ∧
      (Block.unwindGo b n).pi = b.pi := by
  induction n with
  | zero => exact fun b => ⟨rfl, rfl, rfl, rfl, rfl, rfl⟩
  | succ n ih => exact fun b => ih (b.deleteLink n)

/-- `init_links` only writes the link arrays. -/
theorem initLinks_fields (b : Block) :
    (b.initLinks).k = b.k ∧ (b.initLinks).alpha = b.alpha ∧
    (b.initLinks).pi = b.pi ∧ (b.initLinks).m = b.m ∧
    (b.initLinks).currentIndex = b.currentIndex ∧
    (b.initLinks).nElement = b.nElement := by
  rcases h : Block.initLinksGo b.tail b.pi b.prev b.next with ⟨p, prev, next⟩
  simp [Block.initLinks, h]

theorem pairLe_trans {a b c : Int × Nat} (h1 : pairLe a b) (h2 : pairLe b c) :
    pairLe a c := by
  unfold pairLe at *
  omega

theorem pairLe_of_not_le {a b : Int × Nat} (h : ¬ pairLe a b) : pairLe b a := by
  unfold pairLe at *
  omega

theorem insertIdx_perm (alpha : List Int) (i : Nat) :
    ∀ l, (insertIdx alpha i l).Perm (i :: l)
  | [] => List.Perm.refl _
  | j :: rest => by
    rw [insertIdx]
    by_cases hc : pairLe (pairOf alpha i) (pairOf alpha j)
    · rw [if_pos hc]
    · rw [if_neg hc]
      exact ((insertIdx_perm alpha i rest).cons j).trans (List.Perm.swap i j rest)

theorem insertIdx_sorted {alpha : List Int} {l : List Nat} (i : Nat)
    (hs : l.Pairwise fun x y => pairLe (pairOf alpha x) (pairOf alpha y)) :
    (insertIdx alpha i l).Pairwise fun x y => pairLe (pairOf alpha x) (pairOf alpha y) := by
  induction l with
  | nil => simp [insertIdx]
  | cons j rest ih =>
    rw [insertIdx]
    obtain ⟨hj, hrest⟩ := List.pairwise_cons.mp hs
    by_cases hc : pairLe (pairOf alpha i) (pairOf alpha j)
    · rw [if_pos hc]
      refine List.pairwise_cons.mpr ⟨?_, hs⟩
      intro y hy
      rcases List.mem_cons.mp hy with rfl | hy'
      · exact hc
      · exact pairLe_trans hc (hj y hy')
    · rw [if_neg hc]
      refine List.pairwise_cons.mpr ⟨?_, ih hrest⟩
      intro y hy
      rcases List.mem_cons.mp ((insertIdx_perm alpha i rest).mem_iff.mp hy) with rfl | hy'
      · exact pairLe_of_not_le hc
      · exact hj y hy'

/-- The modelled `arg_sort_ascending` is a stably sorted permutation of the
index range. -/
theorem argSort_spec (alpha : List Int) :
    (argSortAsc alpha).Perm (List.range alpha.length) ∧
    (argSortAsc alpha).Pairwise fun x y => pairLe (pairOf alpha x) (pairOf alpha y) := by
  unfold argSortAsc
  generalize List.range alpha.length = l
  induction l with
  | nil => simp
  | cons a l ih =>
    rw [List.foldr_cons]
    exact ⟨(insertIdx_perm alpha a _).trans (ih.1.cons a), insertIdx_sorted a ih.2⟩

theorem argSort_length (alpha : List Int) : (argSortAsc alpha).length = alpha.length :=
  (argSort_spec alpha).1.length_eq.trans (List.length_range _)

theorem argSort_nodup (alpha : List Int) : (argSortAsc alpha).Nodup :=
  (argSort_spec alpha).1.nodup_iff.mpr (List.nodup_range _)

theorem argSort_mem (alpha : List Int) : ∀ x ∈ argSortAsc alpha, x < alpha.length :=
  fun x hx => List.mem_range.mp ((argSort_spec alpha).1.mem_iff.mp hx)

/-- Distinct indices order strictly in the tie-broken pair order. -/
theorem argSort_pairLt (alpha : List Int) :
    (argSortAsc alpha).Pairwise fun x y => pairLt (pairOf alpha x) (pairOf alpha y) := by
  have h1 := (argSort_spec alpha).2
  have h2 : (argSortAsc alpha).Pairwise (· ≠ ·) := argSort_nodup alpha
  refine (h1.and h2).imp ?_
  intro x y hxy
  obtain ⟨hle, hne⟩ := hxy
  unfold pairLe pairOf at hle
  unfold pairLt pairOf
  simp only at *
  omega

/-- `init_links`'s threading loop: starting at `p` with pending positions
`qs`, it links `p :: qs` in order, touches no other slot, and returns the
last linked position. -/
theorem initLinksGo_spec (qs : List Nat) : ∀ (p : Nat) (prev next : List Nat),
    (∀ q ∈ qs, q < prev.length) → (∀ q ∈ qs, q < next.length) →
    p < next.length → (p :: qs).Nodup →
    (Block.initLinksGo p qs prev next).1 = (p :: qs).getLast (by simp) ∧
    (Block.initLinksGo p qs prev next).2.1.length = prev.length ∧
    (Block.initLinksGo p qs prev next).2.2.length = next.length ∧
    (∀ x, x ∉ qs → lget (Block.initLinksGo p qs prev next).2.1 x = lget prev x) ∧
    (∀ x, x ∉ p :: qs → lget (Block.initLinksGo p qs prev next).2.2 x = lget next x) ∧
    (p :: qs).Chain' (linkedL (Block.initLinksGo p qs prev next).2.2
      (Block.initLinksGo p qs prev next).2.1) := by
  induction qs with
  | nil =>
    intro p prev next _ _ _ _
    exact ⟨rfl, rfl, rfl, fun _ _ => rfl, fun _ _ => rfl, List.chain'_singleton _⟩
  | cons q rest ih =>
    intro p prev next hqp hqn hpn hnd
    have hstep : Block.initLinksGo p (q :: rest) prev next
        = Block.initLinksGo q rest (prev.set q p) (next.set p q) := rfl
    have hqprev : q < prev.length := hqp q (List.mem_cons_self _ _)
    have hqnext : q < next.length := hqn q (List.mem_cons_self _ _)
    have hndtail : (q :: rest).Nodup := (List.nodup_cons.mp hnd).2
    have hpq : p ∉ q :: rest := (List.nodup_cons.mp hnd).1
    have hqrest : q ∉ rest := (List.nodup_cons.mp hndtail).1
    obtain ⟨hlast, hlp, hln, hup, hun, hch⟩ := ih q (prev.set q p) (next.set p q)
      (fun x hx => by rw [List.length_set]; exact hqp x (List.mem_cons_of_mem _ hx))
      (fun x hx => by rw [List.length_set]; exact hqn x (List.mem_cons_of_mem _ hx))
      (by rw [List.length_set]; exact hqnext) hndtail
    rw [hstep]
    refine ⟨?_, ?_, ?_, ?_, ?_, ?_⟩
    · rw [hlast]
      exact (List.getLast_cons (by simp)).symm
    · rw [hlp, List.length_set]
    · rw [hln, List.length_set]
    · intro x hx
      have hxq : q ≠ x := fun he => hx (he ▸ List.mem_cons_self _ _)
      rw [hup x (fun hm => hx (List.mem_cons_of_mem _ hm)), lget_set_ne _ hxq]
    · intro x hx
      have hxp : p ≠ x := fun he => hx (he ▸ List.mem_cons_self _ _)
      rw [hun x (fun hm => hx (List.mem_cons_of_mem _ hm)), lget_set_ne _ hxp]
    · rw [List.chain'_cons']
      refine ⟨?_, hch⟩
      intro y hy
      simp only [List.head?_cons, Option.mem_some_iff] at hy
      subst hy
      constructor
      · rw [hun p hpq, lget_set_self _ hpn]
      · rw [hup q hqrest, lget_set_self _ hqprev]

/-- `init_links` builds the full ring `tail → pi → tail`, provided the
permutation is in range and duplicate-free. -/
theorem initLinks_inv (b : Block) (hszn : b.next.length = b.k + 1)
    (hszp : b.prev.length = b.k + 1) (hmem : ∀ q ∈ b.pi, q < b.k)
    (hnd : b.pi.Nodup) :
    (b.initLinks).next.length = b.k + 1 ∧ (b.initLinks).prev.length = b.k + 1 ∧
    (b.k :: b.pi ++ [b.k]).Chain' (linkedL b.initLinks.next b.initLinks.prev) := by
  rcases hr : Block.initLinksGo b.tail b.pi b.prev b.next with ⟨p, pr, nx⟩
  have hkpi : (b.k :: b.pi).Nodup :=
    List.nodup_cons.mpr ⟨fun hmm => absurd (hmem _ hmm) (by omega), hnd⟩
  have hspec := initLinksGo_spec b.pi b.tail b.prev b.next
    (fun q hq => by rw [hszp]; exact Nat.lt_succ_of_lt (hmem q hq))
    (fun q hq => by rw [hszn]; exact Nat.lt_succ_of_lt (hmem q hq))
    (by rw [hszn]; exact Nat.lt_succ_self _)
    (by rw [Block.tail]; exact hkpi)
  rw [hr] at hspec
  simp only [Block.tail] at hspec
  obtain ⟨hlast, hlp, hln, hup, hun, hch⟩ := hspec
  have hIL : b.initLinks = { b with next := nx.set p b.tail, prev := pr.set b.tail p } := by
    unfold Block.initLinks
    rw [hr]
  have hple : p ≤ b.k := by
    rw [hlast]
    exact getLast_cons_le hmem _
  refine ⟨?_, ?_, ?_⟩
  · rw [hIL]
    show (nx.set p b.tail).length = b.k + 1
    rw [List.length_set, hln, hszn]
  · rw [hIL]
    show (pr.set b.tail p).length = b.k + 1
    rw [List.length_set, hlp, hszp]
  · rw [hIL]
    show ((b.k :: b.pi) ++ [b.k]).Chain' (linkedL (nx.set p b.tail) (pr.set b.tail p))
    rw [List.chain'_append]
    refine ⟨?_, List.chain'_singleton _, ?_⟩
    · apply chain_congr _ hch
      · intro x hx
        have hxp : p ≠ x := by
          intro he
          subst he
          rw [hlast] at hx
          exact getLast_not_mem_dropLast (by simp) hkpi hx
        rw [lget_set_ne _ hxp]
      · intro y hy
        have hyk : b.k ≠ y := by
          intro he
          have hymem : y ∈ b.pi := by simpa using hy
          rw [← he] at hymem
          exact (List.nodup_cons.mp hkpi).1 hymem
        rw [Block.tail, lget_set_ne _ hyk]
    · intro x hx y hy
      rw [List.getLast?_eq_getLast _ (by simp), Option.mem_some_iff] at hx
      simp only [List.head?_cons, Option.mem_some_iff] at hy
      subst hy
      have hxp : x = p := by rw [← hx, hlast]
      subst hxp
      constructor
      · rw [Block.tail, lget_set_self _ (by rw [hln, hszn]; omega)]
      · rw [Block.tail, lget_set_self _ (by rw [hlp, hszp]; omega)]

/-- `Block::new` establishes the invariant, with the ghost list the stable
argsort of the values and the cursor parked at rank `k/2`. -/
theorem new_inv (alpha : List Int) :
    Inv (Block.new alpha) (argSortAsc alpha) ∧
    (Block.new alpha).k = alpha.length ∧ (Block.new alpha).alpha = alpha ∧
    (Block.new alpha).pi = argSortAsc alpha ∧
    (Block.new alpha).nElement = alpha.length ∧
    (Block.new alpha).currentIndex = alpha.length / 2 := by
  have hnew : Block.new alpha = Block.initLinks
      { k := alpha.length, alpha := alpha, pi := argSortAsc alpha
        prev := List.replicate (alpha.length + 1) 0
        next := List.replicate (alpha.length + 1) 0
        m := (argSortAsc alpha).getD (alpha.length / 2) 0
        currentIndex := alpha.length / 2, nElement := alpha.length } := rfl
  set b0 : Block :=
      { k := alpha.length, alpha := alpha, pi := argSortAsc alpha
        prev := List.replicate (alpha.length + 1) 0
        next := List.replicate (alpha.length + 1) 0
        m := (argSortAsc alpha).getD (alpha.length / 2) 0
        currentIndex := alpha.length / 2, nElement := alpha.length } with hb0
  have hlen := argSort_length alpha
  have hmem0 : ∀ q ∈ b0.pi, q < b0.k := argSort_mem alpha
  obtain ⟨hILn, hILp, hILc⟩ :=
    initLinks_inv b0 (by simp [hb0]) (by simp [hb0]) hmem0 (argSort_nodup alpha)
  obtain ⟨hfk, hfa, hfp, hfm, hfc, hfn⟩ := initLinks_fields b0
  rw [hnew]
  refine ⟨⟨?_, ?_, ?_, ?_, argSort_nodup alpha, ?_, ?_, ?_, ?_⟩,
    by rw [hfk], by rw [hfa], by rw [hfp], by rw [hfn], by rw [hfc]⟩
  · rw [hfk]; exact hILn
  · rw [hfk]; exact hILp
  · rw [hfa, hfk]
  · rw [hfk]; exact hmem0
  · rw [hfa]; exact argSort_pairLt alpha
  · rw [hfk]; exact hILc
  · rw [hfn, hlen]
  · -- cursor: parked at rank k/2
    rw [hfm, hfc, hfk]
    have hm0 : b0.m = (argSortAsc alpha).getD (alpha.length / 2) 0 := rfl
    have hc0 : b0.currentIndex = alpha.length / 2 := rfl
    rw [hm0, hc0]
    rcases Nat.eq_zero_or_pos alpha.length with h0 | hpos
    · have hnil : argSortAsc alpha = [] := List.length_eq_zero.mp (by rw [hlen, h0])
      refine Or.inl ⟨?_, Or.inl hnil⟩
      rw [hnil, h0]
      simp
      omega
    · have hlt : alpha.length / 2 < (argSortAsc alpha).length := by
        rw [hlen]
        omega
      refine Or.inr ⟨(argSortAsc alpha).take (alpha.length / 2),
        (argSortAsc alpha).drop (alpha.length / 2 + 1), ?_, ?_⟩
      · conv_lhs => rw [← List.take_append_drop (alpha.length / 2) (argSortAsc alpha)]
        congr 1
        rw [List.drop_eq_getElem_cons hlt, List.getD_eq_getElem _ _ hlt]
      · rw [List.length_take, hlen]
        omega

/-- `unwind`'s delete loop over a countdown set: if the active positions are
exactly those below the counter, the loop empties the ring. -/
theorem unwindGo_chain (n : Nat) : ∀ (b : Block) (L : List Nat),
    b.next.length = b.k + 1 → b.prev.length = b.k + 1 →
    (∀ x ∈ L, x < b.k) → L.Nodup →
    (∀ x, x ∈ L ↔ x < n) → n ≤ b.k →
    (b.k :: L ++ [b.k]).Chain' (linkedL b.next b.prev) →
    ((b.k :: [b.k]).Chain'
        (linkedL (Block.unwindGo b n).next (Block.unwindGo b n).prev) ∧
      (Block.unwindGo b n).next.length = b.k + 1 ∧
      (Block.unwindGo b n).prev.length = b.k + 1) := by
  induction n with
  | zero =>
    intro b L hszn hszp hmem hnd hchr hnk hch
    have hL0 : L = [] := by
      cases L with
      | nil => rfl
      | cons a l => exact absurd ((hchr a).mp (List.mem_cons_self _ _)) (by omega)
    subst hL0
    exact ⟨by simpa using hch, hszn, hszp⟩
  | succ n ih =>
    intro b L hszn hszp hmem hnd hchr hnk hch
    have hnL : n ∈ L := (hchr n).mpr (by omega)
    obtain ⟨A, B, hAB⟩ := List.append_of_mem hnL
    subst hAB
    have hnAB : n ∉ A ++ B := by
      intro hmm
      rcases List.mem_append.mp hmm with hA | hB
      · exact (List.disjoint_of_nodup_append hnd) hA (List.mem_cons_self _ _)
      · exact (List.nodup_cons.mp (List.nodup_append.mp hnd).2.1).1 hB
    obtain ⟨hchain', -, -, -, -⟩ := deleteLink_chain (b := b) (A := A) (B := B)
      hszn hszp hmem hnd hch
    have hstep : Block.unwindGo b (n + 1) = Block.unwindGo (b.deleteLink n) n := rfl
    rw [hstep]
    refine ih (b.deleteLink n) (A ++ B) (by simpa using hszn) (by simpa using hszp)
      ?_ ?_ ?_ (by simp only [deleteLink_k]; omega) (by simpa using hchain')
    · intro x hx
      simp only [deleteLink_k]
      exact hmem x (by
        rcases List.mem_append.mp hx with hA | hB
        · exact List.mem_append_left _ hA
        · exact List.mem_append_right _ (List.mem_cons_of_mem _ hB))
    · have := hnd.erase n
      rwa [List.erase_append_right _ (fun hmm =>
        (List.disjoint_of_nodup_append hnd) hmm (List.mem_cons_self _ _)),
        List.erase_cons_head] at this
    · intro x
      constructor
      · intro hx
        have hxL : x ∈ A ++ n :: B := by
          rcases List.mem_append.mp hx with hA | hB
          · exact List.mem_append_left _ hA
          · exact List.mem_append_right _ (List.mem_cons_of_mem _ hB)
        have hxn : x ≠ n := fun he => hnAB (he ▸ hx)
        have := (hchr x).mp hxL
        omega
      · intro hx
        have hxL : x ∈ A ++ n :: B := (hchr x).mpr (by omega)
        have hxn : x ≠ n := by omega
        rcases List.mem_append.mp hxL with hA | hB
        · exact List.mem_append_left _ hA
        · rcases List.mem_cons.mp hB with he | hB'
          · exact absurd he hxn
          · exact List.mem_append_right _ hB'

/-- `Block::unwind` of a fully populated block (every position active)
empties it while preserving the invariant; it parks `m` at `tail`, zeroes
`n_element` and leaves `current_index` untouched. -/
theorem unwind_inv {b : Block} {L : List Nat} (h : Inv b L)
    (hfull : ∀ x, x ∈ L ↔ x < b.k) :
    Inv b.unwind [] ∧ b.unwind.k = b.k ∧ b.unwind.alpha = b.alpha ∧
    b.unwind.pi = b.pi ∧ b.unwind.m = b.k ∧
    b.unwind.currentIndex = b.currentIndex ∧ b.unwind.nElement = 0 := by
  obtain ⟨hch, hszn, hszp⟩ := unwindGo_chain b.k b L h.sizeNext h.sizePrev h.mem
    h.nodup hfull (le_refl _) h.chain
  obtain ⟨hgk, hgc, hgn, hgm, hga, hgp⟩ := unwindGo_fields b.k b
  have hU : b.unwind = { Block.unwindGo b b.k with
      m := (Block.unwindGo b b.k).tail, nElement := 0 } := rfl
  rw [hU]
  have htail : (Block.unwindGo b b.k).tail = b.k := by
    rw [Block.tail, hgk]
  refine ⟨⟨?_, ?_, ?_, by simp, by simp, by simp, ?_, rfl, ?_⟩,
    by simpa using hgk, by simpa using hga, by simpa using hgp,
    by simpa using htail, by simpa using hgc, rfl⟩
  · show (Block.unwindGo b b.k).next.length = (Block.unwindGo b b.k).k + 1
    rw [hgk]
    exact hszn
  · show (Block.unwindGo b b.k).prev.length = (Block.unwindGo b b.k).k + 1
    rw [hgk]
    exact hszp
  · show (Block.unwindGo b b.k).alpha.length = (Block.unwindGo b b.k).k
    rw [hgk, hga]
    exact h.alphaLen
  · show ((Block.unwindGo b b.k).k :: [] ++ [(Block.unwindGo b b.k).k]).Chain'
      (linkedL (Block.unwindGo b b.k).next (Block.unwindGo b b.k).prev)
    rw [hgk]
    simpa using hch
  · refine Or.inl ⟨?_, Or.inl rfl⟩
    show (Block.unwindGo b b.k).tail = (Block.unwindGo b b.k).k
    rw [Block.tail]

/-- In a strictly sorted list, everything surviving `dropWhile (· < i)`
lies strictly above an absent `i`. -/
theorem sorted_dropWhile_gt {alpha : List Int} {L : List Nat} {i : Nat}
    (hs : L.Pairwise fun x y => pairLt (pairOf alpha x) (pairOf alpha y))
    (hiL : i ∉ L) :
    ∀ c ∈ L.dropWhile (fun x => pcmp (pairOf alpha x) (pairOf alpha i) == Ordering.lt),
      pairLt (pairOf alpha i) (pairOf alpha c) := by
  induction L with
  | nil => simp
  | cons a L ih =>
    rw [List.dropWhile_cons]
    by_cases hpa : (pcmp (pairOf alpha a) (pairOf alpha i) == Ordering.lt) = true
    · rw [if_pos hpa]
      exact ih (List.pairwise_cons.mp hs).2 (fun hm => hiL (List.mem_cons_of_mem _ hm))
    · rw [if_neg hpa]
      intro c hc
      have hai : ¬ pairLt (pairOf alpha a) (pairOf alpha i) := by
        intro hlt
        exact hpa (by rw [(pcmp_lt_iff _ _).mpr hlt]; rfl)
      have hia : pairLt (pairOf alpha i) (pairOf alpha a) :=
        pairLt_of_ne (fun he => hiL (he ▸ List.mem_cons_self _ _)) hai
      rcases List.mem_cons.mp hc with rfl | hcL
      · exact hia
      · exact pairLt_trans hia ((List.pairwise_cons.mp hs).1 c hcL)

/-- Every operation, run under its precondition on an invariant-holding
block, returns normally and preserves the invariant over the updated
active set. -/
theorem applyOp_inv {b : Block} {L : List Nat} (op : BOp) (h : Inv b L)
    (hpre : opPre op b L) :
    ∃ b', applyOp op b = some b' ∧ Inv b' (ghostOp op b L) := by
  cases op with
  | advance => exact ⟨_, rfl, advance_inv h⟩
  | reverse => exact ⟨_, rfl, reverse_inv h⟩
  | reset => exact ⟨_, rfl, reset_inv h⟩
  | setMedian => exact ⟨_, rfl, setMedian_inv h⟩
  | traverse j => exact ⟨_, rfl, (traverseToIndex_inv h hpre).1⟩
  | unwind => exact ⟨_, rfl, (unwind_inv h hpre).1⟩
  | delete i =>
    obtain ⟨b', hb', hinv, -⟩ := delete_inv h hpre
    exact ⟨b', hb', hinv⟩
  | undelete i =>
    obtain ⟨hik, hiL, hp, hs⟩ := hpre
    have hLsplit : L.takeWhile (fun x =>
          pcmp (pairOf b.alpha x) (pairOf b.alpha i) == Ordering.lt)
        ++ L.dropWhile (fun x =>
          pcmp (pairOf b.alpha x) (pairOf b.alpha i) == Ordering.lt) = L :=
      List.takeWhile_append_dropWhile _ _
    have hiA : i ∉ L.takeWhile (fun x =>
        pcmp (pairOf b.alpha x) (pairOf b.alpha i) == Ordering.lt) :=
      fun hm => hiL ((List.takeWhile_sublist _).subset hm)
    have hiB : i ∉ L.dropWhile (fun x =>
        pcmp (pairOf b.alpha x) (pairOf b.alpha i) == Ordering.lt) :=
      fun hm => hiL ((List.dropWhile_sublist _).subset hm)
    have hnodupL := h.nodup
    rw [← hLsplit] at hnodupL
    obtain ⟨hAnd, hBnd, hdisj⟩ := List.nodup_append.mp hnodupL
    have hnodup : (L.takeWhile (fun x =>
          pcmp (pairOf b.alpha x) (pairOf b.alpha i) == Ordering.lt)
        ++ i :: L.dropWhile (fun x =>
          pcmp (pairOf b.alpha x) (pairOf b.alpha i) == Ordering.lt)).Nodup := by
      refine List.nodup_append.mpr ⟨hAnd, List.nodup_cons.mpr ⟨hiB, hBnd⟩, ?_⟩
      intro a ha hb
      rcases List.mem_cons.mp hb with rfl | hb'
      · exact hiA ha
      · exact hdisj ha hb'
    have hlo : ∀ a ∈ L.takeWhile (fun x =>
          pcmp (pairOf b.alpha x) (pairOf b.alpha i) == Ordering.lt),
        pairLt (pairOf b.alpha a) (pairOf b.alpha i) := by
      intro a ha
      have hx := List.mem_takeWhile_imp ha
      have hx2 : pcmp (pairOf b.alpha a) (pairOf b.alpha i) = Ordering.lt := by
        revert hx
        cases pcmp (pairOf b.alpha a) (pairOf b.alpha i) <;> decide
      exact (pcmp_lt_iff _ _).mp hx2
    have hhi := sorted_dropWhile_gt h.sorted hiL
    have h2 : Inv b (L.takeWhile (fun x =>
          pcmp (pairOf b.alpha x) (pairOf b.alpha i) == Ordering.lt)
        ++ L.dropWhile (fun x =>
          pcmp (pairOf b.alpha x) (pairOf b.alpha i) == Ordering.lt)) := by
      rw [hLsplit]
      exact h
    obtain ⟨b', hb', hinv, -⟩ := undelete_inv h2 hik hnodup hlo hhi hp hs
    exact ⟨b', hb', hinv⟩

/-! ## The union merge loop -/

/-- `peek` succeeds exactly below the end of the window. -/
theorem peek_inv {b : Block} {L : List Nat} (h : Inv b L) (hne : L ≠ []) :
    (b.currentIndex < L.length ∧ ∃ v, b.peek = some v) ∨
    (b.currentIndex = L.length ∧ b.peek = none) := by
  obtain ⟨hcle, hmr⟩ := cursor_at_ring h hne
  rcases Nat.lt_or_ge b.currentIndex L.length with hlt | hge
  · refine Or.inl ⟨hlt, ?_⟩
    have hm : b.m = L.getD b.currentIndex 0 := by rw [hmr, ringAt_lt hlt]
    have hmem : b.m ∈ L := by
      rw [hm, List.getD_eq_getElem _ _ hlt]
      exact List.getElem_mem _
    have hmk : b.m ≠ b.k := fun he => absurd (h.mem _ hmem) (by omega)
    have hpk : b.peek = some (b.alpha.getD b.m 0) := by
      unfold Block.peek
      rw [if_neg (fun hc => hmk (atEnd_iff.mp hc))]
    exact ⟨_, hpk⟩
  · have heq : b.currentIndex = L.length := by omega
    refine Or.inr ⟨heq, ?_⟩
    have hm : b.m = b.k := by rw [hmr, heq, ringAt_last]
    unfold Block.peek
    rw [if_pos (atEnd_iff.mpr hm)]

/-- Below the end of the window, `advance` takes one real step. -/
theorem advance_currentIndex {b : Block} {L : List Nat} (h : Inv b L)
    (hlt : b.currentIndex < L.length) :
    b.advance.currentIndex = b.currentIndex + 1 := by
  unfold Block.advance
  rw [if_pos (by rw [h.count]; exact hlt)]

theorem reverse_currentIndex_le (b : Block) :
    b.reverse.currentIndex ≤ b.currentIndex := by
  unfold Block.reverse
  by_cases hc : 0 < b.currentIndex
  · rw [if_pos hc]
    show b.currentIndex - 1 ≤ b.currentIndex
    omega
  · rw [if_neg hc]

/-- `BlockUnion::reverse` steps at most one of the two cursors back. -/
theorem unionReverse_cases (u : Union) :
    unionReverse u = u ∨ unionReverse u = (u.1.reverse, u.2) ∨
    unionReverse u = (u.1, u.2.reverse) := by
  unfold unionReverse
  rcases u.1.peekPrevious with _ | l <;> rcases u.2.peekPrevious with _ | r
  · exact Or.inl rfl
  · exact Or.inr (Or.inr rfl)
  · exact Or.inr (Or.inl rfl)
  · dsimp only
    split
    · exact Or.inr (Or.inr rfl)
    · exact Or.inr (Or.inl rfl)

/-- The merge loop of `BlockUnion::get` returns normally whenever the
requested rank is within the union and at least the current cursor-rank
sum, given enough fuel. -/
theorem unionGetLoop_some {Ll Lr : List Nat} {i : Nat}
    (hne1 : Ll ≠ []) (hne2 : Lr ≠ []) (hi : i < Ll.length + Lr.length) :
    ∀ (fuel : Nat) (u : Union), Inv u.1 Ll → Inv u.2 Lr →
    u.1.currentIndex + u.2.currentIndex ≤ i →
    i - (u.1.currentIndex + u.2.currentIndex) < fuel →
    ∃ out, unionGetLoop i fuel u = some out := by
  intro fuel
  induction fuel with
  | zero =>
    intro u _ _ _ hf
    omega
  | succ fuel ih =>
    intro u h1 h2 hs hf
    unfold unionGetLoop
    dsimp only
    rcases peek_inv h1 hne1 with ⟨hlt1, v1, hp1⟩ | ⟨heq1, hp1⟩ <;>
      rcases peek_inv h2 hne2 with ⟨hlt2, v2, hp2⟩ | ⟨heq2, hp2⟩
    · -- both sides live: the two-way merge arm
      rw [hp1, hp2]
      dsimp only
      by_cases hlr : v1 ≤ v2
      · rw [if_pos hlr]
        by_cases hsi : u.1.currentIndex + u.2.currentIndex = i
        · rw [if_pos hsi]
          exact ⟨_, rfl⟩
        · rw [if_neg hsi]
          refine ih (u.1.advance, u.2) (advance_inv h1) h2 ?_ ?_
          · show u.1.advance.currentIndex + u.2.currentIndex ≤ i
            rw [advance_currentIndex h1 hlt1]
            omega
          · show i - (u.1.advance.currentIndex + u.2.currentIndex) < fuel
            rw [advance_currentIndex h1 hlt1]
            omega
      · rw [if_neg hlr]
        by_cases hsi : u.1.currentIndex + u.2.currentIndex = i
        · rw [if_pos hsi]
          exact ⟨_, rfl⟩
        · rw [if_neg hsi]
          refine ih (u.1, u.2.advance) h1 (advance_inv h2) ?_ ?_
          · show u.1.currentIndex + u.2.advance.currentIndex ≤ i
            rw [advance_currentIndex h2 hlt2]
            omega
          · show i - (u.1.currentIndex + u.2.advance.currentIndex) < fuel
            rw [advance_currentIndex h2 hlt2]
            omega
    · -- the right side is exhausted
      rw [hp1, hp2]
      dsimp only
      by_cases hsi : u.1.currentIndex + u.2.currentIndex = i
      · rw [if_pos hsi]
        exact ⟨_, rfl⟩
      · rw [if_neg hsi]
        refine ih (u.1.advance, u.2) (advance_inv h1) h2 ?_ ?_
        · show u.1.advance.currentIndex + u.2.currentIndex ≤ i
          rw [advance_currentIndex h1 hlt1]
          omega
        · show i - (u.1.advance.currentIndex + u.2.currentIndex) < fuel
          rw [advance_currentIndex h1 hlt1]
          omega
    · -- the left side is exhausted
      rw [hp1, hp2]
      dsimp only
      by_cases hsi : u.1.currentIndex + u.2.currentIndex = i
      · rw [if_pos hsi]
        exact ⟨_, rfl⟩
      · rw [if_neg hsi]
        refine ih (u.1, u.2.advance) h1 (advance_inv h2) ?_ ?_
        · show u.1.currentIndex + u.2.advance.currentIndex ≤ i
          rw [advance_currentIndex h2 hlt2]
          omega
        · show i - (u.1.currentIndex + u.2.advance.currentIndex) < fuel
          rw [advance_currentIndex h2 hlt2]
          omega
    · -- both exhausted: impossible below the union length
      omega

/-! ## The delete / reverse-undelete round trip -/

@[simp] theorem reverse_next (b : Block) : b.reverse.next = b.next := by
  unfold Block.reverse
  split <;> rfl

@[simp] theorem reverse_prev (b : Block) : b.reverse.prev = b.prev := by
  unfold Block.reverse
  split <;> rfl

@[simp] theorem reverse_alpha (b : Block) : b.reverse.alpha = b.alpha := by
  unfold Block.reverse
  split <;> rfl

@[simp] theorem reverse_pi (b : Block) : b.reverse.pi = b.pi := by
  unfold Block.reverse
  split <;> rfl

@[simp] theorem reverse_k (b : Block) : b.reverse.k = b.k := by
  unfold Block.reverse
  split <;> rfl

@[simp] theorem reverse_nElement (b : Block) : b.reverse.nElement = b.nElement := by
  unfold Block.reverse
  split <;> rfl

/-- Whatever cursor bookkeeping `delete` does, its effect on everything but
`m` and `current_index` is exactly `delete_link` plus the count
decrement. -/
theorem delete_links {b : Block} {i : Nat} {b' : Block} (hb : b.delete i = some b') :
    b'.next = (b.deleteLink i).next ∧ b'.prev = (b.deleteLink i).prev ∧
    b'.alpha = b.alpha ∧ b'.pi = b.pi ∧ b'.k = b.k ∧
    b'.nElement = b.nElement - 1 := by
  unfold Block.delete at hb
  set b1 := if b.atEnd then b.reverse else b with hb1
  have hfn : b1.next = b.next := by rw [hb1]; split <;> simp
  have hfp : b1.prev = b.prev := by rw [hb1]; split <;> simp
  have hfa : b1.alpha = b.alpha := by rw [hb1]; split <;> simp
  have hfpi : b1.pi = b.pi := by rw [hb1]; split <;> simp
  have hfk : b1.k = b.k := by rw [hb1]; split <;> simp
  have hfe : b1.nElement = b.nElement := by rw [hb1]; split <;> simp
  have hDn : (b1.deleteLink i).next = (b.deleteLink i).next := by
    unfold Block.deleteLink
    rw [hfn, hfp]
  have hDp : (b1.deleteLink i).prev = (b.deleteLink i).prev := by
    unfold Block.deleteLink
    rw [hfn, hfp]
  dsimp only at hb
  cases hgi : b1.getPair i with
  | none => rw [hgi] at hb; simp at hb
  | some del =>
    rw [hgi] at hb
    cases hgm : b1.getPair b1.m with
    | none => rw [hgm] at hb; simp at hb
    | some cur =>
      rw [hgm] at hb
      simp only [Option.bind_eq_bind, Option.some_bind] at hb
      cases hc : pcmp del cur <;> rw [hc] at hb
      · simp only [Option.some.injEq] at hb
        subst hb
        exact ⟨hDn, hDp, by simp [hfa], by simp [hfpi], by simp [hfk], by simp [hfe]⟩
      · dsimp only at hb
        split at hb
        · split at hb
          · simp only [Option.some.injEq] at hb
            subst hb
            exact ⟨hDn, hDp, by simp [hfa], by simp [hfpi], by simp [hfk], by simp [hfe]⟩
          · simp only [Option.some.injEq] at hb
            subst hb
            exact ⟨hDn, hDp, by simp [hfa], by simp [hfpi], by simp [hfk], by simp [hfe]⟩
        · simp only [Option.some.injEq] at hb
          subst hb
          exact ⟨hDn, hDp, by simp [hfa], by simp [hfpi], by simp [hfk], by simp [hfe]⟩
      · simp only [Option.some.injEq] at hb
        subst hb
        exact ⟨hDn, hDp, by simp [hfa], by simp [hfpi], by simp [hfk], by simp [hfe]⟩

/-- Whatever cursor bookkeeping `undelete` does, its effect on everything
but `m` and `current_index` is exactly `undelete_link` plus the count
increment. -/
theorem undelete_links {b : Block} {i : Nat} {b' : Block}
    (hb : b.undelete i = some b') :
    b'.next = (b.undeleteLink i).next ∧ b'.prev = (b.undeleteLink i).prev ∧
    b'.alpha = b.alpha ∧ b'.pi = b.pi ∧ b'.k = b.k ∧
    b'.nElement = b.nElement + 1 := by
  unfold Block.undelete at hb
  set b1 := if ¬ b.isEmpty ∧ b.atEnd then b.reverse else b with hb1
  have hfn : b1.next = b.next := by rw [hb1]; split <;> simp
  have hfp : b1.prev = b.prev := by rw [hb1]; split <;> simp
  have hfa : b1.alpha = b.alpha := by rw [hb1]; split <;> simp
  have hfpi : b1.pi = b.pi := by rw [hb1]; split <;> simp
  have hfk : b1.k = b.k := by rw [hb1]; split <;> simp
  have hfe : b1.nElement = b.nElement := by rw [hb1]; split <;> simp
  have hUn : (b1.undeleteLink i).next = (b.undeleteLink i).next := by
    unfold Block.undeleteLink
    rw [hfn, hfp]
  have hUp : (b1.undeleteLink i).prev = (b.undeleteLink i).prev := by
    unfold Block.undeleteLink
    rw [hfn, hfp]
  dsimp only at hb
  split at hb
  · next hemp =>
    simp only [Option.some.injEq] at hb
    subst hb
    have hn0 : b.nElement = 0 := by
      have := isEmpty_iff.mp hemp
      simpa [hfe] using this
    exact ⟨hUn, hUp, by simp [hfa], by simp [hfpi], by simp [hfk], by simp [hn0]⟩
  · cases hgi : (b1.undeleteLink i).getPair i with
    | none => rw [hgi] at hb; simp at hb
    | some added =>
      rw [hgi] at hb
      cases hgm : (b1.undeleteLink i).getPair (b1.undeleteLink i).m with
      | none => rw [hgm] at hb; simp at hb
      | some cur =>
        rw [hgm] at hb
        simp only [Option.bind_eq_bind, Option.some_bind] at hb
        cases hc : pcmp added cur <;> rw [hc] at hb <;>
          simp only [Option.some.injEq] at hb <;> subst hb
        · exact ⟨hUn, hUp, by simp [hfa], by simp [hfpi], by simp [hfk], by simp [hfe]⟩
        · exact ⟨hUn, hUp, by simp [hfa], by simp [hfpi], by simp [hfk], by simp [hfe]⟩
        · exact ⟨hUn, hUp, by simp [hfa], by simp [hfpi], by simp [hfk], by simp [hfe]⟩

/-- A maximal position's full ring context: its two neighbor links and the
back links from the neighbors. -/
theorem neighbor_links {b : Block} {L A B : List Nat} {i : Nat} (h : Inv b L)
    (hL : L = A ++ i :: B) :
    lget b.prev i = (b.k :: A).getLast (by simp) ∧
    lget b.next i = (B ++ [b.k]).head (by simp) ∧
    lget b.next ((b.k :: A).getLast (by simp)) = i ∧
    lget b.prev ((B ++ [b.k]).head (by simp)) = i := by
  have hchain := h.chain
  rw [hL] at hchain
  have hform : (b.k :: (A ++ i :: B) ++ [b.k]) = (b.k :: A) ++ i :: (B ++ [b.k]) := by
    simp
  rw [hform, List.chain'_split] at hchain
  obtain ⟨hc1, hc2⟩ := hchain
  have hpi := chain'_last_link (by simp) hc1
  have his := chain'_head_link (by simp) hc2
  exact ⟨hpi.2, his.1, hpi.1, his.2⟩

/-- The neighbor links of a ring position, from the chain alone. -/
theorem chain_neighbor {next prev : List Nat} {kk : Nat} {L A B : List Nat} {i : Nat}
    (hL : L = A ++ i :: B)
    (hch : (kk :: L ++ [kk]).Chain' (linkedL next prev)) :
    lget prev i = (kk :: A).getLast (by simp) ∧
    lget next i = (B ++ [kk]).head (by simp) ∧
    lget next ((kk :: A).getLast (by simp)) = i ∧
    lget prev ((B ++ [kk]).head (by simp)) = i := by
  rw [hL] at hch
  have hform : (kk :: (A ++ i :: B) ++ [kk]) = (kk :: A) ++ i :: (B ++ [kk]) := by
    simp
  rw [hform, List.chain'_split] at hch
  obtain ⟨hc1, hc2⟩ := hch
  have hpi := chain'_last_link (by simp) hc1
  have his := chain'_head_link (by simp) hc2
  exact ⟨hpi.2, his.1, hpi.1, his.2⟩

/-- `unwind` freezes, in the slots of each deleted position `j`, the links
`j` had in the ring over the positions `≤ j` at its deletion moment —
exactly its sorted splice points among `{0, …, j-1}` plus itself — and
touches no slot outside the active set and the sentinel. -/
theorem unwindGo_stale (n : Nat) : ∀ (b : Block) (L : List Nat),
    b.next.length = b.k + 1 → b.prev.length = b.k + 1 →
    (∀ x ∈ L, x < b.k) → L.Nodup → (∀ x, x ∈ L ↔ x < n) → n ≤ b.k →
    (b.k :: L ++ [b.k]).Chain' (linkedL b.next b.prev) →
    (∀ s, s ∉ L → s ≠ b.k →
      lget (Block.unwindGo b n).next s = lget b.next s ∧
      lget (Block.unwindGo b n).prev s = lget b.prev s) ∧
    (∀ j A B, L.filter (fun x => decide (x < j + 1)) = A ++ j :: B →
      lget (Block.unwindGo b n).prev j = (b.k :: A).getLast (by simp) ∧
      lget (Block.unwindGo b n).next j = (B ++ [b.k]).head (by simp)) := by
  induction n with
  | zero =>
    intro b L hszn hszp hmem hnd hchr hnk hch
    have hL0 : L = [] := by
      cases L with
      | nil => rfl
      | cons a l => exact absurd ((hchr a).mp (List.mem_cons_self _ _)) (by omega)
    subst hL0
    refine ⟨fun s _ _ => ⟨rfl, rfl⟩, ?_⟩
    intro j A B hfil
    simp at hfil
  | succ n ih =>
    intro b L hszn hszp hmem hnd hchr hnk hch
    have hnL : n ∈ L := (hchr n).mpr (by omega)
    obtain ⟨A0, B0, hL⟩ := List.append_of_mem hnL
    have hnA0 : n ∉ A0 := by
      rw [hL] at hnd
      exact fun hmm => (List.disjoint_of_nodup_append hnd) hmm (List.mem_cons_self _ _)
    have hnB0 : n ∉ B0 := by
      rw [hL] at hnd
      exact (List.nodup_cons.mp (List.nodup_append.mp hnd).2.1).1
    have hnk' : n < b.k := hmem n hnL
    obtain ⟨hnb1, hnb2, -, -⟩ := chain_neighbor hL hch
    have hPmem : ((b.k :: A0).getLast (by simp)) ∈ b.k :: A0 := List.getLast_mem _
    have hSmem : ((B0 ++ [b.k]).head (by simp)) ∈ B0 ++ [b.k] := List.head_mem _
    have hPn : ((b.k :: A0).getLast (by simp)) ≠ n := by
      rcases List.mem_cons.mp hPmem with hq | hq
      · intro he; rw [he] at hq; omega
      · exact fun he => hnA0 (he ▸ hq)
    have hSn : ((B0 ++ [b.k]).head (by simp)) ≠ n := by
      rcases List.mem_append.mp hSmem with hq | hq
      · exact fun he => hnB0 (he ▸ hq)
      · simp only [List.mem_singleton] at hq
        intro he; rw [he] at hq; omega
    have hDnext : (b.deleteLink n).next
        = b.next.set ((b.k :: A0).getLast (by simp)) ((B0 ++ [b.k]).head (by simp)) := by
      unfold Block.deleteLink
      rw [hnb1, hnb2]
    have hDprev : (b.deleteLink n).prev
        = b.prev.set ((B0 ++ [b.k]).head (by simp)) ((b.k :: A0).getLast (by simp)) := by
      unfold Block.deleteLink
      show b.prev.set (lget (b.next.set (lget b.prev n) (lget b.next n)) n) (lget b.prev n) = _
      rw [hnb1, hnb2, lget_set_ne _ hPn, hnb2]
    have herase : L.erase n = A0 ++ B0 := by
      rw [hL, List.erase_append_right _ hnA0, List.erase_cons_head]
    obtain ⟨hchain', -, -, -, -⟩ := deleteLink_chain (b := b) (A := A0) (B := B0)
      hszn hszp (by rw [← hL]; exact hmem) (by rw [← hL]; exact hnd)
      (by rw [← hL]; exact hch)
    have hmem' : ∀ x ∈ A0 ++ B0, x < (b.deleteLink n).k := by
      intro x hx
      simp only [deleteLink_k]
      rcases List.mem_append.mp hx with hxa | hxb
      · exact hmem x (by rw [hL]; exact List.mem_append_left _ hxa)
      · exact hmem x (by rw [hL]; exact List.mem_append_right _ (List.mem_cons_of_mem _ hxb))
    have hnd' : (A0 ++ B0).Nodup := by
      rw [← herase]
      exact hnd.erase n
    have hchr' : ∀ x, x ∈ A0 ++ B0 ↔ x < n := by
      intro x
      constructor
      · intro hx
        have hxL : x ∈ L := by
          rw [hL]
          rcases List.mem_append.mp hx with hxa | hxb
          · exact List.mem_append_left _ hxa
          · exact List.mem_append_right _ (List.mem_cons_of_mem _ hxb)
        have hxn : x ≠ n := by
          intro he
          subst he
          rcases List.mem_append.mp hx with hq | hq
          · exact hnA0 hq
          · exact hnB0 hq
        have := (hchr x).mp hxL
        omega
      · intro hx
        have hxL : x ∈ L := (hchr x).mpr (by omega)
        rw [hL] at hxL
        rcases List.mem_append.mp hxL with hxa | hxb
        · exact List.mem_append_left _ hxa
        · rcases List.mem_cons.mp hxb with he | hxb'
          · omega
          · exact List.mem_append_right _ hxb'
    have hstep : Block.unwindGo b (n + 1) = Block.unwindGo (b.deleteLink n) n := rfl
    obtain ⟨ihU, ihF⟩ := ih (b.deleteLink n) (A0 ++ B0) (by simpa using hszn)
      (by simpa using hszp) hmem' hnd' hchr' (by simp only [deleteLink_k]; omega)
      (by simpa using hchain')
    constructor
    · -- untouched outside the active set
      intro s hsL hsk
      have hsAB : s ∉ A0 ++ B0 := by
        intro hmm
        apply hsL
        rw [hL]
        rcases List.mem_append.mp hmm with hxa | hxb
        · exact List.mem_append_left _ hxa
        · exact List.mem_append_right _ (List.mem_cons_of_mem _ hxb)
      have hsk' : s ≠ (b.deleteLink n).k := by simpa using hsk
      obtain ⟨hu1, hu2⟩ := ihU s hsAB hsk'
      rw [hstep]
      constructor
      · rw [hu1, hDnext, lget_set_ne]
        intro he
        rcases List.mem_cons.mp hPmem with hq | hq
        · rw [he] at hq
          exact hsk hq
        · exact hsL (by rw [hL, ← he]; exact List.mem_append_left _ hq)
      · rw [hu2, hDprev, lget_set_ne]
        intro he
        rcases List.mem_append.mp hSmem with hq | hq
        · exact hsL (by
            rw [hL, ← he]
            exact List.mem_append_right _ (List.mem_cons_of_mem _ hq))
        · simp only [List.mem_singleton] at hq
          rw [he] at hq
          exact hsk hq
    · -- frozen links of each deleted position
      intro j A B hfil
      have hjmem : j ∈ L := List.mem_of_mem_filter (hfil ▸ List.mem_append_right _
        (List.mem_cons_self _ _))
      have hjn : j ≤ n := by
        have := (hchr j).mp hjmem
        omega
      rw [hstep]
      rcases Nat.eq_or_lt_of_le hjn with hje | hjlt
      · -- j = n: its slots were frozen by this step
        subst hje
        have hfilL : L.filter (fun x => decide (x < j + 1)) = L :=
          List.filter_eq_self.mpr (fun a ha => by
            simp only [decide_eq_true_eq]
            have := (hchr a).mp ha
            omega)
        rw [hfilL] at hfil
        obtain ⟨hAeq, hBeq⟩ := nodup_decomp_unique hnd hfil hL
        subst hAeq
        subst hBeq
        have hjAB : j ∉ A ++ B := by
          intro hmm
          rcases List.mem_append.mp hmm with hq | hq
          · exact hnA0 hq
          · exact hnB0 hq
        obtain ⟨hu1, hu2⟩ := ihU j hjAB (by simp only [deleteLink_k]; omega)
        constructor
        · rw [hu2, hDprev, lget_set_ne _ hSn, hnb1]
        · rw [hu1, hDnext, lget_set_ne _ hPn, hnb2]
      · -- j < n: delegate to the recursion on the smaller ring
        have hfil' : (A0 ++ B0).filter (fun x => decide (x < j + 1)) = A ++ j :: B := by
          rw [← hfil, hL]
          rw [List.filter_append, List.filter_append, List.filter_cons]
          have : ¬ (n < j + 1) := by omega
          simp [this]
        have := ihF j A B hfil'
        simpa using this

/-! ## The quantile selector over an invariant-holding block -/

/-- The selector's two ranks lie inside the view whenever `q ∈ [0, 1]`. -/
theorem quantile_idx_bounds (len : Nat) (q : ℚ) (hlen : 1 ≤ len)
    (hq0 : 0 ≤ q) (hq1 : q ≤ 1) :
    (floorMulQ ((len : Int) - 1) q).toNat < len ∧
    (ceilMulQ ((len : Int) - 1) q).toNat < len ∧
    (floorMulQ ((len : Int) - 1) q).toNat ≤ (ceilMulQ ((len : Int) - 1) q).toNat := by
  have ha : (0 : Int) ≤ (len : Int) - 1 := by omega
  have hfl := floorMulQ_eq_floor ((len : Int) - 1) q
  have hcl := ceilMulQ_eq_ceil ((len : Int) - 1) q
  have haQ : (0 : ℚ) ≤ (((len : Int) - 1 : Int) : ℚ) := by exact_mod_cast ha
  have haq : (0 : ℚ) ≤ (((len : Int) - 1 : Int) : ℚ) * q := mul_nonneg haQ hq0
  have h1 : (0 : Int) ≤ floorMulQ ((len : Int) - 1) q := by
    rw [hfl]
    exact Int.floor_nonneg.mpr haq
  have h2 : ceilMulQ ((len : Int) - 1) q ≤ (len : Int) - 1 := by
    rw [hcl]
    have hle : (((len : Int) - 1 : Int) : ℚ) * q ≤ (((len : Int) - 1 : Int) : ℚ) := by
      calc (((len : Int) - 1 : Int) : ℚ) * q
          ≤ (((len : Int) - 1 : Int) : ℚ) * 1 := mul_le_mul_of_nonneg_left hq1 haQ
        _ = (((len : Int) - 1 : Int) : ℚ) := mul_one _
    calc ⌈(((len : Int) - 1 : Int) : ℚ) * q⌉
        ≤ ⌈(((len : Int) - 1 : Int) : ℚ)⌉ := Int.ceil_le_ceil hle
      _ = (len : Int) - 1 := Int.ceil_intCast _
  have h3 : floorMulQ ((len : Int) - 1) q ≤ ceilMulQ ((len : Int) - 1) q := by
    rw [hfl, hcl]
    exact Int.floor_le_ceil _
  omega

/-- `<&mut Block as LenGet>::get` under the invariant: it returns the value
of the rank-`r` active position and leaves everything but the cursor
unchanged. -/
theorem blockGet_inv {b : Block} {G : List Nat} (h : Inv b G) {r : Nat}
    (hr : r < G.length) :
    ∃ b', blockGet b r = some (b.alpha.getD (G.getD r 0) 0, b') ∧ Inv b' G ∧
      b'.alpha = b.alpha ∧ b'.nElement = b.nElement ∧ b'.k = b.k ∧
      b'.next = b.next ∧ b'.prev = b.prev := by
  obtain ⟨hinv, hcur, hm, hn, hp, ha, hk, hne⟩ := traverseToIndex_inv h (le_of_lt hr)
  set bt := b.traverseToIndex r with hbt
  have hmval : bt.m = G.getD r 0 := by rw [hm, ringAt_lt hr]
  have hmmem : bt.m ∈ G := by
    rw [hmval, List.getD_eq_getElem _ _ hr]
    exact List.getElem_mem _
  have hmk : bt.m ≠ bt.k := fun he => absurd (hinv.mem _ hmmem) (by rw [← he]; omega)
  have hpk : bt.peek = some (bt.alpha.getD bt.m 0) := by
    unfold Block.peek
    rw [if_neg (fun hc => hmk (atEnd_iff.mp hc))]
  refine ⟨bt, ?_, hinv, ha, hne, hk, hn, hp⟩
  unfold blockGet
  dsimp only
  rw [← hbt, hpk, hmval, ha]

/-- `QuantileUpdate::quantile` over an invariant-holding block computes the
spec's interpolated quantile of the sorted active values. -/
theorem quantileUpdate_block {b : Block} {G : List Nat} (h : Inv b G)
    (hne : G ≠ []) (q : ℚ) (hq0 : 0 ≤ q) (hq1 : q ≤ 1) :
    ∃ b', quantileUpdate blockLG q b
      = some (SlidingSpec.interpQuantile (G.map (fun g => b.alpha.getD g 0)) q, b') ∧
      Inv b' G ∧ b'.alpha = b.alpha ∧ b'.nElement = b.nElement ∧ b'.k = b.k ∧
      b'.next = b.next ∧ b'.prev = b.prev := by
  have hGpos : 1 ≤ G.length := List.length_pos.mpr hne
  obtain ⟨hlo, hhi, hlohi⟩ := quantile_idx_bounds G.length q hGpos hq0 hq1
  have hcnt : blockLG.len b = G.length := h.count
  have hwlen : (G.map (fun g => b.alpha.getD g 0)).length = G.length := by simp
  have hwlo : ∀ r, r < G.length →
      (G.map (fun g => b.alpha.getD g 0)).getD r 0 = b.alpha.getD (G.getD r 0) 0 := by
    intro r hr
    rw [List.getD_eq_getElem _ _ (by simpa using hr), List.getD_eq_getElem _ _ hr]
    simp
  unfold quantileUpdate SlidingSpec.interpQuantile
  dsimp only
  rw [hcnt, hwlen]
  by_cases hif : (floorMulQ ((G.length : Int) - 1) q).toNat
      = (ceilMulQ ((G.length : Int) - 1) q).toNat
  · rw [if_pos hif, if_pos hif]
    obtain ⟨b', hget, hinv, ha, hn, hk, hnx, hpv⟩ := blockGet_inv h hlo
    refine ⟨b', ?_, hinv, ha, hn, hk, hnx, hpv⟩
    show blockGet b _ = _
    rw [hget, hwlo _ hlo]
  · rw [if_neg hif, if_neg hif]
    obtain ⟨b1, hget1, hinv1, ha1, hn1, hk1, hnx1, hpv1⟩ := blockGet_inv h hlo
    obtain ⟨b2, hget2, hinv2, ha2, hn2, hk2, hnx2, hpv2⟩ := blockGet_inv hinv1 hhi
    refine ⟨b2, ?_, hinv2, by rw [ha2, ha1], by rw [hn2, hn1], by rw [hk2, hk1],
      by rw [hnx2, hnx1], by rw [hpv2, hpv1]⟩
    show (blockGet b _).bind _ = _
    rw [hget1]
    simp only [Option.some_bind]
    show (blockGet b1 _).bind _ = _
    rw [hget2]
    simp only [Option.some_bind]
    rw [hwlo _ hlo, hwlo _ hhi, ha1]

/-! ## The active values of a warm-up prefix are the sorted window -/

theorem insertVal_perm (v : Int) :
    ∀ l, (SlidingSpec.insertVal v l).Perm (v :: l)
  | [] => List.Perm.refl _
  | w :: rest => by
    rw [SlidingSpec.insertVal]
    by_cases hc : v ≤ w
    · rw [if_pos hc]
    · rw [if_neg hc]
      exact ((insertVal_perm v rest).cons w).trans (List.Perm.swap v w rest)

theorem insertVal_sorted {l : List Int} (v : Int)
    (hs : l.Pairwise (fun a c : Int => a ≤ c)) :
    (SlidingSpec.insertVal v l).Pairwise (fun a c : Int => a ≤ c) := by
  induction l with
  | nil => simp [SlidingSpec.insertVal]
  | cons w rest ih =>
    rw [SlidingSpec.insertVal]
    obtain ⟨hw, hrest⟩ := List.pairwise_cons.mp hs
    by_cases hc : v ≤ w
    · rw [if_pos hc]
      refine List.pairwise_cons.mpr ⟨?_, hs⟩
      intro y hy
      rcases List.mem_cons.mp hy with rfl | hy'
      · exact hc
      · exact le_trans hc (hw y hy')
    · rw [if_neg hc]
      refine List.pairwise_cons.mpr ⟨?_, ih hrest⟩
      intro y hy
      rcases List.mem_cons.mp ((insertVal_perm v rest).mem_iff.mp hy) with rfl | hy'
      · exact le_of_not_le hc
      · exact hw y hy'

theorem sortInts_spec (l : List Int) :
    (SlidingSpec.sortInts l).Perm l ∧
    (SlidingSpec.sortInts l).Pairwise (fun a c : Int => a ≤ c) := by
  unfold SlidingSpec.sortInts
  induction l with
  | nil => simp
  | cons a l ih =>
    rw [List.foldr_cons]
    exact ⟨(insertVal_perm a _).trans (ih.1.cons a), insertVal_sorted a ih.2⟩

theorem range_filter_lt (k m : Nat) (hm : m ≤ k) :
    (List.range k).filter (fun x => decide (x < m)) = List.range m := by
  obtain ⟨d, rfl⟩ : ∃ d, k = m + d := ⟨k - m, by omega⟩
  rw [List.range_add, List.filter_append]
  rw [List.filter_eq_self.mpr, List.filter_eq_nil.mpr, List.append_nil]
  · intro a ha
    simp only [List.mem_map, List.mem_range] at ha
    obtain ⟨y, -, rfl⟩ := ha
    simp
  · intro a ha
    simp [List.mem_range.mp ha]

theorem map_getD_range (alpha : List Int) (m : Nat) (hm : m ≤ alpha.length) :
    (List.range m).map (fun j => alpha.getD j 0) = alpha.take m := by
  apply List.ext_getElem
  · simp
    omega
  · intro i h1 h2
    simp only [List.getElem_map, List.getElem_range, List.getElem_take]
    rw [List.getD_eq_getElem]

/-- The values of the positions `< m` of the argsort, read in argsort
order, are exactly the ascending sort of the first `m` values. -/
theorem sorted_filter_values (alpha : List Int) (m : Nat) (hm : m ≤ alpha.length) :
    ((argSortAsc alpha).filter (fun x => decide (x < m))).map (fun g => alpha.getD g 0)
      = SlidingSpec.sortInts (alpha.take m) := by
  apply List.eq_of_perm_of_sorted (r := fun a c : Int => a ≤ c)
  · -- both are permutations of the first m values
    have hp1 : ((argSortAsc alpha).filter (fun x => decide (x < m))).Perm
        ((List.range alpha.length).filter (fun x => decide (x < m))) :=
      (argSort_spec alpha).1.filter _
    rw [range_filter_lt _ _ hm] at hp1
    have hp2 := hp1.map (fun g => alpha.getD g 0)
    rw [map_getD_range _ _ hm] at hp2
    exact hp2.trans (sortInts_spec (alpha.take m)).1.symm
  · -- and both are sorted
    have hs : ((argSortAsc alpha).filter (fun x => decide (x < m))).Pairwise
        (fun x y => pairLt (pairOf alpha x) (pairOf alpha y)) :=
      List.Pairwise.sublist (List.filter_sublist _) (argSort_pairLt alpha)
    refine List.Pairwise.map _ ?_ hs
    intro a c hac
    unfold pairLt pairOf at hac
    simp only at hac
    omega
  · exact (sortInts_spec (alpha.take m)).2

/-- The sorted active set of the positions `< i + 1` splits around `i`, and
dropping `i` gives the sorted active set of the positions `< i`. -/
theorem filter_lt_succ_decomp {F : List Nat} (hnd : F.Nodup) {i : Nat} (hiF : i ∈ F) :
    ∃ A B, F.filter (fun x => decide (x < i + 1)) = A ++ i :: B ∧
      F.filter (fun x => decide (x < i)) = A ++ B := by
  induction F with
  | nil => cases hiF
  | cons a F ih =>
    rw [List.filter_cons, List.filter_cons]
    by_cases hai : a = i
    · subst hai
      have haF : a ∉ F := (List.nodup_cons.mp hnd).1
      have hp1 : decide (a < a + 1) = true := by simp
      have hp2 : decide (a < a) = false := by simp
      rw [hp1, hp2]
      refine ⟨[], F.filter (fun x => decide (x < a)), ?_, by simp⟩
      simp only [if_pos, List.nil_append, List.cons.injEq, true_and]
      apply List.filter_congr
      intro x hx
      have hxa : x ≠ a := fun he => haF (he ▸ hx)
      simp only [decide_eq_decide]
      omega
    · have hiF' : i ∈ F := by
        rcases List.mem_cons.mp hiF with he | hmem
        · exact absurd he.symm hai
        · exact hmem
      obtain ⟨A, B, h1, h2⟩ := ih (List.nodup_cons.mp hnd).2 hiF'
      by_cases ha : a < i
      · have hp1 : decide (a < i + 1) = true := by simp; omega
        have hp2 : decide (a < i) = true := by simp; omega
        rw [hp1, hp2]
        exact ⟨a :: A, B, by simp [h1], by simp [h2]⟩
      · have hp1 : decide (a < i + 1) = false := by simp; omega
        have hp2 : decide (a < i) = false := by simp; omega
        rw [hp1, hp2]
        exact ⟨A, B, by simp [h1], by simp [h2]⟩

/-- The warm-up loop: with the first `i` positions re-inserted into the
unwound fresh block, each iteration re-inserts position `i` — whose frozen
links are exactly its sorted splice points — and emits the interpolated
quantile of the sorted first `i + 1` values. -/
theorem warmupGo_spec (q : ℚ) (hq0 : 0 ≤ q) (hq1 : q ≤ 1) (alpha : List Int) :
    ∀ (cnt : Nat), ∀ (i : Nat) (b : Block) (acc : List Int),
    cnt + i = alpha.length →
    Inv b ((argSortAsc alpha).filter (fun x => decide (x < i))) →
    b.alpha = alpha → b.k = alpha.length →
    (∀ s, s ∉ (argSortAsc alpha).filter (fun x => decide (x < i)) →
      s ≠ alpha.length →
      lget b.next s = lget ((Block.new alpha).unwind).next s ∧
      lget b.prev s = lget ((Block.new alpha).unwind).prev s) →
    ∃ bf, warmupGo q cnt i b acc = some (bf, acc ++ ((List.range cnt).map (fun t =>
      SlidingSpec.interpQuantile
        (SlidingSpec.sortInts (alpha.take (i + t + 1))) q))) := by
  intro cnt
  induction cnt with
  | zero =>
    intro i b acc _ _ _ _ _
    exact ⟨b, by simp [warmupGo]⟩
  | succ cnt ih =>
    intro i b acc hcount hInv halpha hk hstale
    have hilen : i < alpha.length := by omega
    have hFnd : (argSortAsc alpha).Nodup := argSort_nodup alpha
    have hmemF : ∀ x, x ∈ argSortAsc alpha ↔ x < alpha.length := by
      intro x
      rw [(argSort_spec alpha).1.mem_iff, List.mem_range]
    have hiF : i ∈ argSortAsc alpha := (hmemF i).mpr hilen
    obtain ⟨A, B, hGS, hGE⟩ := filter_lt_succ_decomp hFnd hiF
    obtain ⟨hInvNew, hkNew, haNew, hpiNew, hnNew, hcNew⟩ := new_inv alpha
    obtain ⟨-, hfrozen⟩ := unwindGo_stale (Block.new alpha).k (Block.new alpha)
      (argSortAsc alpha) hInvNew.sizeNext hInvNew.sizePrev hInvNew.mem hFnd
      (by intro x; rw [hkNew]; exact hmemF x) (le_refl _) hInvNew.chain
    have hfr := hfrozen i A B hGS
    have hiG : i ∉ (argSortAsc alpha).filter (fun x => decide (x < i)) := by
      intro hmm
      have := List.of_mem_filter hmm
      simp at this
    have hp_b : lget b.prev i = (b.k :: A).getLast (by simp) := by
      rw [(hstale i hiG (by omega)).2, hk, ← hkNew]
      exact hfr.1
    have hs_b : lget b.next i = (B ++ [b.k]).head (by simp) := by
      rw [(hstale i hiG (by omega)).1, hk, ← hkNew]
      exact hfr.2
    have hG'sorted : (A ++ i :: B).Pairwise
        (fun x y => pairLt (pairOf alpha x) (pairOf alpha y)) := by
      rw [← hGS]
      exact List.Pairwise.sublist (List.filter_sublist _) (argSort_pairLt alpha)
    obtain ⟨hpwA, hpwiB, hcross⟩ := List.pairwise_append.mp hG'sorted
    obtain ⟨hiBlt, hpwB⟩ := List.pairwise_cons.mp hpwiB
    have hG'nodup : (A ++ i :: B).Nodup := by
      rw [← hGS]
      exact hFnd.filter _
    have hiA : i ∉ A :=
      fun hmm => (List.disjoint_of_nodup_append hG'nodup) hmm (List.mem_cons_self _ _)
    have hiB : i ∉ B := (List.nodup_cons.mp (List.nodup_append.mp hG'nodup).2.1).1
    have hInvAB : Inv b (A ++ B) := by rw [← hGE]; exact hInv
    obtain ⟨b1, hu1, hinv1, hb1k, hb1a, hb1pi, hb1n⟩ :=
      undelete_inv hInvAB (by rw [hk]; exact hilen) hG'nodup
        (by rw [halpha]; exact fun a ha => hcross a ha i (List.mem_cons_self _ _))
        (by rw [halpha]; exact hiBlt)
        hp_b hs_b
    obtain ⟨hl1n, hl1p, -, -, -, -⟩ := undelete_links hu1
    -- the stale links survive the relink of `i`
    have hstale1 : ∀ s, s ∉ (argSortAsc alpha).filter (fun x => decide (x < i + 1)) →
        s ≠ alpha.length →
        lget b1.next s = lget ((Block.new alpha).unwind).next s ∧
        lget b1.prev s = lget ((Block.new alpha).unwind).prev s := by
      intro s hsG hsk
      have hsG' : s ∉ A ++ i :: B := by rw [← hGS]; exact hsG
      have hsA : s ∉ A := fun hmm => hsG' (List.mem_append_left _ hmm)
      have hsB : s ∉ B :=
        fun hmm => hsG' (List.mem_append_right _ (List.mem_cons_of_mem _ hmm))
      have hsGi : s ∉ (argSortAsc alpha).filter (fun x => decide (x < i)) := by
        rw [hGE]
        intro hmm
        rcases List.mem_append.mp hmm with hq | hq
        · exact hsA hq
        · exact hsB hq
      obtain ⟨hstn, hstp⟩ := hstale s hsGi hsk
      have hPneS : (b.k :: A).getLast (by simp) ≠ s := by
        intro he
        rcases List.mem_cons.mp (List.getLast_mem (l := b.k :: A) (by simp)) with hq | hq
        · rw [he] at hq
          exact hsk (by rw [hq, hk])
        · rw [he] at hq
          exact hsA hq
      have hSneS : (B ++ [b.k]).head (by simp) ≠ s := by
        intro he
        rcases List.mem_append.mp (List.head_mem (l := B ++ [b.k]) (by simp)) with hq | hq
        · rw [he] at hq
          exact hsB hq
        · simp only [List.mem_singleton] at hq
          rw [he] at hq
          exact hsk (by rw [hq, hk])
      have hPneI : (b.k :: A).getLast (by simp) ≠ i := by
        intro he
        rcases List.mem_cons.mp (List.getLast_mem (l := b.k :: A) (by simp)) with hq | hq
        · rw [he] at hq
          rw [hk] at hq
          omega
        · rw [he] at hq
          exact hiA hq
      constructor
      · rw [hl1n]
        show lget (b.next.set (lget b.prev i) i) s = _
        rw [hp_b, lget_set_ne _ hPneS, hstn]
      · rw [hl1p]
        show lget (b.prev.set (lget (b.next.set (lget b.prev i) i) i) i) s = _
        rw [hp_b, lget_set_ne _ hPneI, hs_b, lget_set_ne _ hSneS, hstp]
    -- the emitted value
    obtain ⟨b2, hq2, hinv2, hb2a, hb2n, hb2k, hb2nx, hb2pv⟩ :=
      quantileUpdate_block hinv1 (by simp) q hq0 hq1
    have hval : SlidingSpec.interpQuantile
          ((A ++ i :: B).map (fun g => b1.alpha.getD g 0)) q
        = SlidingSpec.interpQuantile
            (SlidingSpec.sortInts (alpha.take (i + 1))) q := by
      rw [hb1a, halpha, ← hGS, sorted_filter_values alpha (i + 1) (by omega)]
    -- step and recurse
    obtain ⟨bf, hrec⟩ := ih (i + 1) b2
      (acc ++ [SlidingSpec.interpQuantile
        (SlidingSpec.sortInts (alpha.take (i + 1))) q])
      (by omega)
      (by rw [hGS]; exact hinv2)
      (by rw [hb2a, hb1a, halpha])
      (by rw [hb2k, hb1k, hk])
      (by
        intro s hsG hsk
        obtain ⟨h1, h2⟩ := hstale1 s hsG hsk
        rw [hb2nx, hb2pv]
        exact ⟨h1, h2⟩)
    refine ⟨bf, ?_⟩
    show (b.undelete i).bind _ = _
    rw [hu1]
    simp only [Option.some_bind]
    show (quantileUpdate blockLG q b1).bind _ = _
    rw [hq2]
    simp only [Option.some_bind]
    rw [hval, hrec]
    have hlists : (acc ++ [SlidingSpec.interpQuantile
          (SlidingSpec.sortInts (alpha.take (i + 1))) q])
          ++ (List.range cnt).map (fun t => SlidingSpec.interpQuantile
            (SlidingSpec.sortInts (alpha.take (i + 1 + t + 1))) q)
        = acc ++ (List.range (cnt + 1)).map (fun t => SlidingSpec.interpQuantile
            (SlidingSpec.sortInts (alpha.take (i + t + 1))) q) := by
      rw [List.append_assoc, List.range_succ_eq_map]
      congr 1
      rw [List.map_cons, List.map_map, List.singleton_append]
      congr 1
      apply List.map_congr_left
      intro t ht
      show SlidingSpec.interpQuantile
          (SlidingSpec.sortInts (List.take (i + 1 + t + 1) alpha)) q
        = SlidingSpec.interpQuantile
            (SlidingSpec.sortInts (List.take (i + (t + 1) + 1) alpha)) q
      have harg : i + 1 + t + 1 = i + (t + 1) + 1 := by omega
      rw [harg]
    rw [hlists]

theorem undeleteAll_append (l1 l2 : List Nat) :
    ∀ b, undeleteAll b (l1 ++ l2)
      = (undeleteAll b l1).bind (fun b' => undeleteAll b' l2) := by
  induction l1 with
  | nil => intro b; rfl
  | cons p l ih =>
    intro b
    show (b.undelete p).bind (fun b' => undeleteAll b' (l ++ l2))
      = ((b.undelete p).bind (fun b' => undeleteAll b' l)).bind
          (fun b' => undeleteAll b' l2)
    cases b.undelete p with
    | none => rfl
    | some b1 =>
      simp only [Option.some_bind]
      exact ih b1

/-- Deleting distinct active positions and then undeleting them in reverse
order succeeds and restores the link arrays and the element count (the
cursor is rebuilt by each `undelete`, not restored). -/
theorem roundTrip_restores (ps : List Nat) : ∀ (b : Block) (L : List Nat),
    Inv b L → ps.Nodup → (∀ p ∈ ps, p ∈ L) →
    ∃ b2 b3, deleteAll b ps = some b2 ∧ undeleteAll b2 ps.reverse = some b3 ∧
      Inv b3 L ∧ b3.next = b.next ∧ b3.prev = b.prev ∧ b3.alpha = b.alpha ∧
      b3.pi = b.pi ∧ b3.nElement = b.nElement := by
  induction ps with
  | nil =>
    intro b L h _ _
    exact ⟨b, b, rfl, rfl, h, rfl, rfl, rfl, rfl, rfl⟩
  | cons p ps ih =>
    intro b L h hnd hmem
    have hpL : p ∈ L := hmem p (List.mem_cons_self _ _)
    obtain ⟨A, B, hL⟩ := List.append_of_mem hpL
    have hLnd := h.nodup
    have hpA : p ∉ A := by
      rw [hL] at hLnd
      exact fun hmm => (List.disjoint_of_nodup_append hLnd) hmm (List.mem_cons_self _ _)
    have hpB : p ∉ B := by
      rw [hL] at hLnd
      exact (List.nodup_cons.mp (List.nodup_append.mp hLnd).2.1).1
    have hpk : p < b.k := h.mem p hpL
    have herase : L.erase p = A ++ B := by
      rw [hL, List.erase_append_right _ hpA, List.erase_cons_head]
    obtain ⟨hnb1, hnb2, hnb3, hnb4⟩ := neighbor_links h hL
    -- step 1: delete p
    obtain ⟨b1, hd1, hinv1, -, -, -, -⟩ := delete_inv h hpL
    obtain ⟨hl1n, hl1p, hl1a, hl1pi, hl1k, hl1e⟩ := delete_links hd1
    -- the concrete link surgery of the delete
    have hPne : ((b.k :: A).getLast (by simp)) ≠ p := by
      rcases List.mem_cons.mp (List.getLast_mem (l := b.k :: A) (by simp)) with hq | hq
      · intro he; rw [he] at hq; omega
      · exact fun he => hpA (he ▸ hq)
    have hSne : ((B ++ [b.k]).head (by simp)) ≠ p := by
      rcases List.mem_append.mp (List.head_mem (l := B ++ [b.k]) (by simp)) with hq | hq
      · exact fun he => hpB (he ▸ hq)
      · simp only [List.mem_singleton] at hq
        intro he; rw [he] at hq; omega
    have hDnext : (b.deleteLink p).next
        = b.next.set ((b.k :: A).getLast (by simp)) ((B ++ [b.k]).head (by simp)) := by
      unfold Block.deleteLink
      rw [hnb1, hnb2]
    have hDprev : (b.deleteLink p).prev
        = b.prev.set ((B ++ [b.k]).head (by simp)) ((b.k :: A).getLast (by simp)) := by
      unfold Block.deleteLink
      show b.prev.set (lget (b.next.set (lget b.prev p) (lget b.next p)) p) (lget b.prev p) = _
      rw [hnb1, hnb2, lget_set_ne _ hPne, hnb2]
    -- step 2: the inner round trip on the smaller block
    obtain ⟨b2, b3, hda, hua, hinv3, h3n, h3p, h3a, h3pi, h3e⟩ :=
      ih b1 (L.erase p) hinv1 ((List.nodup_cons.mp hnd).2)
        (fun q hq => by
          have hqp : q ≠ p := fun he => (List.nodup_cons.mp hnd).1 (he ▸ hq)
          exact (List.mem_erase_of_ne hqp).mpr (hmem q (List.mem_cons_of_mem _ hq)))
    -- step 3: undelete p
    have h3inv : Inv b3 (A ++ B) := by rw [← herase]; exact hinv3
    have h3k : b3.k = b.k := by
      have hx := hinv3.sizeNext
      have hy := h.sizeNext
      rw [h3n, hl1n] at hx
      simp only [deleteLink_next_length] at hx
      omega
    have h3prev_p : lget b3.prev p = (b3.k :: A).getLast (by simp) := by
      rw [h3p, hl1p, hDprev, lget_set_ne _ hSne, hnb1, h3k]
    have h3next_p : lget b3.next p = (B ++ [b3.k]).head (by simp) := by
      rw [h3n, hl1n, hDnext, lget_set_ne _ hPne, hnb2, h3k]
    have hsorted := h.sorted
    rw [hL] at hsorted
    obtain ⟨hpwA, hpwpB, hcross⟩ := List.pairwise_append.mp hsorted
    obtain ⟨hpBlt, hpwB⟩ := List.pairwise_cons.mp hpwpB
    have h3alpha : b3.alpha = b.alpha := by rw [h3a, hl1a]
    obtain ⟨b4, hu4, hinv4, -, -, -, -⟩ :=
      undelete_inv (b := b3) (A := A) (B := B) (i := p) h3inv (by rw [h3k]; exact hpk)
        (by rw [← hL]; exact hLnd)
        (by rw [h3alpha]; exact fun a ha => hcross a ha p (List.mem_cons_self _ _))
        (by rw [h3alpha]; exact hpBlt)
        h3prev_p h3next_p
    obtain ⟨hl4n, hl4p, hl4a, hl4pi, hl4k, hl4e⟩ := undelete_links hu4
    -- the undelete surgery undoes the delete surgery
    have hUnext : (b3.undeleteLink p).next = b.next := by
      unfold Block.undeleteLink
      show b3.next.set (lget b3.prev p) p = _
      rw [h3prev_p, h3k, h3n, hl1n, hDnext, List.set_set]
      conv_rhs => rw [← lset_lget_self (l := b.next) (i := (b.k :: A).getLast (by simp))]
      rw [hnb3]
    have hUprev : (b3.undeleteLink p).prev = b.prev := by
      unfold Block.undeleteLink
      show b3.prev.set (lget (b3.next.set (lget b3.prev p) p) p) p = _
      rw [h3prev_p, h3k, lget_set_ne _ hPne, h3next_p, h3k, h3p, hl1p, hDprev,
        List.set_set]
      conv_rhs => rw [← lset_lget_self (l := b.prev) (i := (B ++ [b.k]).head (by simp))]
      rw [hnb4]
    -- assemble
    refine ⟨b2, b4, ?_, ?_, ?_, ?_, ?_, ?_, ?_, ?_⟩
    · show (b.delete p).bind (fun b' => deleteAll b' ps) = some b2
      rw [hd1]
      simpa using hda
    · rw [List.reverse_cons, undeleteAll_append, hua]
      simp only [Option.some_bind]
      show (b3.undelete p).bind (fun b' => undeleteAll b' []) = some b4
      rw [hu4]
      rfl
    · rw [← hL] at hinv4
      exact hinv4
    · rw [hl4n, hUnext]
    · rw [hl4p, hUprev]
    · rw [hl4a, h3alpha]
    · rw [hl4pi, h3pi, hl1pi]
    · rw [hl4e, h3e, hl1e, h.count, hL]
      simp
      omega
end QuantileFilter

namespace Claims

open QuantileFilter

/-- C5: the kernel output on the reference integer scenario
(`test_median_2`): `x = [10, 10, 15, 13, 9, 5, 3, 13, 19, 15, 19]`,
`k = 3`, `q = 0.5` gives exactly
`[10, 10, 10, 13, 13, 9, 5, 5, 13, 15, 19]`. -/
theorem c5_scenario4 :
    rollingQuantile 3 [10, 10, 15, 13, 9, 5, 3, 13, 19, 15, 19] (Rat.divInt 1 2) =
      some [10, 10, 10, 13, 13, 9, 5, 5, 13, 15, 19] := by decide

/-- C1 counterexample: for `k = 4`, `x = [2, 1, 1, 1, 0]`, `q = 0.5` the
kernel emits `[2, 1, 1, 1, 0]`, whereas element-by-element sliding
semantics give `[2, 1, 1, 1, 1]` (the window entering `x[4]` is
`[1, 1, 1, 0]`, whose lower median is `1`).  The batched two-block
emission therefore does not match sliding semantics. -/
theorem c1_counterexample :
    rollingQuantile 4 [2, 1, 1, 1, 0] (Rat.divInt 1 2) ≠
      some (SlidingSpec.specRollingQuantile 4 [2, 1, 1, 1, 0] (Rat.divInt 1 2)) := by decide

/-- C1 (amended, part): on the reference scenario the batched emission does
match sliding semantics. -/
theorem c1_scenario_matches_sliding :
    rollingQuantile 3 [10, 10, 15, 13, 9, 5, 3, 13, 19, 15, 19] (Rat.divInt 1 2) =
      some (SlidingSpec.specRollingQuantile 3 [10, 10, 15, 13, 9, 5, 3, 13, 19, 15, 19] (Rat.divInt 1 2)) := by
  decide

/-- C2 counterexample: for the non-empty input `x = [0, 2, 2, 1, 1, 0]`
with `k = 4 ≥ 1` and `q = 0.25`, the kernel panics (the merge loop of
`BlockUnion::get` reaches the `(None, None)` arm), so no output of length
`|x|` is produced. -/
theorem c2_counterexample :
    rollingQuantile 4 [0, 2, 2, 1, 1, 0] (Rat.divInt 1 4) = none := by decide

/-- The capacity of a freshly built and unwound block is the length of its
value slice. -/
theorem capacity_new_unwind (a : List Int) :
    Block.capacity ((Block.new a).unwind) = a.length := by
  have h1 := unwindGo_fields (Block.new a).k (Block.new a)
  have h2 := initLinks_fields
    { k := a.length, alpha := a, pi := argSortAsc a
      prev := List.replicate (a.length + 1) 0
      next := List.replicate (a.length + 1) 0
      m := (argSortAsc a).getD (a.length / 2) 0
      currentIndex := a.length / 2, nElement := a.length }
  simp only [Block.capacity, Block.unwind]
  rw [h1.2.2.2.2.1]
  exact congrArg List.length h2.2.1

/-- Each completed warm-up step appends exactly one output. -/
theorem warmupGo_length (q : ℚ) :
    ∀ (cnt i : Nat) (b : Block) (acc : List Int) (b2 : Block) (acc2 : List Int),
      warmupGo q cnt i b acc = some (b2, acc2) → acc2.length = acc.length + cnt := by
  intro cnt
  induction cnt with
  | zero =>
    intro i b acc b2 acc2 h
    simp only [warmupGo, Option.some.injEq, Prod.mk.injEq] at h
    rw [← h.2]
    omega
  | succ cnt ih =>
    intro i b acc b2 acc2 h
    simp only [warmupGo] at h
    cases hu : b.undelete i with
    | none => rw [hu] at h; simp at h
    | some b1 =>
      rw [hu] at h
      simp only [Option.bind_eq_bind, Option.some_bind] at h
      cases hq : quantileUpdate blockLG q b1 with
      | none => rw [hq] at h; simp at h
      | some p =>
        obtain ⟨v, b3⟩ := p
        rw [hq] at h
        simp only [Option.some_bind] at h
        have := ih (i + 1) b3 (acc ++ [v]) b2 acc2 h
        simp only [List.length_append, List.length_singleton] at this
        omega

/-- Each completed sliding step appends exactly one output. -/
theorem slideInner_length (q : ℚ) :
    ∀ (cnt j : Nat) (u : Union) (acc : List Int) (u2 : Union) (acc2 : List Int),
      slideInner q cnt j u acc = some (u2, acc2) → acc2.length = acc.length + cnt := by
  intro cnt
  induction cnt with
  | zero =>
    intro j u acc u2 acc2 h
    simp only [slideInner, Option.some.injEq, Prod.mk.injEq] at h
    rw [← h.2]
    omega
  | succ cnt ih =>
    intro j u acc u2 acc2 h
    simp only [slideInner] at h
    cases hs : setState u j with
    | none => rw [hs] at h; simp at h
    | some u1 =>
      rw [hs] at h
      simp only [Option.bind_eq_bind, Option.some_bind] at h
      cases hq : quantileUpdate unionLG q u1 with
      | none => rw [hq] at h; simp at h
      | some p =>
        obtain ⟨v, u3⟩ := p
        rw [hq] at h
        simp only [Option.some_bind] at h
        have := ih (j + 1) u3 (acc ++ [v]) u2 acc2 h
        simp only [List.length_append, List.length_singleton] at this
        omega

/-- Completed sliding phase: the output reaches length `n`. -/
theorem slideLoop_length (q : ℚ) (k : Nat) (slice : List Int) (hk : 1 ≤ k) :
    ∀ (cnt i : Nat) (bl : Block) (acc res : List Int),
      cnt + i = slice.length / k + 1 →
      acc.length = min (i * k) slice.length →
      slideLoop q k slice.length slice cnt i bl acc = some res →
      res.length = slice.length := by
  intro cnt
  induction cnt with
  | zero =>
    intro i bl acc res hcnt hacc h
    simp only [slideLoop, Option.some.injEq] at h
    subst h
    have hmod : slice.length % k < k := Nat.mod_lt _ hk
    have hdiv : k * (slice.length / k) + slice.length % k = slice.length :=
      Nat.div_add_mod _ _
    have hi : i = slice.length / k + 1 := by omega
    subst hi
    have hexp : (slice.length / k + 1) * k = k * (slice.length / k) + k := by ring
    rw [hexp] at hacc
    omega
  | succ cnt ih =>
    intro i bl acc res hcnt hacc h
    simp only [slideLoop] at h
    set e := min ((i + 1) * k) slice.length with he
    set alpha := (slice.drop (i * k)).take (e - i * k) with halpha
    have hlen : alpha.length = e - i * k := by
      rw [halpha, List.length_take, List.length_drop]
      omega
    by_cases hemp : alpha.isEmpty
    · rw [if_pos hemp] at h
      simp only [Option.some.injEq] at h
      subst h
      have h0 : alpha.length = 0 := by
        rw [List.isEmpty_iff] at hemp
        simp [hemp]
      have hexp : (i + 1) * k = i * k + k := by ring
      rw [hlen] at h0
      omega
    · rw [if_neg hemp] at h
      simp only [Option.bind_eq_bind] at h
      cases hs : slideInner q (Block.capacity ((Block.new alpha).unwind)) 0
          (bl, (Block.new alpha).unwind) acc with
      | none => rw [hs] at h; simp at h
      | some p =>
        obtain ⟨u2, acc2⟩ := p
        rw [hs] at h
        simp only [Option.some_bind] at h
        have hne0 : alpha.length ≠ 0 := by
          intro h0
          rw [List.isEmpty_iff] at hemp
          exact hemp (List.length_eq_zero.mp h0)
        have hcap : Block.capacity ((Block.new alpha).unwind) = alpha.length :=
          capacity_new_unwind alpha
        have hacc2 : acc2.length = acc.length + alpha.length := by
          have := slideInner_length q (Block.capacity ((Block.new alpha).unwind)) 0
            (bl, (Block.new alpha).unwind) acc u2 acc2 hs
          rw [hcap] at this
          exact this
        apply ih (i + 1) u2.2 acc2 res (by omega) _ h
        have hexp : (i + 1) * k = i * k + k := by ring
        rw [hacc2, hlen, hacc]
        omega

/-- C2 (amended): whenever `rolling_quantile` returns normally, the output
has exactly the length of the input (for some valid inputs it panics
instead — see `c2_counterexample`). -/
theorem c2_amended (k : Nat) (x : List Int) (q : ℚ) (out : List Int)
    (h : rollingQuantile k x q = some out) : out.length = x.length := by
  unfold rollingQuantile at h
  by_cases hk : min k x.length = 0
  · rw [if_pos hk] at h; exact absurd h (by simp)
  · rw [if_neg hk] at h
    dsimp only at h
    cases hw : warmupGo q (Block.capacity ((Block.new (x.take (min k x.length))).unwind)) 0
        ((Block.new (x.take (min k x.length))).unwind) [] with
    | none => rw [hw] at h; exact absurd h (by simp)
    | some p =>
      obtain ⟨b1, acc1⟩ := p
      rw [hw] at h
      have hcap : Block.capacity ((Block.new (x.take (min k x.length))).unwind) =
          min k x.length := by
        rw [capacity_new_unwind, List.length_take]
        omega
      have hacc1 : acc1.length = min k x.length := by
        have := warmupGo_length q _ 0 _ [] b1 acc1 hw
        rw [hcap] at this
        simpa using this
      have hkk : 1 ≤ min k x.length := Nat.one_le_iff_ne_zero.mpr hk
      have hmin : min k x.length ≤ x.length := Nat.min_le_right _ _
      apply slideLoop_length q (min k x.length) x hkk (x.length / min k x.length) 1 b1 acc1 out
        (by omega) _ h
      rw [hacc1, one_mul]
      omega

/-- Witness for `c2_amended` at the reference scenario input. -/
theorem c2_amended_witness :
    ([10, 10, 10, 13, 13, 9, 5, 5, 13, 15, 19] : List Int).length =
      ([10, 10, 15, 13, 9, 5, 3, 13, 19, 15, 19] : List Int).length :=
  c2_amended 3 [10, 10, 15, 13, 9, 5, 3, 13, 19, 15, 19] (Rat.divInt 1 2)
    [10, 10, 10, 13, 13, 9, 5, 5, 13, 15, 19] (by decide)

/-- C3 counterexample: for `k = 0 < 1` (an `InvalidArgument` situation per
the spec), `rolling_quantile` does not report an error value to the caller:
it panics with a division by zero (`slice.len() / k`). -/
theorem c3_counterexample :
    rollingQuantile 0 [1] (Rat.divInt 1 2) = none := by decide

/-- C3 (amended): whenever `k < 1` or the input is empty (i.e. the clamped
width is zero), `rolling_quantile` panics; no error value is returned. -/
theorem c3_amended (k : Nat) (x : List Int) (q : ℚ) (h : min k x.length = 0) :
    rollingQuantile k x q = none := by
  unfold rollingQuantile
  simp [h]

/-- Witness for `c3_amended` at `k = 0`, `x = [1]`, `q = 1/2`. -/
theorem c3_amended_witness :
    min 0 ([1] : List Int).length = 0 ∧ rollingQuantile 0 [1] (Rat.divInt 1 2) = none :=
  ⟨by decide, c3_amended 0 [1] (Rat.divInt 1 2) (by decide)⟩

/-- C4: at `k = 3`, `x = [1, 2, 3, 4, 5, 6, 7, 8]`, `rolling_median`
panics while accumulating its third sliding output (its broken
`BlockUnion::get` advances a cursor past the end, after which
`delete` indexes `alpha` at `tail`), and in the source it returns `()`
rather than any sequence, while `rolling_quantile(3, x, 0.5)` returns all
eight outputs — so `rolling_median(k, x) ≡ rolling_quantile(k, x, 0.5)`
fails on the code as written. -/
theorem c4_median_diverges :
    MedianFilter.rollingMedian 3 [1, 2, 3, 4, 5, 6, 7, 8] = none ∧
    rollingQuantile 3 [1, 2, 3, 4, 5, 6, 7, 8] (Rat.divInt 1 2) =
      some [1, 1, 2, 3, 4, 5, 6, 7] := by decide

/-- C8 counterexample: `unwind` does not reset `current_index`: for the
fresh two-element block it stays `1` (the construction-time `k/2`), not
`0`. -/
theorem c8_counterexample :
    ((Block.new [5, 7]).unwind).currentIndex ≠ 0 := by decide

/-- C7 counterexample: from the full Block over `[0, 1]` and the
permutation `p = [1, 0]`, `delete(1); delete(0); undelete(0); undelete(1)`
does not return the Block to its initial state (the cursor ends at
`m = 0`, `current_index = 0` instead of `m = 1`, `current_index = 1`). -/
theorem c7_counterexample :
    (do
      let b1 ← (Block.new [0, 1]).delete 1
      let b2 ← b1.delete 0
      let b3 ← b2.undelete 0
      b3.undelete 1) ≠ some (Block.new [0, 1]) := by decide

/-- C6 counterexample: starting from the fresh Block over `[1, 2, 3]`,
`delete(0)` and `delete(1)` each preserve the claimed invariants (with
active sets `[1, 2]` then `[2]`), but the subsequent `undelete(0)` — whose
only documented precondition, that `0` be inactive, holds — produces a
state violating P1: the two-step `next` walk from `next[tail]` visits
`[0, 1]`, not the active set `{0, 2}` (position `1`'s stale links were
retargeted by the second delete). -/
theorem c6_counterexample :
    (Block.new [1, 2, 3]).delete 0 =
      some ⟨3, [1, 2, 3], [0, 1, 2], [3, 3, 1, 2], [1, 2, 3, 1], 1, 0, 2⟩ ∧
    claimInv ⟨3, [1, 2, 3], [0, 1, 2], [3, 3, 1, 2], [1, 2, 3, 1], 1, 0, 2⟩ [1, 2] ∧
    Block.delete ⟨3, [1, 2, 3], [0, 1, 2], [3, 3, 1, 2], [1, 2, 3, 1], 1, 0, 2⟩ 1 =
      some ⟨3, [1, 2, 3], [0, 1, 2], [3, 3, 3, 2], [1, 2, 3, 2], 2, 0, 1⟩ ∧
    claimInv ⟨3, [1, 2, 3], [0, 1, 2], [3, 3, 3, 2], [1, 2, 3, 2], 2, 0, 1⟩ [2] ∧
    Block.undelete ⟨3, [1, 2, 3], [0, 1, 2], [3, 3, 3, 2], [1, 2, 3, 2], 2, 0, 1⟩ 0 =
      some ⟨3, [1, 2, 3], [0, 1, 2], [3, 0, 3, 2], [1, 2, 3, 0], 2, 1, 2⟩ ∧
    ¬ claimInv ⟨3, [1, 2, 3], [0, 1, 2], [3, 0, 3, 2], [1, 2, 3, 0], 2, 1, 2⟩ [0, 2] := by
  decide

/-- C8 (amended): after `unwind()` the cursor is at `tail` (`m = k`) and
`n_element = 0`, but `current_index` is NOT reset: it keeps whatever value
it had before the call. -/
theorem c8_amended (b : Block) :
    (b.unwind).m = b.k ∧ (b.unwind).nElement = 0 ∧
    (b.unwind).currentIndex = b.currentIndex := by
  obtain ⟨hk, hc, -, -, -, -⟩ := unwindGo_fields b.k b
  exact ⟨hk, rfl, hc⟩

/-- Witness for `c8_amended` at the fresh block over `[5, 7]`. -/
theorem c8_amended_witness :
    ((Block.new [5, 7]).unwind).m = (Block.new [5, 7]).k ∧
    ((Block.new [5, 7]).unwind).nElement = 0 ∧
    ((Block.new [5, 7]).unwind).currentIndex = (Block.new [5, 7]).currentIndex :=
  c8_amended (Block.new [5, 7])

/-- C9: for the integer element instance, whenever the view has length
`≥ 1`, the quantile `q` lies in `[0, 1]`, and `lo = ⌊(L-1)·q⌋` differs
from `hi = ⌈(L-1)·q⌉`, any value returned by the quantile selector is
exactly the lower element `get(lo)` (evaluated at the entry state): the
interpolation fraction cast to the integral type truncates to zero. -/
theorem c9_integral_truncates {σ : Type} (L : LenGetI σ) (s : σ) (q : ℚ)
    (hlen : 1 ≤ L.len s) (hq0 : 0 ≤ q) (hq1 : q ≤ 1)
    (hne : ⌊((L.len s : ℚ) - 1) * q⌋ ≠ ⌈((L.len s : ℚ) - 1) * q⌉) :
    ∀ out, quantileUpdate L q s = some out →
      Option.map (fun vs => vs.1)
        (L.get s (⌊((L.len s : ℚ) - 1) * q⌋).toNat) = some out.1 := by
  intro out hout
  have hcast : ((L.len s : ℚ) - 1) = (((L.len s : Int) - 1 : Int) : ℚ) := by
    push_cast; ring
  have hx : (0 : Int) ≤ (L.len s : Int) - 1 := by omega
  have ht : (0 : ℚ) ≤ ((L.len s : ℚ) - 1) * q := by
    apply mul_nonneg _ hq0
    rw [hcast]
    exact_mod_cast hx
  have hfl : ⌊((L.len s : ℚ) - 1) * q⌋ = floorMulQ ((L.len s : Int) - 1) q := by
    rw [hcast, floorMulQ_eq_floor]
  have hcl : ⌈((L.len s : ℚ) - 1) * q⌉ = ceilMulQ ((L.len s : Int) - 1) q := by
    rw [hcast, ceilMulQ_eq_ceil]
  have hfl0 : 0 ≤ floorMulQ ((L.len s : Int) - 1) q := by
    rw [← hfl]
    exact Int.floor_nonneg.mpr ht
  have hcl0 : 0 ≤ ceilMulQ ((L.len s : Int) - 1) q := by
    rw [← hcl]
    exact le_trans (Int.floor_nonneg.mpr ht) (Int.floor_le_ceil _)
  have hneNat : (floorMulQ ((L.len s : Int) - 1) q).toNat ≠
      (ceilMulQ ((L.len s : Int) - 1) q).toNat := by
    intro h
    apply hne
    rw [hfl, hcl, ← Int.toNat_of_nonneg hfl0, ← Int.toNat_of_nonneg hcl0, h]
  have hidxcast : (((floorMulQ ((L.len s : Int) - 1) q).toNat : Int)) =
      floorMulQ ((L.len s : Int) - 1) q := Int.toNat_of_nonneg hfl0
  rw [hfl]
  unfold quantileUpdate at hout
  rw [if_neg hneNat, hidxcast, truncMulQSub_floor_eq_zero] at hout
  cases hg1 : L.get s ((floorMulQ ((L.len s : Int) - 1) q).toNat) with
  | none => rw [hg1] at hout; exact absurd hout (by simp)
  | some p =>
    obtain ⟨vi, s1⟩ := p
    rw [hg1] at hout
    simp only [Option.bind_eq_bind, Option.some_bind] at hout
    cases hg2 : L.get s1 ((ceilMulQ ((L.len s : Int) - 1) q).toNat) with
    | none => rw [hg2] at hout; exact absurd hout (by simp)
    | some p2 =>
      obtain ⟨vj, s2⟩ := p2
      rw [hg2] at hout
      simp only [Option.bind_eq_bind, Option.some_bind, zero_mul, zero_add,
        Option.some.injEq] at hout
      simp [← hout]

/-- Witness for `c9_integral_truncates` at the fresh block over `[3, 5]`
with `q = 1/2` (`L = 2`, `lo = 0 ≠ 1 = hi`): the selector returns the
lower element `3`. -/
theorem c9_witness :
    1 ≤ blockLG.len (Block.new [3, 5]) ∧
    Option.map (fun vs => vs.1)
      (blockLG.get (Block.new [3, 5])
        (⌊((blockLG.len (Block.new [3, 5]) : ℚ) - 1) * Rat.divInt 1 2⌋).toNat) = some 3 :=
  ⟨by decide,
   c9_integral_truncates blockLG (Block.new [3, 5]) (Rat.divInt 1 2) (by decide)
     (by decide) (by decide)
     (by
       rw [show ((blockLG.len (Block.new [3, 5]) : ℚ) - 1) =
           (((blockLG.len (Block.new [3, 5]) : Int) - 1 : Int) : ℚ) by push_cast; ring,
         ← floorMulQ_eq_floor, ← ceilMulQ_eq_ceil]
       decide)
     (3, ⟨2, [3, 5], [0, 1], [2, 0, 1], [1, 2, 0], 1, 1, 2⟩) (by decide)⟩

/-- C10 counterexample: both blocks (over `[1]` and `[2]`, cursors
advanced past the end) satisfy the claimed invariants, the union length is
`2 > 0` and the rank `0 < 2`, yet `BlockUnion::get(0)` reaches the
`(None, None)` `panic!()` arm: the invariants alone do not make the panic
branch unreachable. -/
theorem c10_counterexample :
    claimInv ((Block.new [1]).advance) [0] ∧
    claimInv ((Block.new [2]).advance) [0] ∧
    ((Block.new [1]).advance).nElement + ((Block.new [2]).advance).nElement = 2 ∧
    unionGet ((Block.new [1]).advance, (Block.new [2]).advance) 0 = none := by decide

/-- C7 (amended): deleting any duplicate-free sequence of active positions
and then undeleting them in reverse order succeeds and restores the link
arrays (`prev`, `next`), the element count, the values and the sort
permutation — only the cursor (`m`, `current_index`) can end elsewhere
(see the counterexample). -/
theorem c7_amended (ps : List Nat) {b : Block} {L : List Nat}
    (h : Inv b L) (hnd : ps.Nodup) (hmem : ∀ p ∈ ps, p ∈ L) :
    ∃ b2 b3, deleteAll b ps = some b2 ∧ undeleteAll b2 ps.reverse = some b3 ∧
      b3.prev = b.prev ∧ b3.next = b.next ∧ b3.alpha = b.alpha ∧
      b3.pi = b.pi ∧ b3.nElement = b.nElement := by
  obtain ⟨b2, b3, hda, hua, -, h3n, h3p, h3a, h3pi, h3e⟩ :=
    roundTrip_restores ps b L h hnd hmem
  exact ⟨b2, b3, hda, hua, h3p, h3n, h3a, h3pi, h3e⟩

/-- Witness for `c7_amended`: the round trip `delete(1); delete(0);
undelete(0); undelete(1)` on the fresh block over `[0, 1]`. -/
theorem c7_amended_witness :
    ∃ b2 b3, deleteAll (Block.new [0, 1]) [1, 0] = some b2 ∧
      undeleteAll b2 [0, 1] = some b3 ∧
      b3.prev = (Block.new [0, 1]).prev ∧ b3.next = (Block.new [0, 1]).next ∧
      b3.alpha = (Block.new [0, 1]).alpha ∧ b3.pi = (Block.new [0, 1]).pi ∧
      b3.nElement = (Block.new [0, 1]).nElement :=
  c7_amended [1, 0] (new_inv [0, 1]).1 (by decide)
    (by show ∀ p ∈ [1, 0], p ∈ argSortAsc [0, 1]; decide)

/-- C10 (amended): `BlockUnion::get(i)` returns normally given the
representation invariants of the two blocks, `i < left.n_element +
right.n_element`, and additionally — the corrected part — that the two
cursor ranks sum to at most `i`; the merge loop then reaches rank `i`
before running off both ends, so the `(None, None)` `panic!()` arm is
unreachable. -/
theorem c10_amended {u : Union} {Ll Lr : List Nat} {i : Nat}
    (h1 : Inv u.1 Ll) (h2 : Inv u.2 Lr)
    (hi : i < Ll.length + Lr.length)
    (hs : u.1.currentIndex + u.2.currentIndex ≤ i) :
    ∃ out, unionGet u i = some out := by
  unfold unionGet
  by_cases hr0 : u.2.nElement = 0
  · rw [if_pos hr0]
    have hLr : Lr = [] := by
      rw [h2.count] at hr0
      exact List.length_eq_zero.mp hr0
    have hilt : i < Ll.length := by
      rw [hLr] at hi
      simpa using hi
    obtain ⟨hinv, hcur, -, -, -, -, -, -⟩ := traverseToIndex_inv h1 (le_of_lt hilt)
    rcases peek_inv hinv (List.ne_nil_of_length_pos (by omega)) with ⟨-, v, hp⟩ | ⟨heq, -⟩
    · dsimp only
      rw [hp]
      exact ⟨_, rfl⟩
    · rw [hcur] at heq
      omega
  · rw [if_neg hr0]
    by_cases hl0 : u.1.nElement = 0
    · rw [if_pos hl0]
      have hLl : Ll = [] := by
        rw [h1.count] at hl0
        exact List.length_eq_zero.mp hl0
      have hilt : i < Lr.length := by
        rw [hLl] at hi
        simpa using hi
      obtain ⟨hinv, hcur, -, -, -, -, -, -⟩ := traverseToIndex_inv h2 (le_of_lt hilt)
      rcases peek_inv hinv (List.ne_nil_of_length_pos (by omega)) with ⟨-, v, hp⟩ | ⟨heq, -⟩
      · dsimp only
        rw [hp]
        exact ⟨_, rfl⟩
      · rw [hcur] at heq
        omega
    · rw [if_neg hl0]
      have hne1 : Ll ≠ [] := by
        intro h0
        rw [h1.count, h0] at hl0
        exact hl0 rfl
      have hne2 : Lr ≠ [] := by
        intro h0
        rw [h2.count, h0] at hr0
        exact hr0 rfl
      rcases unionReverse_cases u with he | he | he <;> rw [he]
      · exact unionGetLoop_some hne1 hne2 hi (i + 2) u h1 h2 hs (by omega)
      · refine unionGetLoop_some hne1 hne2 hi (i + 2) (u.1.reverse, u.2)
          (reverse_inv h1) h2 ?_ (by omega)
        show u.1.reverse.currentIndex + u.2.currentIndex ≤ i
        have := reverse_currentIndex_le u.1
        omega
      · refine unionGetLoop_some hne1 hne2 hi (i + 2) (u.1, u.2.reverse)
          h1 (reverse_inv h2) ?_ (by omega)
        show u.1.currentIndex + u.2.reverse.currentIndex ≤ i
        have := reverse_currentIndex_le u.2
        omega

/-- Witness for `c10_amended`: the union of the fresh single-element blocks
over `[1]` and `[2]` with both cursors reset to rank 0, at rank `i = 0`. -/
theorem c10_amended_witness :
    ∃ out, unionGet ((Block.new [1]).reset, (Block.new [2]).reset) 0 = some out :=
  @c10_amended ((Block.new [1]).reset, (Block.new [2]).reset)
    (argSortAsc [1]) (argSortAsc [2]) 0
    (reset_inv (new_inv [1]).1) (reset_inv (new_inv [2]).1)
    (by decide) (by decide)

/-- C6 (amended): every public `Block` operation, run on a block satisfying
the representation invariant under its documented precondition — with
`undelete(i)` strengthened to require that `i`'s retained `prev`/`next`
links still name its sorted splice points among the active positions —
returns normally and preserves the claimed invariants P1 and P3, with the
active set updated accordingly (dropped for `delete`, sorted-inserted for
`undelete`, emptied for `unwind`). -/
theorem c6_amended {b : Block} {L : List Nat} (op : BOp) (h : Inv b L)
    (hpre : opPre op b L) :
    ∃ b', applyOp op b = some b' ∧ Inv b' (ghostOp op b L) ∧
      claimInv b' (ghostOp op b L) := by
  obtain ⟨b', hb', hinv⟩ := applyOp_inv op h hpre
  exact ⟨b', hb', hinv, hinv.toClaimInv⟩

/-- The sliding inner loop only ever appends to its accumulator. -/
theorem slideInner_extends (q : ℚ) :
    ∀ (cnt j : Nat) (u : Union) (acc : List Int) (u2 : Union) (acc2 : List Int),
      slideInner q cnt j u acc = some (u2, acc2) → ∃ r, acc2 = acc ++ r := by
  intro cnt
  induction cnt with
  | zero =>
    intro j u acc u2 acc2 h
    simp only [slideInner, Option.some.injEq, Prod.mk.injEq] at h
    exact ⟨[], by rw [← h.2]; simp⟩
  | succ cnt ih =>
    intro j u acc u2 acc2 h
    simp only [slideInner] at h
    cases hs : setState u j with
    | none => rw [hs] at h; simp at h
    | some u1 =>
      rw [hs] at h
      simp only [Option.bind_eq_bind, Option.some_bind] at h
      cases hq : quantileUpdate unionLG q u1 with
      | none => rw [hq] at h; simp at h
      | some vu =>
        obtain ⟨v, u'⟩ := vu
        rw [hq] at h
        simp only [Option.some_bind] at h
        obtain ⟨r, hr⟩ := ih (j + 1) u' (acc ++ [v]) u2 acc2 h
        exact ⟨[v] ++ r, by rw [hr]; simp⟩

/-- The sliding outer loop only ever appends to its accumulator. -/
theorem slideLoop_extends (q : ℚ) (k n : Nat) (slice : List Int) :
    ∀ (cnt i : Nat) (bl : Block) (acc res : List Int),
      slideLoop q k n slice cnt i bl acc = some res → ∃ r, res = acc ++ r := by
  intro cnt
  induction cnt with
  | zero =>
    intro i bl acc res h
    simp only [slideLoop, Option.some.injEq] at h
    exact ⟨[], by rw [← h]; simp⟩
  | succ cnt ih =>
    intro i bl acc res h
    simp only [slideLoop] at h
    set e := min ((i + 1) * k) n with he
    set alpha := (slice.drop (i * k)).take (e - i * k) with halpha
    by_cases hemp : alpha.isEmpty
    · rw [if_pos hemp] at h
      simp only [Option.some.injEq] at h
      exact ⟨[], by rw [← h]; simp⟩
    · rw [if_neg hemp] at h
      simp only [Option.bind_eq_bind] at h
      cases hs : slideInner q (Block.capacity ((Block.new alpha).unwind)) 0
          (bl, (Block.new alpha).unwind) acc with
      | none => rw [hs] at h; simp at h
      | some p =>
        obtain ⟨u2, acc2⟩ := p
        rw [hs] at h
        simp only [Option.some_bind] at h
        obtain ⟨r1, hr1⟩ := slideInner_extends q _ 0 _ acc u2 acc2 hs
        obtain ⟨r2, hr2⟩ := ih (i + 1) u2.2 acc2 res h
        exact ⟨r1 ++ r2, by rw [hr2, hr1]; simp⟩

/-- C1 (amended): the warm-up phase matches element-by-element sliding
semantics on every input: whenever `rolling_quantile(k, x, q)` returns
normally, with `q ∈ [0, 1]`, the first `min(k, |x|)` outputs equal the
first `min(k, |x|)` sliding-window interpolated quantiles.  (Past the
warm-up the batched emission can diverge from the sliding semantics — see
the counterexample.) -/
theorem c1_amended (k : Nat) (x : List Int) (q : ℚ) (out : List Int)
    (hq0 : 0 ≤ q) (hq1 : q ≤ 1)
    (h : rollingQuantile k x q = some out) :
    out.take (min k x.length)
      = (SlidingSpec.specRollingQuantile k x q).take (min k x.length) := by
  unfold rollingQuantile at h
  by_cases hk : min k x.length = 0
  · rw [if_pos hk] at h
    exact absurd h (by simp)
  · rw [if_neg hk] at h
    dsimp only at h
    set kp := min k x.length with hkp
    set alpha := x.take kp with halphadef
    have hkk : 1 ≤ kp := Nat.one_le_iff_ne_zero.mpr hk
    have hmin : kp ≤ x.length := Nat.min_le_right _ _
    have hminK : kp ≤ k := Nat.min_le_left _ _
    have halen : alpha.length = kp := by
      rw [halphadef, List.length_take]
      omega
    have hcap : Block.capacity ((Block.new alpha).unwind) = kp := by
      rw [capacity_new_unwind, halen]
    obtain ⟨hInvN, hkN, haN, hpiN, hnN, hcN⟩ := new_inv alpha
    have hmemF : ∀ y, y ∈ argSortAsc alpha ↔ y < alpha.length := by
      intro y
      rw [(argSort_spec alpha).1.mem_iff, List.mem_range]
    obtain ⟨hInv0, h0k, h0a, h0pi, h0m, h0c, h0n⟩ :=
      unwind_inv hInvN (by intro y; rw [hkN]; exact hmemF y)
    have hfil0 : (argSortAsc alpha).filter (fun y => decide (y < 0)) = [] := by
      apply List.filter_eq_nil.mpr
      intro a _
      simp
    obtain ⟨bf, hwspec⟩ := warmupGo_spec q hq0 hq1 alpha
      (Block.capacity ((Block.new alpha).unwind)) 0
      ((Block.new alpha).unwind) []
      (by rw [hcap, halen]; omega)
      (by rw [hfil0]; exact hInv0)
      (by rw [h0a, haN])
      (by rw [h0k, hkN])
      (fun s _ _ => ⟨rfl, rfl⟩)
    rw [hwspec] at h
    obtain ⟨r, hout⟩ := slideLoop_extends q kp x.length x (x.length / kp) 1 bf _ out h
    rw [hout]
    simp only [List.nil_append]
    have hlenacc : ((List.range (Block.capacity ((Block.new alpha).unwind))).map
        (fun t => SlidingSpec.interpQuantile
          (SlidingSpec.sortInts (alpha.take (0 + t + 1))) q)).length = kp := by
      rw [List.length_map, List.length_range, hcap]
    rw [List.take_left' hlenacc]
    unfold SlidingSpec.specRollingQuantile
    rw [← List.map_take, List.take_range]
    have hminr : min kp x.length = kp := by omega
    rw [hminr, hcap]
    apply List.map_congr_left
    intro t ht
    rw [List.mem_range] at ht
    have hwin : SlidingSpec.window k x t = alpha.take (0 + t + 1) := by
      unfold SlidingSpec.window
      rw [halphadef, List.take_take]
      have hz : t + 1 - k = 0 := by omega
      rw [hz, List.drop_zero]
      congr 1
      omega
    rw [hwin]

/-- Witness for `c1_amended` at the reference scenario. -/
theorem c1_amended_witness :
    ([10, 10, 10, 13, 13, 9, 5, 5, 13, 15, 19] : List Int).take
        (min 3 ([10, 10, 15, 13, 9, 5, 3, 13, 19, 15, 19] : List Int).length)
      = (SlidingSpec.specRollingQuantile 3 [10, 10, 15, 13, 9, 5, 3, 13, 19, 15, 19]
          (Rat.divInt 1 2)).take
          (min 3 ([10, 10, 15, 13, 9, 5, 3, 13, 19, 15, 19] : List Int).length) :=
  c1_amended 3 [10, 10, 15, 13, 9, 5, 3, 13, 19, 15, 19] (Rat.divInt 1 2)
    [10, 10, 10, 13, 13, 9, 5, 5, 13, 15, 19] (by decide) (by decide) (by decide)

/-- Witness for `c6_amended`: deleting the active position `1` from the
fresh block over `[3, 5]`. -/
theorem c6_amended_witness :
    ∃ b', applyOp (BOp.delete 1) (Block.new [3, 5]) = some b' ∧
      Inv b' (ghostOp (BOp.delete 1) (Block.new [3, 5]) (argSortAsc [3, 5])) ∧
      claimInv b' (ghostOp (BOp.delete 1) (Block.new [3, 5]) (argSortAsc [3, 5])) :=
  c6_amended (BOp.delete 1) (new_inv [3, 5]).1
    (by show (1 : Nat) ∈ argSortAsc [3, 5]; decide)

end Claims
